import Mathlib

/-!
# Verification of the BrainDump agent's reconciliation engine

Shallow embedding of `src/app.py` (and, where cited, `src/run_agent.py`)
over `List Char` strings, together with proofs settling the frozen claims.

Python strings are modelled as `List Char`.  `src/app.py` contains
mojibake byte sequences (the em dash appears as the three characters
U+00E2 U+20AC U+201D, the arrow as U+00E2 U+2020 U+2019); the embedding
reproduces those exact characters.  Non-ASCII whitespace, non-ASCII case
mapping and Python line-break characters beyond `\n`, `\r\n`, `\r` are
outside the modelled character set.
-/

namespace BrainDump

/-- Python strings. -/
abbrev Str := List Char

/-- ASCII whitespace as recognised by Python's `str.strip` and by `\s`
in the `re` patterns of the source (` `, tab, newline, carriage return,
vertical tab, form feed). -/
def pyIsSpace (c : Char) : Bool :=
  c = ' ' || c = '\t' || c = '\n' || c = '\r' || c = '\x0b' || c = '\x0c'

/-- `str.lstrip()`. -/
def pyLstrip (s : Str) : Str := s.dropWhile pyIsSpace

/-- `str.rstrip()`. -/
def pyRstrip (s : Str) : Str := (s.reverse.dropWhile pyIsSpace).reverse

/-- `str.strip()`. -/
def pyStrip (s : Str) : Str := pyLstrip (pyRstrip s)

/-- `str.lower()` (ASCII case mapping, as used by the source's patterns). -/
def pyLower (s : Str) : Str := s.map Char.toLower

/-- Python's substring test `sub in s`. -/
def pyIn (sub s : Str) : Bool := decide (sub <:+: s)

/-- Python's `s.startswith(pre)`. -/
def pyStartswith (pre s : Str) : Bool := decide (pre <+: s)

/-- Python's `s.endswith(suf)`. -/
def pyEndswith (suf s : Str) : Bool := decide (suf <:+ s)

/-- `s.split(sep, 1)` at the first occurrence of `sep`; `none` when `sep`
does not occur.  (`sep` is never empty in the source.) -/
def splitOnce (sep : Str) : Str → Option (Str × Str)
  | [] => if pyStartswith sep [] then some ([], []) else none
  | c :: t =>
    if pyStartswith sep (c :: t) then some ([], (c :: t).drop sep.length)
    else (splitOnce sep t).map fun p => (c :: p.1, p.2)

/-- Python's `str.splitlines()` restricted to the `\n`, `\r\n`, `\r`
line boundaries (the only ones occurring in the system's documents):
no trailing empty line for a terminal break, `[]` on the empty string. -/
def pySplitlines : Str → List Str
  | [] => []
  | '\r' :: '\n' :: rest => [] :: pySplitlines rest
  | '\n' :: rest => [] :: pySplitlines rest
  | '\r' :: rest => [] :: pySplitlines rest
  | c :: rest =>
    match pySplitlines rest with
    | [] => [[c]]
    | l :: ls => (c :: l) :: ls

/-- `"\n".join(lines)`. -/
def joinNL : List Str → Str
  | [] => []
  | [l] => l
  | l :: ls => l ++ '\n' :: joinNL ls

/-! ## Regex matchers

Each matcher is the exact semantics of one compiled pattern of the
source, characterised on the inputs the source feeds it (single lines,
which contain no line-break characters; the behaviour on embedded `\n`
follows `.`-does-not-match-newline and end-anchor semantics). -/

/-- The em dash of `src/app.py`, which the file stores as the mojibake
three-character sequence U+00E2 U+20AC U+201D. -/
def DASH : Str := ['â', '€', '”']

/-- The arrow of `src/app.py`, stored as the mojibake sequence
U+00E2 U+2020 U+2019. -/
def ARROW : Str := ['â', '†', '’']

/-- The last character of `s` that is not `'\n'`. -/
def lastNonNL (s : Str) : Option Char := (s.filter (fun c => c ≠ '\n')).getLast?

/-- Semantics of the regex tail `\s*(.+?)\s*$` (greedy/lazy interplay
with backtracking): if `r` has a non-whitespace character the group is
`r.strip()` provided it spans no `'\n'`; if `r` is all whitespace the
group is its last non-`'\n'` character (e.g. `"- [x] "` matches
`DONE_LINE_RE` with group `" "`). -/
def tailPayload (r : Str) : Option Str :=
  let core := pyStrip r
  if core ≠ [] then
    if core.contains '\n' then none else some core
  else
    (lastNonNL r).map ([·])

/-- `DONE_LINE_RE = ^\s*-\s*\[x\]\s*(.+?)\s*$` with `re.IGNORECASE`:
returns group 1. -/
def doneLineMatch (line : Str) : Option Str :=
  match pyLstrip line with
  | '-' :: r =>
    match pyLstrip r with
    | '[' :: x :: ']' :: rest =>
      if x = 'x' || x = 'X' then tailPayload rest else none
    | _ => none
  | _ => none

/-- `DATED_DONE_RE = ^\s*-\s*\[x\]\s*(\d{4}-\d{2}-\d{2})\s*DASH\s*(.+?)\s*$`
(case-sensitive): returns (date group, text group). -/
def datedDoneMatch (line : Str) : Option (Str × Str) :=
  match pyLstrip line with
  | '-' :: r =>
    match pyLstrip r with
    | '[' :: 'x' :: ']' :: rest =>
      match pyLstrip rest with
      | a :: b :: c :: d :: '-' :: e :: f :: '-' :: g :: h :: rest2 =>
        if a.isDigit && b.isDigit && c.isDigit && d.isDigit &&
           e.isDigit && f.isDigit && g.isDigit && h.isDigit then
          let rest3 := pyLstrip rest2
          if pyStartswith DASH rest3 then
            (tailPayload (rest3.drop DASH.length)).map
              fun g2 => ([a, b, c, d, '-', e, f, '-', g, h], g2)
          else none
        else none
      | _ => none
    | _ => none
  | _ => none

/-- `META_RE = ^<!--\s*meta:\s*(\x7b.*\x7d)\s*-->$`, as applied by the
source to already-stripped single lines: returns the brace-delimited
payload (greedy `.*`, so up to the last eligible `\x7d`). -/
def metaLineMatch (line : Str) : Option Str :=
  if pyStartswith "<!--".toList line then
    let r1 := pyLstrip (line.drop 4)
    if pyStartswith "meta:".toList r1 then
      let r2 := pyLstrip (r1.drop 5)
      if pyEndswith "-->".toList r2 then
        let v := pyRstrip (r2.take (r2.length - 3))
        match v with
        | '\x7b' :: _ =>
          if v.getLast? = some '\x7d' && !v.contains '\n' then some v else none
        | _ => none
      else none
    else none
  else none

/-- The group of the lazy `(.+?)\*\*` tail of the task pattern: the
characters before the first `**` occurrence at index ≥ 1, failing on an
intervening `'\n'`. -/
def firstStarStar : Str → Option Str
  | [] => none
  | c :: t =>
    if c = '\n' then none
    else if pyStartswith ['*', '*'] t then some [c]
    else (firstStarStar t).map (c :: ·)

/-- `re.match(r"^\d+\.\s*\*\*(.+?)\*\*", line)`: returns group 1. -/
def taskLineMatch (line : Str) : Option Str :=
  match line with
  | c :: _ =>
    if c.isDigit then
      match line.dropWhile Char.isDigit with
      | '.' :: r2 =>
        let r3 := pyLstrip r2
        if pyStartswith ['*', '*'] r3 then firstStarStar (r3.drop 2)
        else none
      | _ => none
    else none
  | _ => none

/-- After group 1 of the parking pattern: `\s*DASH`; returns the text
after the dash when the input is whitespace followed by `DASH`. -/
def wsThenDash (s : Str) : Option Str :=
  let s' := pyLstrip s
  if pyStartswith DASH s' then some (s'.drop DASH.length) else none

/-- The `\s*(.+)$` tail of the parking pattern on a `'\n'`-free rest:
greedy `\s*` backtracking one character when the rest is all
whitespace; the group keeps trailing whitespace. -/
def parkTail (rest : Str) : Option Str :=
  if rest = [] then none
  else
    let w := rest.takeWhile pyIsSpace
    if w.length = rest.length then some (rest.drop (rest.length - 1))
    else some (rest.drop w.length)

/-- `re.match(r"^-\s*(.+?)\s*DASH\s*(.+)$", line)` on a `'\n'`-free
line.  Backtracking order: the leading greedy `\s*` takes its maximal
length `L` first and the lazy group grows from position `L+1`; on
global failure the `\s*` shrinks, which tries the remaining start
positions `L, L-1, …, 1` in that order. -/
def parkingLineMatch (line : Str) : Option (Str × Str) :=
  match line with
  | '-' :: p =>
    let L := (p.takeWhile pyIsSpace).length
    let test : Nat → Bool := fun j =>
      match wsThenDash (p.drop j) with
      | some rest => (parkTail rest).isSome
      | none => false
    let js := List.range' (L + 1) (p.length - L) ++ (List.range' 1 L).reverse
    match js.find? test with
    | some j =>
      let start := if j > L then L else j - 1
      match wsThenDash (p.drop j) with
      | some rest => (parkTail rest).map fun g2 => ((p.drop start).take (j - start), g2)
      | none => none
    | none => none
  | _ => none

/-! ## Metadata and document splitting (`src/app.py` 202-309) -/

/-- `"## Done Archive"`. -/
def DONE_ARCHIVE_HEADER : Str := "## Done Archive".toList

/-- `strip_metadata`: drop every line matching `META_RE`, rejoin, strip. -/
def strip_metadata (text : Str) : Str :=
  pyStrip (joinNL ((pySplitlines text).filter fun l => (metaLineMatch (pyStrip l)).isNone))

/-- `get_metadata`: the first metadata payload found on a line.  The
`json.loads` of the captured payload is modelled as the identity on the
payload text (well-formed embedded JSON; the source skips lines whose
payload fails to parse). -/
def get_metadata (text : Str) : Option Str :=
  (pySplitlines text).findSome? fun l => metaLineMatch (pyStrip l)

/-- The serialized metadata line `<!-- meta: {...} -->`; `json.dumps`
is modelled as the identity on the payload. -/
def metaLine (payload : Str) : Str :=
  "<!-- meta: ".toList ++ payload ++ " -->".toList

/-- `set_metadata`: remove existing metadata lines, append a blank line
and the metadata line, strip. -/
def set_metadata (text : Str) (payload : Str) : Str :=
  pyStrip (joinNL
    (((pySplitlines text).filter fun l => (metaLineMatch (pyStrip l)).isNone)
      ++ [[], metaLine payload]))

/-- The archive-line filter of `split_done_archive`:
`line.strip().lower().startswith("- [x]")`. -/
def archFilter (l : Str) : Bool :=
  pyStartswith "- [x]".toList (pyLower (pyStrip l))

/-- `split_done_archive` (`src/app.py` 274-280): strip metadata, split
at the first `"## Done Archive"` occurrence, keep only stripped tail
lines passing `archFilter`. -/
def split_done_archive (text : Str) : Str × List Str :=
  let text := strip_metadata text
  if pyIn DONE_ARCHIVE_HEADER text then
    match splitOnce DONE_ARCHIVE_HEADER text with
    | some (main, tail) =>
      (pyStrip main,
       (pySplitlines tail).filterMap fun l =>
         if archFilter l then some (pyStrip l) else none)
    | none => (pyStrip text, [])
  else (pyStrip text, [])

/-- `extract_done_lines`: the stripped lines matching `DONE_LINE_RE`. -/
def extract_done_lines (text : Str) : List Str :=
  (pySplitlines text).filterMap fun l =>
    if (doneLineMatch l).isSome then some (pyStrip l) else none

/-- `remove_done_lines`: drop the lines matching `DONE_LINE_RE`,
rejoin, strip. -/
def remove_done_lines (text : Str) : Str :=
  pyStrip (joinNL ((pySplitlines text).filter fun l => (doneLineMatch l).isNone))

/-! ## Dates (`datetime.date`) -/

/-- A `datetime.date`; operations below assume and preserve calendar
validity. -/
structure PyDate where
  year : Nat
  month : Nat
  day : Nat
deriving DecidableEq, Repr

def isLeap (y : Nat) : Bool := (y % 4 = 0 && ¬ y % 100 = 0) || y % 400 = 0

def daysInMonth (y m : Nat) : Nat :=
  if m = 2 then (if isLeap y then 29 else 28)
  else if m = 4 || m = 6 || m = 9 || m = 11 then 30
  else 31

def daysBeforeMonth (y m : Nat) : Nat :=
  ((List.range' 1 (m - 1)).map (daysInMonth y)).sum

/-- `date.toordinal()`: day number in the proleptic Gregorian calendar,
with 0001-01-01 as day 1. -/
def toOrdinal (d : PyDate) : Nat :=
  365 * (d.year - 1) + (d.year - 1) / 4 - (d.year - 1) / 100 + (d.year - 1) / 400
    + daysBeforeMonth d.year d.month + d.day

/-- The ordinal of the Monday starting ISO week 1 of `y` (the week
containing January 4). -/
def week1Monday (y : Nat) : Nat :=
  let o4 := toOrdinal ⟨y, 1, 4⟩
  o4 - (o4 - 1) % 7

/-- `date.isocalendar()[:2]`: the ISO (year, week) pair, mirroring
CPython's algorithm. -/
def isocalendarYW (d : PyDate) : Nat × Nat :=
  let o := toOrdinal d
  if o < week1Monday d.year then
    let y' := d.year - 1
    (y', (o - week1Monday y') / 7 + 1)
  else
    let w := (o - week1Monday d.year) / 7 + 1
    if w = 53 && decide (week1Monday (d.year + 1) ≤ o) then (d.year + 1, 1)
    else (d.year, w)

/-- Decimal digits of `n`. -/
def natToStr (n : Nat) : Str := Nat.toDigits 10 n

/-- `f"{n:02d}"`. -/
def pad2 (n : Nat) : Str := if n < 10 then '0' :: natToStr n else natToStr n

/-- `f"{n:04d}"` (as used by `date.isoformat()` for the year). -/
def pad4 (n : Nat) : Str :=
  if n < 10 then '0' :: '0' :: '0' :: natToStr n
  else if n < 100 then '0' :: '0' :: natToStr n
  else if n < 1000 then '0' :: natToStr n
  else natToStr n

/-- `date.isoformat()`. -/
def isoFormat (d : PyDate) : Str :=
  pad4 d.year ++ '-' :: pad2 d.month ++ '-' :: pad2 d.day

/-- `date.fromisoformat` on a `DATED_DONE_RE` date group (always ten
characters, digits and hyphens): `none` models the `ValueError` raised
on an out-of-range calendar date. -/
def parseDateGroup (s : Str) : Option PyDate :=
  match s with
  | [a, b, c, d, '-', e, f, '-', g, h] =>
    let y := ((a.toNat - 48) * 10 + (b.toNat - 48)) * 100
               + ((c.toNat - 48) * 10 + (d.toNat - 48))
    let m := (e.toNat - 48) * 10 + (f.toNat - 48)
    let dy := (g.toNat - 48) * 10 + (h.toNat - 48)
    if 1 ≤ y && 1 ≤ m && m ≤ 12 && 1 ≤ dy && dy ≤ daysInMonth y m then
      some ⟨y, m, dy⟩
    else none
  | _ => none

/-! ## Completion normalisation (`src/app.py` 291-309) -/

/-- `normalize_done_item`: re-render a dated done line with its own
date, stamp `done_date` on an undated done line, return other input
stripped. -/
def normalize_done_item (raw_line : Str) (done_date : PyDate) : Str :=
  let line := pyStrip raw_line
  match datedDoneMatch line with
  | some (d, t) => "- [x] ".toList ++ d ++ ' ' :: DASH ++ ' ' :: pyStrip t
  | none =>
    match doneLineMatch line with
    | none => line
    | some g => "- [x] ".toList ++ isoFormat done_date ++ ' ' :: DASH ++ ' ' :: pyStrip g

/-- `dedupe_preserve_order`, with the `seen` set carried explicitly. -/
def dedupeAux (seen : List Str) : List Str → List Str
  | [] => []
  | it :: rest =>
    if seen.contains it then dedupeAux seen rest
    else it :: dedupeAux (it :: seen) rest

/-- `dedupe_preserve_order`: keep the first occurrence of each item. -/
def dedupe_preserve_order (items : List Str) : List Str := dedupeAux [] items

/-! ## Section parser (`src/app.py` 312-373) -/

/-- The current-section cursor of `parse_state_sections`. -/
inductive Sect | today | parking | extra
deriving DecidableEq, Repr

/-- A `{"name", "hint"}` Today task. -/
structure TodayTask where
  name : Str
  hint : Str
deriving DecidableEq, Repr

/-- A `{"name", "reason"}` parking task. -/
structure ParkTask where
  name : Str
  reason : Str
deriving DecidableEq, Repr

/-- A `{"date", "text"}` archive entry; `date = []` for undated
(legacy) entries. -/
structure DoneItem where
  date : Str
  text : Str
deriving DecidableEq, Repr

/-- The dictionary returned by `parse_state_sections`. -/
structure ParsedState where
  today : List TodayTask
  parking : List ParkTask
  extra : List Str
  done : List DoneItem
deriving DecidableEq, Repr

/-- Scanner state of the `parse_state_sections` loop. -/
structure ScanSt where
  sect : Option Sect
  today : List TodayTask
  parking : List ParkTask
  extra : List Str
deriving Repr

/-- `today_tasks[-1]["hint"] = h`. -/
def setLastHint (ts : List TodayTask) (h : Str) : List TodayTask :=
  match ts with
  | [] => []
  | [t] => [{ t with hint := h }]
  | t :: rest => t :: setLastHint rest h

/-- One iteration of the `parse_state_sections` body loop, mirroring
the source's `if`/`elif`/`continue` chain (note that `[1:]` after the
three-character mojibake arrow drops a single character). -/
def scanLine (st : ScanSt) (line : Str) : ScanSt :=
  let ls := pyStrip line
  let ll := pyLower ls
  if pyIn "today".toList ll || pyIn "do these".toList ll then
    { st with sect := some .today }
  else if pyIn "parking".toList ll || pyIn "can skip".toList ll
      || pyIn "not today".toList ll then
    { st with sect := some .parking }
  else if pyIn "extra".toList ll || pyIn "if you have energy".toList ll then
    { st with sect := some .extra }
  else if pyStartswith "## ".toList ls || pyStartswith "---".toList ls then st
  else
    match taskLineMatch ls with
    | some nm =>
      if st.sect = some .today then
        { st with today := st.today ++ [⟨pyStrip nm, []⟩] }
      else st
    | none =>
      if pyStartswith ARROW ls && !st.today.isEmpty && st.sect = some .today then
        { st with today := setLastHint st.today (pyStrip (ls.drop 1)) }
      else
        match parkingLineMatch ls with
        | some (nm, rsn) =>
          if st.sect = some .parking then
            { st with parking := st.parking ++ [⟨pyStrip nm, pyStrip rsn⟩] }
          else
            if pyStartswith "- ".toList ls && st.sect = some .extra then
              { st with extra := st.extra ++ [pyStrip (ls.drop 2)] }
            else st
        | none =>
          if pyStartswith "- ".toList ls && st.sect = some .extra then
            { st with extra := st.extra ++ [pyStrip (ls.drop 2)] }
          else st

/-- The `done_items` loop over archive lines. -/
def parseDoneItems (archive : List Str) : List DoneItem :=
  archive.filterMap fun line =>
    match datedDoneMatch line with
    | some (d, t) => some ⟨d, pyStrip t⟩
    | none =>
      match doneLineMatch line with
      | some g => some ⟨[], pyStrip g⟩
      | none => none

/-- `parse_state_sections`. -/
def parse_state_sections (text : Str) : ParsedState :=
  let text := strip_metadata text
  let (main_content, archive_lines) := split_done_archive text
  let st := (pySplitlines main_content).foldl scanLine ⟨none, [], [], []⟩
  ⟨st.today, st.parking, st.extra, parseDoneItems archive_lines⟩

/-! ## Weekly summary (`src/app.py` 378-420) -/

/-- A dated archive entry of the summary builder. -/
structure DoneEntry where
  wdate : PyDate
  text : Str
deriving DecidableEq, Repr

/-- The entry-collection loop: only `DATED_DONE_RE`-matching lines
contribute; `none` models the `ValueError` that `date.fromisoformat`
raises on an out-of-range date group. -/
def parse_done_entries : List Str → Option (List DoneEntry)
  | [] => some []
  | l :: rest =>
    match datedDoneMatch (pyStrip l) with
    | some (d, t) =>
      match parseDateGroup d with
      | some pd => (parse_done_entries rest).map (⟨pd, pyStrip t⟩ :: ·)
      | none => none
    | none => parse_done_entries rest

/-- Python date comparison (lexicographic on year, month, day). -/
def dateLT (a b : PyDate) : Bool :=
  a.year < b.year || (a.year = b.year &&
    (a.month < b.month || (a.month = b.month && a.day < b.day)))

def insertDate (d : PyDate) : List PyDate → List PyDate
  | [] => [d]
  | e :: rest => if dateLT d e then d :: e :: rest else e :: insertDate d rest

/-- `sorted(keys)` on distinct dates. -/
def sortDates (l : List PyDate) : List PyDate := l.foldr insertDate []

/-- First-occurrence deduplication of dict keys (`by_day.setdefault`
insertion order; the keys are then sorted, so only membership
matters). -/
def dedupDates : List PyDate → List PyDate
  | [] => []
  | d :: rest =>
    if (dedupDates rest).contains d then dedupDates rest
    else d :: dedupDates rest

/-- `by_day[d]`: the texts of the entries dated `d`, in list order. -/
def byDayTexts (entries : List DoneEntry) (d : PyDate) : List Str :=
  (entries.filter fun e => e.wdate = d).map (·.text)

/-- The summary document built by `update_weekly_summary`
(`"\n".join(lines).strip()`), with `src/app.py`'s mojibake label
`"# Done Summary â€” ..."`. -/
def renderWeekly (y w : Nat) (this_week : List DoneEntry) : Str :=
  let days := sortDates (dedupDates (this_week.map (·.wdate)))
  let total := (days.map fun d => (byDayTexts this_week d).length).sum
  let header :=
    ["# Done Summary ".toList ++ DASH ++ ' ' :: natToStr y ++ '-' :: 'W' :: pad2 w,
     [],
     "- Total completed: **".toList ++ natToStr total ++ "**".toList]
  let range :=
    match days with
    | [] => []
    | d0 :: _ =>
      ["- Date range: ".toList ++ isoFormat d0 ++ " ~ ".toList
        ++ isoFormat (days.getLast?.getD d0)]
  let perDay := days.flatMap fun d =>
    ("### ".toList ++ isoFormat d ++ " (".toList
       ++ natToStr (byDayTexts this_week d).length ++ ")".toList)
      :: (byDayTexts this_week d).map ("- ".toList ++ ·) ++ [[]]
  pyStrip (joinNL (header ++ range ++ [[], "## By Day".toList, []] ++ perDay))

/-- `write_text`: the content written to disk (`text.rstrip() + "\n"`). -/
def writeText (t : Str) : Str := pyRstrip t ++ ['\n']

/-- `read_text`: reading strips the stored content. -/
def readText (disk : Str) : Str := pyStrip disk

/-- The summary file name `weekly_{y}-W{w:02d}.md`. -/
def weeklyPath (y w : Nat) : Str :=
  "weekly_".toList ++ natToStr y ++ '-' :: 'W' :: pad2 w ++ ".md".toList

/-- `update_weekly_summary today archive_lines`:
`none` — an exception escaped (invalid date in a dated line);
`some none` — the no-op branches (no dated entry, or none in the
current ISO week): no file is created or touched;
`some (some (path, content))` — the summary for the current ISO week is
(re)written wholesale, with the written bytes `writeText content`. -/
def update_weekly_summary (today : PyDate) (archive_lines : List Str) :
    Option (Option (Str × Str)) :=
  match parse_done_entries archive_lines with
  | none => none
  | some entries =>
    if entries.isEmpty then some none
    else
      let yw := isocalendarYW today
      let this_week := entries.filter fun e => isocalendarYW e.wdate = yw
      if this_week.isEmpty then some none
      else some (some (weeklyPath yw.1 yw.2, writeText (renderWeekly yw.1 yw.2 this_week)))

/-! ## Reconciliation orchestrator (`src/app.py` 515-581)

The external generator is a black-box function of the brain dump and
the completed-item list; `none` models an exception raised by the call.
The prompt argument is an opaque constant and is not tracked.  The
state file is modelled by its byte content (`disk`); run snapshots and
summary files are additional write-only outputs. -/

/-- `generate_new_state`'s call: `none` = the call raised. -/
abbrev Gen := Str → List Str → Option Str

/-- `"## Just Completed"`. -/
def JUST_COMPLETED : Str := "## Just Completed".toList

/-- The fixed fallback document of `run_replan` (`src/app.py` 550-565),
with the file's mojibake arrow and dash. -/
def FALLBACK : Str :=
  ("## Today's Tasks\n\n1. **Take a break**  \n   â†’ You've done a lot today, time to relax\n\n---\n\n## Can Skip Today\n\n- Other tasks â€” Tomorrow\n\n---\n\n## If You Have Extra Energy\n\n- Think about what to do tomorrow").toList

/-- `clean_tasks`: the sanitisation of the generator text — cut at the
first `"## Done Archive"`, then at the first `"## Just Completed"`,
then remove remaining done-marker lines. -/
def sanitizeTasks (new_tasks : Str) : Str :=
  let ct1 :=
    if pyIn DONE_ARCHIVE_HEADER new_tasks then
      match splitOnce DONE_ARCHIVE_HEADER new_tasks with
      | some (a, _) => pyStrip a
      | none => new_tasks
    else new_tasks
  let ct2 :=
    if pyIn JUST_COMPLETED ct1 then
      match splitOnce JUST_COMPLETED ct1 with
      | some (a, _) => pyStrip a
      | none => ct1
    else ct1
  remove_done_lines ct2

/-- `has_today_tasks = "Today" in clean_tasks or "today" in clean_tasks.lower()`. -/
def hasTodayTasks (clean_tasks : Str) : Bool :=
  pyIn "Today".toList clean_tasks || pyIn "today".toList (pyLower clean_tasks)

/-- The body selected by `run_replan` after validation. -/
def replanBody (clean_tasks : Str) : Str :=
  if pyStrip clean_tasks = [] || !hasTodayTasks clean_tasks then FALLBACK
  else clean_tasks

/-- `final_state` assembly (`src/app.py` 567-572): body, archive block
when non-empty, metadata line when metadata was present. -/
def assembleState (body : Str) (combined : List Str) (meta : Option Str) : Str :=
  let fs :=
    if combined.isEmpty then body
    else body ++ "\n\n".toList ++ DONE_ARCHIVE_HEADER ++ '\n' :: joinNL combined
  match meta with
  | some p => set_metadata fs p
  | none => fs

/-- Outcome of `run_replan`: the returned parsed state (`none` if an
exception escaped) and the state-file content afterwards. -/
structure ReplanOut where
  result : Option ParsedState
  disk : Str
deriving Repr

/-- `run_replan` (`src/app.py` 515-581).  Effects occur in source
order: nothing is written before the generator call; the state file is
written after merging; `update_weekly_summary` runs after that write,
so an exception it raises escapes with the write already visible. -/
def run_replan (gen : Gen) (today : PyDate) (disk : Str) : ReplanOut :=
  let raw_state := readText disk
  if raw_state.isEmpty then ⟨some ⟨[], [], [], []⟩, disk⟩
  else
    let meta := get_metadata raw_state
    let (original_main, archive_lines) := split_done_archive raw_state
    let done_in_main := extract_done_lines original_main
    let brain_dump := remove_done_lines original_main
    let newly_done_from_user := done_in_main.map (normalize_done_item · today)
    match gen brain_dump (archive_lines ++ newly_done_from_user) with
    | none => ⟨none, disk⟩
    | some gen_content =>
      let new_tasks := pyStrip gen_content
      let model_done := extract_done_lines new_tasks
      let model_done_normalized := model_done.map (normalize_done_item · today)
      let clean_tasks := sanitizeTasks new_tasks
      let combined_archive :=
        dedupe_preserve_order (archive_lines ++ newly_done_from_user ++ model_done_normalized)
      let final_state := assembleState (replanBody clean_tasks) combined_archive meta
      let disk' := writeText final_state
      match update_weekly_summary today combined_archive with
      | none => ⟨none, disk'⟩
      | some _ => ⟨some (parse_state_sections final_state), disk'⟩

/-- The merged archive of a successful cycle (`combined_archive` of
`run_replan` with generator text `g`). -/
def replanCombined (today : PyDate) (raw g : Str) : List Str :=
  dedupe_preserve_order ((split_done_archive raw).2
    ++ (extract_done_lines (split_done_archive raw).1).map (normalize_done_item · today)
    ++ (extract_done_lines (pyStrip g)).map (normalize_done_item · today))

/-- The `final_state` document of a successful `run_replan` cycle. -/
def replanFinal (today : PyDate) (raw g : Str) : Str :=
  assembleState (replanBody (sanitizeTasks (pyStrip g))) (replanCombined today raw g)
    (get_metadata raw)

/-! ## Metadata store (`src/app.py` 245-269)

The two daily-counter functions read and rewrite the metadata mapping
embedded in the state document; the JSON embed/extract round trip is
modelled as the identity on the mapping, so the functions act on the
mapping directly. -/

/-- The metadata keys used by the micro-action counter. -/
structure MicroMeta where
  micro_action_date : Option Str
  micro_action_count : Option Nat
deriving DecidableEq, Repr

/-- `get_micro_action_count` (`src/app.py` 245-252). -/
def get_micro_action_count (meta : MicroMeta) (todayIso : Str) : Nat :=
  if meta.micro_action_date.getD [] ≠ todayIso then 0
  else meta.micro_action_count.getD 0

/-- `increment_micro_action_count` (`src/app.py` 255-269): the updated
mapping and the returned count. -/
def increment_micro_action_count (meta : MicroMeta) (todayIso : Str) :
    MicroMeta × Nat :=
  if meta.micro_action_date ≠ some todayIso then
    (⟨some todayIso, some 1⟩, 1)
  else
    let c := meta.micro_action_count.getD 0 + 1
    ({ meta with micro_action_count := some c }, c)

/-! ## Transport handlers (`src/app.py` 688-1024)

Responses carry randomly chosen praise strings and micro-action
suggestions; only the parts the claims mention (the state-file content
and the returned parsed state) are tracked. -/

/-- `re.search(a + ".*" + b, text, re.IGNORECASE)` for `'\n'`-free
lowercase ASCII words `a`, `b`: `.` spans no newline, so the match
lies within one `'\n'`-delimited segment. -/
def searchSubSub (a b : Str) (text : Str) : Bool :=
  ((pyLower text).splitOn '\n').any fun seg =>
    match splitOnce a seg with
    | some (_, rest) => pyIn b rest
    | none => false

/-- `re.search(a + "\s*" + b, text, re.IGNORECASE)`: whitespace may
span newlines. -/
def searchWsGap (a b : Str) (text : Str) : Bool :=
  let rec go : Str → Bool
    | [] => pyStartswith a [] && pyStartswith b []
    | c :: t =>
      (pyStartswith a (c :: t) && pyStartswith b (pyLstrip ((c :: t).drop a.length)))
        || go t
  go (pyLower text)

/-- `detect_all_done` (`src/app.py` 631-669): returns
`(today_all_done, include_parking)`. -/
def detect_all_done (text : Str) : Bool × Bool :=
  let include_parking :=
    searchWsGap "all".toList "all".toList text
      || searchSubSub "everything".toList "everything".toList text
      || searchSubSub "including".toList "parking".toList text
      || searchSubSub "parking".toList "too".toList text
      || searchSubSub "completely".toList "clear".toList text
      || searchSubSub "nothing".toList "left".toList text
      || searchSubSub "totally".toList "done".toList text
  if include_parking then (true, true)
  else
    let today_done :=
      searchSubSub "all".toList "done".toList text
        || searchSubSub "everything".toList "done".toList text
        || searchSubSub "finished".toList "all".toList text
        || searchSubSub "completed".toList "all".toList text
        || pyIn "cleared".toList (pyLower text)
        || searchWsGap "all".toList "clear".toList text
    (today_done, false)

/-- Outcome of a transport handler: whether it returned without an
exception, and the state-file content afterwards. -/
structure TransportOut where
  ok : Bool
  disk : Str
deriving Repr

/-- `/api/capture` (`src/app.py` 688-739), tracking the state file.
`ts` is `timestamp_human()`.  On the all-done early return nothing is
written; otherwise the handler persists the captured text *before*
`run_replan` runs.  (`detect_completed_items` only shapes the response
and is not tracked.) -/
def capture (gen : Gen) (today : PyDate) (ts : Str) (text : Str) (disk : Str) :
    TransportOut :=
  let raw_state := readText disk
  let meta := get_metadata raw_state
  let current := parse_state_sections (strip_metadata raw_state)
  let td := detect_all_done text
  if td.1 && (!current.today.isEmpty || !current.parking.isEmpty) then
    ⟨true, disk⟩
  else
    let new_content0 :=
      '[' :: ts ++ "] ".toList ++ text ++ "\n\n".toList ++ strip_metadata raw_state
    let new_content :=
      match meta with
      | some p => set_metadata new_content0 p
      | none => new_content0
    let disk1 := writeText new_content
    let r := run_replan gen today disk1
    ⟨r.result.isSome, r.disk⟩

/-- The line-rewriting loop of `/api/complete` (`src/app.py` 754-761):
replace the first line containing the task text and `**`, and drop
every later line starting with the arrow. -/
def completeRewrite (taskText : Str) : List Str → Bool → List Str
  | [], _ => []
  | l :: rest, found =>
    if !found && pyIn taskText l && pyIn "**".toList l then
      ("- [x] ".toList ++ taskText) :: completeRewrite taskText rest true
    else if found && pyStartswith ARROW (pyStrip l) then
      completeRewrite taskText rest found
    else l :: completeRewrite taskText rest found

/-- Outcome of `/api/complete`: the response's `state` field after the
today-list filter (`none` if an exception escaped) and the state-file
content. -/
structure CompleteOut where
  state : Option ParsedState
  disk : Str
deriving Repr

/-- `/api/complete` (`src/app.py` 742-799), tracking the state file and
the returned state: rewrite the completed line, persist, `run_replan`,
then drop from the returned today list every task whose name contains
the request text case-insensitively. -/
def complete (gen : Gen) (today : PyDate) (ts : Str)
    (taskText note : Str) (disk : Str) : CompleteOut :=
  let raw_state := readText disk
  let meta := get_metadata raw_state
  let lines := pySplitlines (strip_metadata raw_state)
  let newLines0 := completeRewrite taskText lines false
  let newLines :=
    if !note.isEmpty then
      ('[' :: ts ++ "] Note: ".toList ++ note ++ ['\n']) :: newLines0
    else newLines0
  let new_content0 := joinNL newLines
  let new_content :=
    match meta with
    | some p => set_metadata new_content0 p
    | none => new_content0
  let disk1 := writeText new_content
  let r := run_replan gen today disk1
  match r.result with
  | none => ⟨none, r.disk⟩
  | some st =>
    let tl := pyLower taskText
    ⟨some { st with today := st.today.filter fun t => !pyIn tl (pyLower t.name) },
     r.disk⟩

/-- The fixed body of `/api/complete_all`'s rewritten document
(`src/app.py` 827-843 up to the archive header), with the file's
mojibake party-popper. -/
def COMPLETE_ALL_BODY : Str :=
  ("## Today's Tasks\n\n(All done! ðŸŽ‰)\n\n---\n\n## Can Skip Today\n\n(Also all done!)\n\n---\n\n## If You Have Extra Energy\n\n- Rest well\n\n").toList

/-- The combined archive computed by `/api/complete_all`
(`src/app.py` 819-825): the freshly stamped task lines *first*, then
the existing archive, deduplicated. -/
def complete_all_combined (today : PyDate) (tasks parking_tasks : List Str)
    (existing_archive : List Str) : List Str :=
  let all_tasks := tasks ++ parking_tasks
  let new_done_lines :=
    all_tasks.map fun t => "- [x] ".toList ++ isoFormat today ++ ' ' :: DASH ++ ' ' :: t
  dedupe_preserve_order (new_done_lines ++ existing_archive)

/-- `/api/complete_all` (`src/app.py` 811-883), tracking the state
file: rebuild the document from the fixed body and the combined
archive (no generator call). -/
def complete_all (today : PyDate) (tasks parking_tasks : List Str) (disk : Str) :
    TransportOut :=
  let raw_state := readText disk
  let meta := get_metadata raw_state
  let existing_archive := (split_done_archive raw_state).2
  let combined := complete_all_combined today tasks parking_tasks existing_archive
  let new_state0 := COMPLETE_ALL_BODY ++ DONE_ARCHIVE_HEADER ++ '\n' :: joinNL combined
  let new_state :=
    match meta with
    | some p => set_metadata new_state0 p
    | none => new_state0
  let disk' := writeText new_state
  ⟨(update_weekly_summary today combined).isSome, disk'⟩

/-- `set_praise_style` as invoked by `/api/style` (`src/app.py`
237-242, 623-628) on a document carrying no metadata line, so that
`get_metadata` yields the empty mapping and `json.dumps` of the
updated mapping is the concrete singleton payload.  The archive
section is untouched. -/
def set_praise_style_nometa (style : Str) (disk : Str) : Str :=
  let raw := readText disk
  let payload := "\x7b\"praise_style\": \"".toList ++ style ++ "\"\x7d".toList
  writeText (set_metadata (strip_metadata raw) payload)

/-! ## String infrastructure lemmas -/

/-- A single line: no line-break characters. -/
def NoBreaks (l : Str) : Prop := '\n' ∉ l ∧ '\r' ∉ l

/-- A well-formed combined-archive element as produced by the merging
paths: stripped, non-empty, break-free, starting with `'-'`. -/
def ArchElem (l : Str) : Prop :=
  pyStrip l = l ∧ l ≠ [] ∧ NoBreaks l ∧ l.head? = some '-'


theorem pyIn_iff {sub s : Str} : pyIn sub s = true ↔ sub <:+: s :=
  decide_eq_true_iff

theorem pyStartswith_iff {pre s : Str} : pyStartswith pre s = true ↔ pre <+: s :=
  decide_eq_true_iff

theorem pyIn_eq_false_of_not_sub {sub s : Str} (h : ¬ sub <:+: s) :
    pyIn sub s = false := by
  simp [pyIn, h]

theorem not_infix_of_pyIn_eq_false {sub s : Str} (h : pyIn sub s = false) :
    ¬ sub <:+: s := by
  simp [pyIn] at h; exact h

theorem not_infix_trans {sub t s : Str} (hts : t <:+: s) (h : ¬ sub <:+: s) :
    ¬ sub <:+: t := fun hc => h (hc.trans hts)

theorem pyLstrip_append (a b : Str) :
    pyLstrip (a ++ b) = if pyLstrip a = [] then pyLstrip b else pyLstrip a ++ b := by
  simp only [pyLstrip, List.dropWhile_append, List.isEmpty_iff]

theorem pyRstrip_append (a b : Str) :
    pyRstrip (a ++ b) = if pyRstrip b = [] then pyRstrip a else a ++ pyRstrip b := by
  simp only [pyRstrip, List.reverse_append, List.dropWhile_append, List.isEmpty_iff,
    List.reverse_eq_nil_iff]
  by_cases h : (b.reverse.dropWhile pyIsSpace).reverse = []
  · simp only [List.reverse_eq_nil_iff] at h
    simp [h]
  · have h' : ¬ b.reverse.dropWhile pyIsSpace = [] := by
      intro hc; exact h (by simp [hc])
    simp [h']

theorem pyLstrip_nil : pyLstrip [] = [] := rfl

theorem pyRstrip_nil : pyRstrip [] = [] := rfl

theorem pyLstrip_sfx (s : Str) : pyLstrip s <:+ s := List.dropWhile_suffix _

theorem pyRstrip_pfx (s : Str) : pyRstrip s <+: s := by
  have := List.dropWhile_suffix (l := s.reverse) (p := pyIsSpace)
  rcases this with ⟨t, ht⟩
  exact ⟨t.reverse, by
    have : (t ++ s.reverse.dropWhile pyIsSpace).reverse = s.reverse.reverse := by rw [ht]
    simpa [pyRstrip, List.reverse_append] using this⟩

theorem pyLstrip_sub (s : Str) : pyLstrip s <:+: s := (pyLstrip_sfx s).isInfix

theorem pyRstrip_sub (s : Str) : pyRstrip s <:+: s := (pyRstrip_pfx s).isInfix

theorem pyStrip_sub (s : Str) : pyStrip s <:+: s :=
  (pyLstrip_sub (pyRstrip s)).trans (pyRstrip_sub s)

theorem pyLstrip_eq_self_of_head {s : Str} {c : Char}
    (h : s.head? = some c) (hc : pyIsSpace c = false) : pyLstrip s = s := by
  cases s with
  | nil => rfl
  | cons x t =>
    simp only [List.head?_cons, Option.some.injEq] at h
    subst h
    simp [pyLstrip, List.dropWhile_cons, hc]

theorem pyRstrip_eq_self_of_getLast {s : Str} {c : Char}
    (h : s.getLast? = some c) (hc : pyIsSpace c = false) : pyRstrip s = s := by
  have hh : s.reverse.head? = some c := by
    rw [List.head?_reverse]; exact h
  have := pyLstrip_eq_self_of_head hh hc
  simp only [pyLstrip] at this
  simp [pyRstrip, this]

/-- Strip of a string whose first and last characters are not
whitespace is the string itself. -/
theorem pyStrip_eq_self_of_edges {s : Str} {c d : Char}
    (h1 : s.head? = some c) (hc : pyIsSpace c = false)
    (h2 : s.getLast? = some d) (hd : pyIsSpace d = false) : pyStrip s = s := by
  have hr : pyRstrip s = s := pyRstrip_eq_self_of_getLast h2 hd
  have hl : pyLstrip s = s := pyLstrip_eq_self_of_head h1 hc
  simp [pyStrip, hr, hl]

theorem head_lstrip_not_ws {s : Str} {c : Char}
    (h : (pyLstrip s).head? = some c) : pyIsSpace c = false := by
  have := List.head?_dropWhile_not pyIsSpace s
  rw [show s.dropWhile pyIsSpace = pyLstrip s from rfl, h] at this
  exact this

theorem getLast_rstrip_not_ws {s : Str} {c : Char}
    (h : (pyRstrip s).getLast? = some c) : pyIsSpace c = false := by
  have h' : (s.reverse.dropWhile pyIsSpace).head? = some c := by
    rw [← List.getLast?_reverse]
    exact h
  have := List.head?_dropWhile_not pyIsSpace s.reverse
  rw [h'] at this
  exact this

theorem getLast?_of_suffix {x y : Str} (h : x <:+ y) (hx : x ≠ []) :
    y.getLast? = x.getLast? := by
  rcases h with ⟨t, rfl⟩
  exact List.getLast?_append_of_ne_nil t hx

theorem head_strip_not_ws {s : Str} {c : Char}
    (h : (pyStrip s).head? = some c) : pyIsSpace c = false :=
  head_lstrip_not_ws (s := pyRstrip s) h

theorem getLast_strip_not_ws {s : Str} {c : Char}
    (h : (pyStrip s).getLast? = some c) : pyIsSpace c = false := by
  have hx : pyStrip s ≠ [] := by
    intro hc; rw [hc] at h; simp at h
  have h2 : (pyRstrip s).getLast? = some c := by
    rw [getLast?_of_suffix (pyLstrip_sfx (pyRstrip s)) hx]
    exact h
  exact getLast_rstrip_not_ws h2

theorem pyStrip_idem (s : Str) : pyStrip (pyStrip s) = pyStrip s := by
  cases h : pyStrip s with
  | nil => rfl
  | cons c t =>
    have hc := head_strip_not_ws (s := s) (c := c) (by rw [h]; rfl)
    have hd : (pyStrip s).getLast? = some ((c :: t).getLast (by simp)) := by
      rw [h]
      exact List.getLast?_eq_getLast _ (by simp)
    have hdns := getLast_strip_not_ws hd
    rw [← h]
    exact pyStrip_eq_self_of_edges (by rw [h]; rfl) hc hd hdns

theorem splitlines_crlf (rest : Str) :
    pySplitlines ('\r' :: '\n' :: rest) = [] :: pySplitlines rest := rfl

theorem splitlines_lf (rest : Str) :
    pySplitlines ('\n' :: rest) = [] :: pySplitlines rest := rfl

theorem splitlines_cr1 : pySplitlines ['\r'] = [[]] := rfl

theorem splitlines_cr (x : Char) (t : Str) (hx : x ≠ '\n') :
    pySplitlines ('\r' :: x :: t) = [] :: pySplitlines (x :: t) := by
  rw [pySplitlines.eq_def]
  simp [hx]

theorem splitlines_other (c : Char) (rest : Str) (h1 : c ≠ '\n') (h2 : c ≠ '\r') :
    pySplitlines (c :: rest) =
      (match pySplitlines rest with
      | [] => [[c]]
      | l :: ls => (c :: l) :: ls) := by
  rw [pySplitlines.eq_def]
  rcases rest with _ | ⟨x, t⟩
  · simp [h1, h2]
  · simp [h1, h2]

theorem splitlines_ne_nil {s : Str} (h : s ≠ []) : pySplitlines s ≠ [] := by
  rw [pySplitlines.eq_def]
  split
  · exact absurd rfl h
  · simp
  · simp
  · simp
  · split <;> simp

/-- Lines produced by `pySplitlines` contain no break characters. -/
theorem splitlines_noBreaks {s ln : Str} (h : ln ∈ pySplitlines s) : NoBreaks ln := by
  induction s using pySplitlines.induct generalizing ln with
  | case1 => simp [pySplitlines] at h
  | case2 rest ih =>
    rw [splitlines_crlf] at h
    rcases List.mem_cons.mp h with rfl | h
    · exact ⟨by simp, by simp⟩
    · exact ih h
  | case3 rest ih =>
    rw [splitlines_lf] at h
    rcases List.mem_cons.mp h with rfl | h
    · exact ⟨by simp, by simp⟩
    · exact ih h
  | case4 rest hne ih =>
    have heq : pySplitlines ('\r' :: rest) = [] :: pySplitlines rest := by
      rcases rest with _ | ⟨x, t⟩
      · exact splitlines_cr1
      · exact splitlines_cr x t (fun hx => hne t (by rw [hx]))
    rw [heq] at h
    rcases List.mem_cons.mp h with rfl | h
    · exact ⟨by simp, by simp⟩
    · exact ih h
  | case5 c rest _ hn hr hrest ih =>
    rw [splitlines_other c rest hn hr, hrest] at h
    rcases List.mem_cons.mp h with rfl | h
    · exact ⟨by simp [Ne.symm hn], by simp [Ne.symm hr]⟩
    · simp at h
  | case6 c rest _ hn hr l ls hrest ih =>
    rw [splitlines_other c rest hn hr, hrest] at h
    rcases List.mem_cons.mp h with rfl | h
    · have hmem : l ∈ pySplitlines rest := by
        rw [hrest]; exact List.mem_cons_self _ _
      have hl := ih hmem
      exact ⟨by simp [Ne.symm hn, hl.1], by simp [Ne.symm hr, hl.2]⟩
    · exact ih (by rw [hrest]; exact List.mem_cons_of_mem _ h)

/-- Splitting a break-free line followed by a newline peels off that
line. -/
theorem splitlines_append_newline {l : Str} (hl : NoBreaks l) (r : Str) :
    pySplitlines (l ++ '\n' :: r) = l :: pySplitlines r := by
  induction l with
  | nil => simpa using splitlines_lf r
  | cons c l' ih =>
    have hn : c ≠ '\n' := fun hc => hl.1 (by simp [hc])
    have hr : c ≠ '\r' := fun hc => hl.2 (by simp [hc])
    have hl' : NoBreaks l' := ⟨fun h => hl.1 (.tail _ h), fun h => hl.2 (.tail _ h)⟩
    rw [List.cons_append, splitlines_other c _ hn hr, ih hl']

/-- A break-free non-empty string is a single line. -/
theorem splitlines_single {l : Str} (hl : NoBreaks l) (hne : l ≠ []) :
    pySplitlines l = [l] := by
  induction l with
  | nil => exact absurd rfl hne
  | cons c l' ih =>
    have hn : c ≠ '\n' := fun hc => hl.1 (by simp [hc])
    have hr : c ≠ '\r' := fun hc => hl.2 (by simp [hc])
    have hl' : NoBreaks l' := ⟨fun h => hl.1 (.tail _ h), fun h => hl.2 (.tail _ h)⟩
    rcases l' with _ | ⟨x, t⟩
    · rw [splitlines_other c [] hn hr]; rfl
    · rw [splitlines_other c _ hn hr, ih hl' (by simp)]

theorem joinNL_cons₂ (l l₂ : Str) (ls : List Str) :
    joinNL (l :: l₂ :: ls) = l ++ '\n' :: joinNL (l₂ :: ls) := rfl

/-- Splitting an explicit join of break-free lines whose last line is
non-empty recovers the lines. -/
theorem splitlines_joinNL {ls : List Str} (hne : ls ≠ [])
    (hb : ∀ l ∈ ls, NoBreaks l) (hlast : ls.getLast? ≠ some []) :
    pySplitlines (joinNL ls) = ls := by
  induction ls with
  | nil => exact absurd rfl hne
  | cons l rest ih =>
    rcases rest with _ | ⟨l₂, ls'⟩
    · have hl : l ≠ [] := by
        intro hc; exact hlast (by simp [hc])
      exact splitlines_single (hb l (by simp)) hl
    · rw [joinNL_cons₂, splitlines_append_newline (hb l (by simp)),
        ih (by simp) (fun x hx => hb x (List.mem_cons_of_mem _ hx))
          (by simpa using hlast)]

theorem joinNL_append {A B : List Str} (hB : B ≠ []) :
    joinNL (A ++ B) = if A.isEmpty then joinNL B else joinNL A ++ '\n' :: joinNL B := by
  induction A with
  | nil => simp
  | cons a A' ih =>
    rcases A' with _ | ⟨a₂, A''⟩
    · rcases B with _ | ⟨b, B'⟩
      · exact absurd rfl hB
      · simp [joinNL_cons₂, joinNL]
    · show a ++ '\n' :: joinNL ((a₂ :: A'') ++ B) = _
      rw [ih]
      simp only [List.isEmpty_cons, Bool.false_eq_true, if_false, joinNL_cons₂,
        List.cons_append, List.append_assoc]

/-- An occurrence of a pattern avoiding `c` in `a ++ c :: b` lies in
`a` or in `b`. -/
theorem infix_append_cons {sub a b : Str} {c : Char}
    (h : sub <:+: a ++ c :: b) (hc : c ∉ sub) : sub <:+: a ∨ sub <:+: b := by
  rcases h with ⟨s, t, hst⟩
  have hst' : s ++ (sub ++ t) = a ++ c :: b := by
    rw [← hst]; simp [List.append_assoc]
  rcases List.append_eq_append_iff.mp hst' with ⟨k, hk1, hk2⟩ | ⟨k, hk1, hk2⟩
  · -- hk1 : a = s ++ k, hk2 : sub ++ t = k ++ c :: b
    rcases List.append_eq_append_iff.mp hk2 with ⟨m, hm1, hm2⟩ | ⟨m, hm1, hm2⟩
    · -- hm1 : k = sub ++ m
      left
      exact ⟨s, m, by rw [hk1, hm1, List.append_assoc]⟩
    · -- hm1 : sub = k ++ m, hm2 : c :: b = m ++ t
      rcases m with _ | ⟨x, m'⟩
      · left
        exact ⟨s, [], by
          rw [List.append_nil] at hm1
          rw [hk1, hm1, List.append_nil]⟩
      · exfalso
        have hx : c = x := by
          simpa using congrArg List.head? hm2
        exact hc (by rw [hm1, ← hx]; simp)
  · -- hk1 : s = a ++ k, hk2 : c :: b = k ++ (sub ++ t)
    rcases k with _ | ⟨x, k'⟩
    · rcases sub with _ | ⟨y, sub'⟩
      · left; exact ⟨[], a, by simp⟩
      · exfalso
        have hy : c = y := by
          simpa using congrArg List.head? hk2
        exact hc (by rw [← hy]; simp)
    · right
      have hb : b = k' ++ (sub ++ t) := by
        rw [List.cons_append] at hk2
        injection hk2 with _ h2
      exact ⟨k', t, by rw [hb, List.append_assoc]⟩

/-- An occurrence of a newline-free pattern in a join lies in one of
the lines. -/
theorem infix_joinNL {sub : Str} {ls : List Str} (hsub : sub ≠ [])
    (hnl : '\n' ∉ sub) (h : sub <:+: joinNL ls) : ∃ l ∈ ls, sub <:+: l := by
  induction ls with
  | nil =>
    rw [show joinNL [] = [] from rfl] at h
    rcases h with ⟨s, t, hst⟩
    rcases List.append_eq_nil.mp hst with ⟨h1, -⟩
    rcases List.append_eq_nil.mp h1 with ⟨-, h2⟩
    exact absurd h2 hsub
  | cons l rest ih =>
    rcases rest with _ | ⟨l₂, ls'⟩
    · exact ⟨l, by simp, by simpa [joinNL] using h⟩
    · rw [joinNL_cons₂] at h
      rcases infix_append_cons h hnl with h1 | h1
      · exact ⟨l, by simp, h1⟩
      · rcases ih h1 with ⟨x, hx1, hx2⟩
        exact ⟨x, List.mem_cons_of_mem _ hx1, hx2⟩

theorem toNat_ofNat_of_lt {n : Nat} (h : n < 55296) : (Char.ofNat n).toNat = n := by
  unfold Char.ofNat Char.toNat
  have hv : n.isValidChar := Or.inl h
  simp [hv, Char.ofNatAux, UInt32.toNat, BitVec.toNat_ofNatLt]

theorem pyIsSpace_eq_false_of_ge {c : Char} (h : 65 ≤ c.toNat) :
    pyIsSpace c = false := by
  simp only [pyIsSpace, Bool.or_eq_false_iff]
  refine ⟨⟨⟨⟨⟨?_, ?_⟩, ?_⟩, ?_⟩, ?_⟩, ?_⟩ <;>
    · simp only [decide_eq_false_iff_not]
      intro heq
      subst heq
      exact absurd h (by decide)

theorem toLower_def (c : Char) :
    c.toLower = if c.toNat ≥ 65 ∧ c.toNat ≤ 90 then Char.ofNat (c.toNat + 32) else c := rfl

theorem pyIsSpace_toLower (c : Char) : pyIsSpace c.toLower = pyIsSpace c := by
  rw [toLower_def]
  by_cases h : c.toNat ≥ 65 ∧ c.toNat ≤ 90
  · rw [if_pos h, pyIsSpace_eq_false_of_ge h.1]
    exact pyIsSpace_eq_false_of_ge (by
      rw [toNat_ofNat_of_lt (by omega)]; omega)
  · rw [if_neg h]

theorem toLower_ne_of_lt {x c : Char} (hc : c.toNat < 65) (h : x ≠ c) :
    Char.toLower x ≠ c := by
  rw [toLower_def]
  by_cases hx : x.toNat ≥ 65 ∧ x.toNat ≤ 90
  · rw [if_pos hx]
    intro heq
    have h2 := congrArg Char.toNat heq
    rw [toNat_ofNat_of_lt (by omega)] at h2
    omega
  · rw [if_neg hx]
    exact h

theorem spaceLower : (pyIsSpace ∘ Char.toLower) = pyIsSpace :=
  funext pyIsSpace_toLower

theorem pyLower_lstrip_comm (s : Str) : pyLstrip (pyLower s) = pyLower (pyLstrip s) := by
  simp only [pyLstrip, pyLower, List.dropWhile_map, spaceLower]

theorem pyLower_rstrip_comm (s : Str) : pyRstrip (pyLower s) = pyLower (pyRstrip s) := by
  simp only [pyRstrip, pyLower, ← List.map_reverse, List.dropWhile_map, spaceLower]

theorem pyLower_strip_comm (s : Str) : pyStrip (pyLower s) = pyLower (pyStrip s) := by
  simp [pyStrip, pyLower_rstrip_comm, pyLower_lstrip_comm]

/-- `str.lower()` commutes with line splitting. -/
theorem splitlines_pyLower (s : Str) :
    pySplitlines (pyLower s) = (pySplitlines s).map pyLower := by
  induction s using pySplitlines.induct with
  | case1 => rfl
  | case2 rest ih =>
    show pySplitlines ('\r' :: '\n' :: pyLower rest) = _
    rw [splitlines_crlf, ih, splitlines_crlf]
    rfl
  | case3 rest ih =>
    show pySplitlines ('\n' :: pyLower rest) = _
    rw [splitlines_lf, ih, splitlines_lf]
    rfl
  | case4 rest hne ih =>
    have heqL : pySplitlines ('\r' :: pyLower rest) = [] :: pySplitlines (pyLower rest) := by
      rcases rest with _ | ⟨x, t⟩
      · exact splitlines_cr1
      · exact splitlines_cr _ _ (toLower_ne_of_lt (by decide) (fun hx => hne t (by rw [hx])))
    have heqR : pySplitlines ('\r' :: rest) = [] :: pySplitlines rest := by
      rcases rest with _ | ⟨x, t⟩
      · exact splitlines_cr1
      · exact splitlines_cr _ _ (fun hx => hne t (by rw [hx]))
    show pySplitlines ('\r' :: pyLower rest) = _
    rw [heqL, ih, heqR]
    rfl
  | case5 c rest _ hn hr hrest ih =>
    have hrest' : rest = [] := by
      by_contra hc
      exact splitlines_ne_nil hc hrest
    subst hrest'
    show pySplitlines [Char.toLower c] = _
    rw [splitlines_other _ _ (toLower_ne_of_lt (by decide) hn)
        (toLower_ne_of_lt (by decide) hr), splitlines_other _ _ hn hr, hrest]
    rfl
  | case6 c rest _ hn hr l ls hrest ih =>
    show pySplitlines (Char.toLower c :: pyLower rest) = _
    rw [splitlines_other _ _ (toLower_ne_of_lt (by decide) hn)
        (toLower_ne_of_lt (by decide) hr), ih, hrest,
        splitlines_other _ _ hn hr, hrest]
    rfl

/-- A break-free prefix lies in the first line. -/
theorem prefix_first_line {sub s : Str} (hsub : sub ≠ []) (hb : NoBreaks sub)
    (h : sub <+: s) : ∃ l ls, pySplitlines s = l :: ls ∧ sub <+: l := by
  induction s generalizing sub with
  | nil =>
    rcases sub with _ | ⟨z, sub'⟩
    · exact absurd rfl hsub
    · rcases h with ⟨t, ht⟩
      simp at ht
  | cons c rest ih =>
    rcases sub with _ | ⟨x, sub'⟩
    · exact absurd rfl hsub
    · obtain ⟨hx, hpre⟩ := List.cons_prefix_cons.mp h
      subst hx
      have hn : x ≠ '\n' := fun hc => hb.1 (by simp [hc])
      have hr : x ≠ '\r' := fun hc => hb.2 (by simp [hc])
      rcases sub' with _ | ⟨y, sub''⟩
      · rw [splitlines_other x rest hn hr]
        cases hsp : pySplitlines rest with
        | nil => exact ⟨[x], [], rfl, by simp⟩
        | cons l ls => exact ⟨x :: l, ls, rfl, List.cons_prefix_cons.mpr ⟨rfl, by simp⟩⟩
      · have hb' : NoBreaks (y :: sub'') :=
          ⟨fun hh => hb.1 (.tail _ hh), fun hh => hb.2 (.tail _ hh)⟩
        rcases ih (by simp) hb' hpre with ⟨l, ls, hls, hpre'⟩
        rw [splitlines_other x rest hn hr, hls]
        exact ⟨x :: l, ls, rfl, List.cons_prefix_cons.mpr ⟨rfl, hpre'⟩⟩

/-- An occurrence of a break-free pattern lies in one of the lines. -/
theorem exists_line_of_sub {sub s : Str} (hsub : sub ≠ []) (hb : NoBreaks sub)
    (h : sub <:+: s) : ∃ l ∈ pySplitlines s, sub <:+: l := by
  have hhead : ∀ {w : Char} {r : Str}, sub <+: w :: r → w ∈ sub := by
    intro w r hp
    rcases sub with _ | ⟨z, sub'⟩
    · exact absurd rfl hsub
    · obtain ⟨hz, -⟩ := List.cons_prefix_cons.mp hp
      rw [hz]; simp
  induction s using pySplitlines.induct with
  | case1 =>
    exact absurd (List.infix_nil.mp h) hsub
  | case2 rest ih =>
    rw [splitlines_crlf]
    rcases List.infix_cons_iff.mp h with hp | h2
    · exact absurd (hhead hp) hb.2
    · rcases List.infix_cons_iff.mp h2 with hp | h3
      · exact absurd (hhead hp) hb.1
      · rcases ih h3 with ⟨l, hl, hi⟩
        exact ⟨l, List.mem_cons_of_mem _ hl, hi⟩
  | case3 rest ih =>
    rw [splitlines_lf]
    rcases List.infix_cons_iff.mp h with hp | h2
    · exact absurd (hhead hp) hb.1
    · rcases ih h2 with ⟨l, hl, hi⟩
      exact ⟨l, List.mem_cons_of_mem _ hl, hi⟩
  | case4 rest hne ih =>
    have heq : pySplitlines ('\r' :: rest) = [] :: pySplitlines rest := by
      rcases rest with _ | ⟨x, t⟩
      · exact splitlines_cr1
      · exact splitlines_cr x t (fun hx => hne t (by rw [hx]))
    rw [heq]
    rcases List.infix_cons_iff.mp h with hp | h2
    · exact absurd (hhead hp) hb.2
    · rcases ih h2 with ⟨l, hl, hi⟩
      exact ⟨l, List.mem_cons_of_mem _ hl, hi⟩
  | case5 c rest _ hn hr hrest ih =>
    have hrest' : rest = [] := by
      by_contra hc
      exact splitlines_ne_nil hc hrest
    subst hrest'
    rw [splitlines_other _ _ hn hr, hrest]
    rcases List.infix_cons_iff.mp h with hp | h2
    · rcases prefix_first_line hsub hb hp with ⟨l, ls, hls, hpre⟩
      rw [splitlines_other _ _ hn hr, hrest] at hls
      have hl : l = [c] := by injection hls with h1 _; exact h1.symm
      rw [hl] at hpre
      exact ⟨[c], by simp, hpre.isInfix⟩
    · exact absurd (List.infix_nil.mp h2) hsub
  | case6 c rest _ hn hr l₀ ls₀ hrest ih =>
    rw [splitlines_other _ _ hn hr, hrest]
    rcases List.infix_cons_iff.mp h with hp | h2
    · rcases prefix_first_line hsub hb hp with ⟨l, ls, hls, hpre⟩
      rw [splitlines_other _ _ hn hr, hrest] at hls
      have hl : l = c :: l₀ := by injection hls with h1 _; exact h1.symm
      exact ⟨c :: l₀, by simp, by rw [← hl]; exact hpre.isInfix⟩
    · rcases ih h2 with ⟨l, hl, hi⟩
      rw [hrest] at hl
      rcases List.mem_cons.mp hl with rfl | hl2
      · exact ⟨c :: l, by simp, hi.trans (by exact ⟨[c], [], by simp⟩)⟩
      · exact ⟨l, List.mem_cons_of_mem _ hl2, hi⟩

/-- An occurrence whose first character is not whitespace survives
`lstrip`. -/
theorem infix_lstrip_of_head {sub l : Str} {c : Char} (hh : sub.head? = some c)
    (hc : pyIsSpace c = false) (h : sub <:+: l) : sub <:+: pyLstrip l := by
  induction l with
  | nil =>
    rw [List.infix_nil.mp h] at hh
    simp at hh
  | cons x t ih =>
    by_cases hx : pyIsSpace x
    · have hstep : pyLstrip (x :: t) = pyLstrip t := by
        simp [pyLstrip, List.dropWhile_cons, hx]
      rw [hstep]
      apply ih
      rcases List.infix_cons_iff.mp h with hp | hi
      · exfalso
        rcases sub with _ | ⟨z, sub'⟩
        · simp at hh
        · obtain ⟨hz, -⟩ := List.cons_prefix_cons.mp hp
          simp only [List.head?_cons, Option.some.injEq] at hh
          rw [← hh, hz] at hc
          rw [hx] at hc
          simp at hc
      · exact hi
    · rw [pyLstrip_eq_self_of_head (s := x :: t) rfl (by simpa using hx)]
      exact h

/-- An occurrence whose last character is not whitespace survives
`rstrip`. -/
theorem infix_rstrip_of_last {sub l : Str} {c : Char} (hh : sub.getLast? = some c)
    (hc : pyIsSpace c = false) (h : sub <:+: l) : sub <:+: pyRstrip l := by
  have h1 : sub.reverse <:+: pyLstrip l.reverse :=
    infix_lstrip_of_head (by rw [List.head?_reverse]; exact hh) hc
      ( List.reverse_infix.mpr h)
  have h2 : (pyRstrip l).reverse = pyLstrip l.reverse := by
    simp [pyRstrip, pyLstrip]
  rw [← List.reverse_infix, h2]
  exact h1

/-- An occurrence with non-whitespace edges survives `strip`. -/
theorem infix_strip_of_edges {sub l : Str} {c d : Char}
    (h1 : sub.head? = some c) (hc : pyIsSpace c = false)
    (h2 : sub.getLast? = some d) (hd : pyIsSpace d = false)
    (h : sub <:+: l) : sub <:+: pyStrip l :=
  infix_lstrip_of_head h1 hc (infix_rstrip_of_last h2 hd h)

theorem mem_of_getLast?_eq {l : Str} {c : Char} (h : l.getLast? = some c) : c ∈ l := by
  rw [← List.head?_reverse] at h
  have hm : c ∈ l.reverse := by
    cases hl : l.reverse with
    | nil => rw [hl] at h; simp at h
    | cons x t =>
      rw [hl] at h
      simp only [List.head?_cons, Option.some.injEq] at h
      rw [← h]; simp
  simpa using hm

theorem splitOnce_of_startswith {sep s : Str} (h : pyStartswith sep s = true) :
    splitOnce sep s = some ([], s.drop sep.length) := by
  cases s with
  | nil => simp [splitOnce, h]
  | cons c t => simp [splitOnce, h]

/-- First-occurrence splitting of an explicit decomposition whose
prefix part ends with a newline-free separator's impossible spot: when
the prefix contains no occurrence and ends with `'\n'` (or is empty),
the split lands exactly at the explicit separator. -/
theorem splitOnce_append {sep a b : Str} (hsep : sep ≠ []) (hnl : '\n' ∉ sep)
    (ha : ¬ sep <:+: a) (hlast : a = [] ∨ a.getLast? = some '\n') :
    splitOnce sep (a ++ sep ++ b) = some (a, b) := by
  induction a with
  | nil =>
    rw [List.nil_append]
    rw [splitOnce_of_startswith (pyStartswith_iff.mpr ⟨b, rfl⟩)]
    rw [List.drop_left]
  | cons x a' ih =>
    have hlast' : (x :: a').getLast? = some '\n' := by
      rcases hlast with h1 | h1
      · simp at h1
      · exact h1
    have hnp : pyStartswith sep ((x :: a') ++ sep ++ b) = false := by
      rw [Bool.eq_false_iff]
      intro hc
      have hpre : sep <+: (x :: a') ++ (sep ++ b) := by
        have := pyStartswith_iff.mp hc
        rwa [List.append_assoc] at this
      by_cases hlen : sep.length ≤ (x :: a').length
      · have hsp : sep <+: x :: a' := by
          have h1 : sep = ((x :: a') ++ (sep ++ b)).take sep.length :=
            (List.prefix_iff_eq_take.mp hpre)
          rw [List.take_append_of_le_length hlen] at h1
          rw [h1]
          exact List.take_prefix _ _
        exact ha hsp.isInfix
      · have hsp : (x :: a') <+: sep :=
          List.prefix_of_prefix_length_le (List.prefix_append _ _) hpre
            (by omega)
        have hmem : '\n' ∈ (x :: a') := mem_of_getLast?_eq hlast'
        exact hnl (hsp.subset hmem)
    have hrec : splitOnce sep (a' ++ sep ++ b) = some (a', b) := by
      apply ih
      · exact not_infix_trans (List.suffix_cons x a').isInfix ha
      · rcases a' with _ | ⟨y, t⟩
        · exact Or.inl rfl
        · right
          rw [← getLast?_of_suffix (⟨[x], rfl⟩ : (y :: t) <:+ x :: y :: t) (by simp)]
          exact hlast'
    show splitOnce sep (x :: (a' ++ sep ++ b)) = _
    rw [splitOnce]
    rw [show x :: (a' ++ sep ++ b) = (x :: a') ++ sep ++ b by simp]
    rw [hnp]
    simp only [Bool.false_eq_true, if_false]
    rw [show (x :: a') ++ sep ++ b = x :: (a' ++ sep ++ b) by simp] at *
    rw [hrec]
    rfl

theorem mem_dedupeAux {x : Str} {seen : List Str} {l : List Str} :
    x ∈ dedupeAux seen l ↔ x ∈ l ∧ x ∉ seen := by
  induction l generalizing seen with
  | nil => simp [dedupeAux]
  | cons it rest ih =>
    by_cases hs : seen.contains it
    · rw [dedupeAux, if_pos hs, ih]
      constructor
      · rintro ⟨h1, h2⟩
        exact ⟨List.mem_cons_of_mem _ h1, h2⟩
      · rintro ⟨h1, h2⟩
        rcases List.mem_cons.mp h1 with rfl | h1
        · exact absurd (by simpa using hs) h2
        · exact ⟨h1, h2⟩
    · rw [dedupeAux, if_neg hs]
      constructor
      · intro hm
        rcases List.mem_cons.mp hm with rfl | hm
        · exact ⟨by simp, by simpa using hs⟩
        · have h2 := ih.mp hm
          exact ⟨List.mem_cons_of_mem _ h2.1,
            fun hx => h2.2 (List.mem_cons_of_mem _ hx)⟩
      · rintro ⟨h1, h2⟩
        rcases List.mem_cons.mp h1 with rfl | h1
        · simp
        · by_cases hxit : x = it
          · subst hxit; simp
          · refine List.mem_cons_of_mem _ (ih.mpr ⟨h1, fun hx => ?_⟩)
            rcases List.mem_cons.mp hx with h | h
            · exact hxit h
            · exact h2 h

theorem mem_dedupe {x : Str} {l : List Str} :
    x ∈ dedupe_preserve_order l ↔ x ∈ l := by
  rw [dedupe_preserve_order, mem_dedupeAux]
  simp

theorem nodup_dedupeAux (seen : List Str) (l : List Str) :
    (dedupeAux seen l).Nodup := by
  induction l generalizing seen with
  | nil => simp [dedupeAux]
  | cons it rest ih =>
    by_cases hs : seen.contains it
    · rw [dedupeAux, if_pos hs]; exact ih seen
    · rw [dedupeAux, if_neg hs]
      refine List.nodup_cons.mpr ⟨?_, ih _⟩
      intro hmem
      exact (mem_dedupeAux.mp hmem).2 (by simp)

theorem nodup_dedupe (l : List Str) : (dedupe_preserve_order l).Nodup :=
  nodup_dedupeAux [] l

theorem joinNL_cons_head (c : Char) (l : Str) (ls : List Str) :
    joinNL ((c :: l) :: ls) = c :: joinNL (l :: ls) := by
  cases ls <;> simp [joinNL, joinNL_cons₂]

/-- Rejoining the lines of a carriage-return-free string that does not
end in a newline recovers the string. -/
theorem joinNL_splitlines {s : Str} (hcr : '\r' ∉ s)
    (hlast : s.getLast? ≠ some '\n') : joinNL (pySplitlines s) = s := by
  induction s using pySplitlines.induct with
  | case1 => rfl
  | case2 rest ih => exact absurd (by simp) hcr
  | case3 rest ih =>
    rw [splitlines_lf]
    rcases hre : rest with _ | ⟨x, t⟩
    · subst hre
      exact absurd rfl hlast
    · rw [← hre]
      have hr : rest ≠ [] := by rw [hre]; simp
      have hrec : joinNL (pySplitlines rest) = rest := by
        apply ih
        · exact fun hc => hcr (List.mem_cons_of_mem _ hc)
        · rwa [← getLast?_of_suffix (⟨['\n'], rfl⟩ : rest <:+ '\n' :: rest) hr]
      rcases hsp : pySplitlines rest with _ | ⟨l, ls⟩
      · exact absurd hsp (splitlines_ne_nil hr)
      · rw [joinNL_cons₂, List.nil_append, ← hsp, hrec]
  | case4 rest hne ih => exact absurd (by simp) hcr
  | case5 c rest _ hn hr hrest ih =>
    have hrest' : rest = [] := by
      by_contra hc
      exact splitlines_ne_nil hc hrest
    subst hrest'
    rw [splitlines_other _ _ hn hr, hrest]
    rfl
  | case6 c rest _ hn hr l ls hrest ih =>
    rw [splitlines_other _ _ hn hr, hrest, joinNL_cons_head, ← hrest]
    have hrne : rest ≠ [] := by
      intro hc
      rw [hc] at hrest
      simp [pySplitlines] at hrest
    congr 1
    apply ih
    · exact fun hc => hcr (List.mem_cons_of_mem _ hc)
    · rwa [← getLast?_of_suffix (⟨[c], rfl⟩ : rest <:+ c :: rest) hrne]

theorem lstrip_eq_nil_iff {s : Str} : pyLstrip s = [] ↔ ∀ c ∈ s, pyIsSpace c :=
  List.dropWhile_eq_nil_iff

theorem rstrip_eq_nil_iff {s : Str} : pyRstrip s = [] ↔ ∀ c ∈ s, pyIsSpace c := by
  rw [pyRstrip, List.reverse_eq_nil_iff, List.dropWhile_eq_nil_iff]
  constructor
  · intro h c hc
    exact h c (by simpa using hc)
  · intro h c hc
    exact h c (by simpa using hc)

theorem strip_eq_nil_of_all_ws {s : Str} (h : ∀ c ∈ s, pyIsSpace c) :
    pyStrip s = [] := by
  rw [pyStrip, lstrip_eq_nil_iff]
  intro c hc
  exact h c ((pyRstrip_pfx s).subset hc)

theorem rstrip_of_strip_eq {s : Str} (h : pyStrip s = s) : pyRstrip s = s := by
  have h1 : s.length ≤ (pyRstrip s).length := by
    calc s.length = (pyStrip s).length := by rw [h]
    _ ≤ (pyRstrip s).length := (pyLstrip_sfx (pyRstrip s)).length_le
  exact (pyRstrip_pfx s).eq_of_length
    (Nat.le_antisymm (pyRstrip_pfx s).length_le h1)

theorem lstrip_of_strip_eq {s : Str} (h : pyStrip s = s) : pyLstrip s = s := by
  have h2 : pyStrip s = pyLstrip s := by
    rw [pyStrip, rstrip_of_strip_eq h]
  rw [← h2, h]

theorem head_of_strip_eq {s : Str} (h : pyStrip s = s) {c : Char}
    (hc : s.head? = some c) : pyIsSpace c = false :=
  head_strip_not_ws (s := s) (by rw [h]; exact hc)

theorem getLast_of_strip_eq {s : Str} (h : pyStrip s = s) {c : Char}
    (hc : s.getLast? = some c) : pyIsSpace c = false :=
  getLast_strip_not_ws (s := s) (by rw [h]; exact hc)

theorem rstrip_ne_nil_of_head {s : Str} {c : Char} (hh : s.head? = some c)
    (hc : pyIsSpace c = false) : pyRstrip s ≠ [] := by
  intro hnil
  rcases s with _ | ⟨x, t⟩
  · simp at hh
  · simp only [List.head?_cons, Option.some.injEq] at hh
    have := rstrip_eq_nil_iff.mp hnil x (by simp)
    rw [hh] at this
    rw [this] at hc
    simp at hc

/-- `strip` factors as `lstrip` first, then `rstrip`, then `lstrip`. -/
theorem strip_eq_lstrip_first (X : Str) :
    pyStrip X = pyLstrip (pyRstrip (pyLstrip X)) := by
  have hx : X = X.takeWhile pyIsSpace ++ pyLstrip X :=
    (List.takeWhile_append_dropWhile pyIsSpace X).symm
  have hwsp : ∀ c ∈ X.takeWhile pyIsSpace, pyIsSpace c := by
    intro c hc
    exact List.mem_takeWhile_imp hc
  rcases hd : pyLstrip X with _ | ⟨c, d'⟩
  · rw [strip_eq_nil_of_all_ws (lstrip_eq_nil_iff.mp hd)]
    rfl
  · have hc : pyIsSpace c = false := head_lstrip_not_ws (by rw [hd]; rfl)
    have hrd : pyRstrip (pyLstrip X) ≠ [] := by
      rw [hd]
      exact rstrip_ne_nil_of_head rfl hc
    have h1 : pyRstrip X = X.takeWhile pyIsSpace ++ pyRstrip (pyLstrip X) := by
      conv_lhs => rw [hx]
      rw [pyRstrip_append, if_neg hrd]
    rw [pyStrip, h1, pyLstrip_append, if_pos (lstrip_eq_nil_iff.mpr hwsp), hd]

theorem joinNL_ne_nil {x : Str} {rest : List Str} (hx : x ≠ []) :
    joinNL (x :: rest) ≠ [] := by
  cases rest with
  | nil => exact hx
  | cons y t => simp [joinNL_cons₂, hx]

/-- Rejoined stripped lines (with a non-empty last line) need no right
strip. -/
theorem rstrip_joinNL {ls : List Str} (hstr : ∀ l ∈ ls, pyStrip l = l)
    (hlast : ls.getLast? ≠ some []) : pyRstrip (joinNL ls) = joinNL ls := by
  induction ls with
  | nil => rfl
  | cons l rest ih =>
    rcases rest with _ | ⟨l₂, t⟩
    · exact rstrip_of_strip_eq (hstr l (by simp))
    · have hl₂ : l₂ ≠ [] ∨ t ≠ [] := by
        rcases t with _ | _
        · left
          intro hc
          exact hlast (by simp [hc])
        · right; simp
      have hjoin_ne : joinNL (l₂ :: t) ≠ [] := by
        rcases t with _ | ⟨u, t'⟩
        · rcases hl₂ with h | h
          · exact h
          · exact absurd rfl h
        · simp [joinNL_cons₂]
      have hrec : pyRstrip (joinNL (l₂ :: t)) = joinNL (l₂ :: t) := by
        apply ih
        · intro x hx
          exact hstr x (List.mem_cons_of_mem _ hx)
        · have hg : (l :: l₂ :: t).getLast? = (l₂ :: t).getLast? := by
            simp
          rwa [hg] at hlast
      have hb : pyRstrip ('\n' :: joinNL (l₂ :: t)) = '\n' :: joinNL (l₂ :: t) := by
        have h2 := pyRstrip_append ['\n'] (joinNL (l₂ :: t))
        rw [hrec, if_neg hjoin_ne] at h2
        simpa using h2
      rw [joinNL_cons₂, pyRstrip_append, hb, if_neg (by simp)]

/-- The first line is a prefix of the string. -/
theorem splitlines_first_prefix {s l : Str} {ls : List Str}
    (h : pySplitlines s = l :: ls) : l <+: s := by
  induction s using pySplitlines.induct generalizing l ls with
  | case1 => simp [pySplitlines] at h
  | case2 rest ih =>
    rw [splitlines_crlf] at h
    have : l = [] := by injection h with h1 _; exact h1.symm
    simp [this]
  | case3 rest ih =>
    rw [splitlines_lf] at h
    have : l = [] := by injection h with h1 _; exact h1.symm
    simp [this]
  | case4 rest hne ih =>
    have heq : pySplitlines ('\r' :: rest) = [] :: pySplitlines rest := by
      rcases rest with _ | ⟨x, t⟩
      · exact splitlines_cr1
      · exact splitlines_cr x t (fun hx => hne t (by rw [hx]))
    rw [heq] at h
    have : l = [] := by injection h with h1 _; exact h1.symm
    simp [this]
  | case5 c rest _ hn hr hrest ih =>
    rw [splitlines_other _ _ hn hr, hrest] at h
    have : l = [c] := by injection h with h1 _; exact h1.symm
    subst this
    have : rest = [] := by
      by_contra hc
      exact splitlines_ne_nil hc hrest
    subst this
    simp
  | case6 c rest _ hn hr l₀ ls₀ hrest ih =>
    rw [splitlines_other _ _ hn hr, hrest] at h
    have hl : l = c :: l₀ := by injection h with h1 _; exact h1.symm
    subst hl
    exact List.cons_prefix_cons.mpr ⟨rfl, ih hrest⟩

/-- Every line is an infix of the string. -/
theorem mem_splitlines_sub {s l : Str} (h : l ∈ pySplitlines s) : l <:+: s := by
  induction s using pySplitlines.induct generalizing l with
  | case1 => simp [pySplitlines] at h
  | case2 rest ih =>
    rw [splitlines_crlf] at h
    rcases List.mem_cons.mp h with rfl | h
    · simp
    · exact ((ih h).trans (List.suffix_cons _ _).isInfix).trans
        (List.suffix_cons _ _).isInfix
  | case3 rest ih =>
    rw [splitlines_lf] at h
    rcases List.mem_cons.mp h with rfl | h
    · simp
    · exact (ih h).trans (List.suffix_cons _ _).isInfix
  | case4 rest hne ih =>
    have heq : pySplitlines ('\r' :: rest) = [] :: pySplitlines rest := by
      rcases rest with _ | ⟨x, t⟩
      · exact splitlines_cr1
      · exact splitlines_cr x t (fun hx => hne t (by rw [hx]))
    rw [heq] at h
    rcases List.mem_cons.mp h with rfl | h
    · simp
    · exact (ih h).trans (List.suffix_cons _ _).isInfix
  | case5 c rest _ hn hr hrest ih =>
    rw [splitlines_other _ _ hn hr, hrest] at h
    rcases List.mem_cons.mp h with rfl | h
    · have : rest = [] := by
        by_contra hc
        exact splitlines_ne_nil hc hrest
      subst this
      simp
    · simp at h
  | case6 c rest _ hn hr l₀ ls₀ hrest ih =>
    rw [splitlines_other _ _ hn hr, hrest] at h
    rcases List.mem_cons.mp h with rfl | h
    · exact (List.cons_prefix_cons.mpr
        ⟨rfl, splitlines_first_prefix hrest⟩).isInfix
    · exact (ih (by rw [hrest]; exact List.mem_cons_of_mem _ h)).trans
        (List.suffix_cons _ _).isInfix

theorem metaLineMatch_none_of_head {l : Str} {c : Char} (h : l.head? = some c)
    (hc : c ≠ '<') : metaLineMatch l = none := by
  have hf : pyStartswith "<!--".toList l = false := by
    rw [Bool.eq_false_iff]
    intro hp
    rcases l with _ | ⟨x, t⟩
    · simp at h
    · obtain ⟨hx, -⟩ := List.cons_prefix_cons.mp (pyStartswith_iff.mp hp)
      simp only [List.head?_cons, Option.some.injEq] at h
      exact hc (by rw [← h, ← hx])
  rw [metaLineMatch, hf]
  simp

theorem metaLineMatch_nil : metaLineMatch [] = none := rfl

theorem metaLineMatch_metaLine {p : Str} (hh : p.head? = some '\x7b')
    (hl : p.getLast? = some '\x7d') (hnl : '\n' ∉ p) :
    metaLineMatch (metaLine p) = some p := by
  obtain ⟨p', rfl⟩ : ∃ p', p = '\x7b' :: p' := by
    rcases p with _ | ⟨c, t⟩
    · simp at hh
    · simp only [List.head?_cons, Option.some.injEq] at hh
      exact ⟨t, by rw [hh]⟩
  show metaLineMatch ('<' :: '!' :: '-' :: '-' :: ' ' :: 'm' :: 'e' :: 't' :: 'a' :: ':' :: ' ' ::
    '\x7b' :: (p' ++ [' ', '-', '-', '>'])) = _
  rw [metaLineMatch]
  rw [show pyStartswith "<!--".toList ('<' :: '!' :: '-' :: '-' :: ' ' :: 'm' :: 'e' :: 't' :: 'a' :: ':' :: ' ' ::
    '\x7b' :: (p' ++ [' ', '-', '-', '>'])) = true from
    decide_eq_true ⟨' ' :: 'm' :: 'e' :: 't' :: 'a' :: ':' :: ' ' :: '\x7b' :: (p' ++ [' ', '-', '-', '>']), rfl⟩]
  simp only [if_true]
  rw [show pyLstrip (List.drop 4 ('<' :: '!' :: '-' :: '-' :: ' ' :: 'm' :: 'e' :: 't' :: 'a' :: ':' :: ' ' ::
    '\x7b' :: (p' ++ [' ', '-', '-', '>']))) =
    'm' :: 'e' :: 't' :: 'a' :: ':' :: ' ' :: '\x7b' :: (p' ++ [' ', '-', '-', '>']) from rfl]
  rw [show pyStartswith "meta:".toList ('m' :: 'e' :: 't' :: 'a' :: ':' :: ' ' :: '\x7b' :: (p' ++ [' ', '-', '-', '>'])) = true from
    decide_eq_true ⟨' ' :: '\x7b' :: (p' ++ [' ', '-', '-', '>']), rfl⟩]
  simp only [if_true]
  rw [show pyLstrip (List.drop 5 ('m' :: 'e' :: 't' :: 'a' :: ':' :: ' ' :: '\x7b' :: (p' ++ [' ', '-', '-', '>']))) =
    '\x7b' :: (p' ++ [' ', '-', '-', '>']) from rfl]
  rw [show pyEndswith "-->".toList ('\x7b' :: (p' ++ [' ', '-', '-', '>'])) = true from
    decide_eq_true ⟨'\x7b' :: (p' ++ [' ']), by simp⟩]
  simp only [if_true]
  have hlen : ('\x7b' :: (p' ++ [' ', '-', '-', '>'])).length - 3 = p'.length + 1 + 1 := by
    simp
  have htake : ('\x7b' :: (p' ++ [' ', '-', '-', '>'])).take
      (('\x7b' :: (p' ++ [' ', '-', '-', '>'])).length - 3) = '\x7b' :: (p' ++ [' ']) := by
    rw [hlen, List.take_succ_cons]
    congr 1
    have h4 := @List.take_append _ p' [' ', '-', '-', '>'] 1
    simpa using h4
  rw [htake]
  have hrst : pyRstrip ('\x7b' :: (p' ++ [' '])) = '\x7b' :: p' := by
    have h1 := pyRstrip_append ('\x7b' :: p') [' ']
    rw [show pyRstrip [' '] = ([] : Str) from rfl] at h1
    rw [if_pos rfl] at h1
    rw [show ('\x7b' :: p') ++ [' '] = '\x7b' :: (p' ++ [' ']) from rfl] at h1
    rw [h1]
    exact pyRstrip_eq_self_of_getLast hl (by decide)
  rw [hrst]
  rw [hl]
  have hcont : ('\x7b' :: p').contains '\n' = false := by
    rw [Bool.eq_false_iff]
    intro hc
    exact hnl (by simpa using hc)
  rw [hcont]
  simp

theorem metaLineMatch_sub {l p : Str} (h : metaLineMatch l = some p) : p <:+: l := by
  simp only [metaLineMatch] at h
  split at h
  · split at h
    · split at h
      · split at h
        · split at h
          · injection h with h'
            subst h'
            refine ((pyRstrip_pfx _).isInfix.trans (List.take_prefix _ _).isInfix).trans ?_
            refine ((pyLstrip_sfx _).isInfix.trans (List.drop_suffix _ _).isInfix).trans ?_
            exact (pyLstrip_sfx _).isInfix.trans (List.drop_suffix _ _).isInfix
          · simp at h
        · simp at h
      · simp at h
    · simp at h
  · simp at h

theorem metaLineMatch_shape {l p : Str} (h : metaLineMatch l = some p) :
    p.head? = some '\x7b' ∧ p.getLast? = some '\x7d' ∧ '\n' ∉ p := by
  simp only [metaLineMatch] at h
  split at h
  · split at h
    · split at h
      · split at h
        · rename_i heq
          split at h
          · rename_i hcond
            injection h with h'
            subst h'
            simp only [Bool.and_eq_true, decide_eq_true_eq, Bool.not_eq_true'] at hcond
            refine ⟨by rw [heq]; rfl, hcond.1, fun hm => ?_⟩
            have := hcond.2
            rw [Bool.eq_false_iff] at this
            exact this (by simpa using hm)
          · simp at h
        · simp at h
      · simp at h
    · simp at h
  · simp at h

theorem get_metadata_ok {text p : Str} (h : get_metadata text = some p) :
    p.head? = some '\x7b' ∧ p.getLast? = some '\x7d' ∧ NoBreaks p := by
  rw [get_metadata] at h
  obtain ⟨l, hl, hm⟩ := List.exists_of_findSome?_eq_some h
  have hsh := metaLineMatch_shape hm
  have hinf : p <:+: l := (metaLineMatch_sub hm).trans (pyStrip_sub l)
  have hnb : NoBreaks l := splitlines_noBreaks hl
  exact ⟨hsh.1, hsh.2.1, hsh.2.2, fun hc => hnb.2 (hinf.subset hc)⟩

theorem ArchElem.nonMeta {l : Str} (h : ArchElem l) :
    (metaLineMatch (pyStrip l)).isNone = true := by
  rw [h.1, metaLineMatch_none_of_head h.2.2.2 (by decide)]
  rfl

theorem mem_of_getLast?_mem {α : Type} {l : List α} {c : α}
    (h : l.getLast? = some c) : c ∈ l := by
  rw [← List.head?_reverse] at h
  have hm : c ∈ l.reverse := by
    cases hl : l.reverse with
    | nil => rw [hl] at h; simp at h
    | cons x t =>
      rw [hl] at h
      simp only [List.head?_cons, Option.some.injEq] at h
      rw [← h]; simp
  simpa using hm

theorem rstrip_append_nl (y : Str) : pyRstrip (y ++ ['\n']) = pyRstrip y := by
  have h := pyRstrip_append y ['\n']
  rw [show pyRstrip ['\n'] = ([] : Str) from rfl, if_pos rfl] at h
  exact h

theorem strip_append_nl (y : Str) : pyStrip (y ++ ['\n']) = pyStrip y := by
  rw [pyStrip, rstrip_append_nl, ← pyStrip]

theorem filterMap_arch {combined : List Str} (h : ∀ l ∈ combined, pyStrip l = l) :
    (combined.filterMap fun l => if archFilter l then some (pyStrip l) else none)
      = combined.filter archFilter := by
  induction combined with
  | nil => rfl
  | cons l rest ih =>
    have hrec := ih (fun x hx => h x (List.mem_cons_of_mem _ hx))
    by_cases hf : archFilter l
    · simp [List.filterMap_cons, List.filter_cons, hf, h l (by simp), hrec]
    · simp [List.filterMap_cons, List.filter_cons, hf, hrec]

/-- Evaluation of `split_done_archive` on a document whose stripped
metadata-free form decomposes at the header. -/
theorem split_done_archive_compute {text Q rest : Str}
    (hsm : strip_metadata text = Q ++ DONE_ARCHIVE_HEADER ++ rest)
    (hQ : ¬ DONE_ARCHIVE_HEADER <:+: Q) (hQl : Q = [] ∨ Q.getLast? = some '\n') :
    split_done_archive text =
      (pyStrip Q, (pySplitlines rest).filterMap fun l =>
        if archFilter l then some (pyStrip l) else none) := by
  have hin : pyIn DONE_ARCHIVE_HEADER (strip_metadata text) = true := by
    rw [hsm]
    exact pyIn_iff.mpr ⟨Q, rest, rfl⟩
  have hsp : splitOnce DONE_ARCHIVE_HEADER (strip_metadata text) = some (Q, rest) := by
    rw [hsm]
    exact splitOnce_append (by decide) (by decide) hQ hQl
  rw [split_done_archive, hin, hsp]
  rfl

theorem noBreaks_metaLine {p : Str} (hp : NoBreaks p) : NoBreaks (metaLine p) := by
  constructor
  · intro hc
    rw [metaLine] at hc
    rcases List.mem_append.mp hc with h | h
    · rcases List.mem_append.mp h with h | h
      · exact absurd h (by decide)
      · exact hp.1 h
    · exact absurd h (by decide)
  · intro hc
    rw [metaLine] at hc
    rcases List.mem_append.mp hc with h | h
    · rcases List.mem_append.mp h with h | h
      · exact absurd h (by decide)
      · exact hp.2 h
    · exact absurd h (by decide)

theorem getLast?_append_right {α : Type} (a b : List α) (hb : b ≠ []) :
    (a ++ b).getLast? = b.getLast? := by
  rw [← List.head?_reverse, ← List.head?_reverse, List.reverse_append]
  cases hr : b.reverse with
  | nil => exact absurd (List.reverse_eq_nil_iff.mp hr) hb
  | cons x t => rfl

/-- Joining a stripped-body prefix, the archive header, well-formed
combined archive lines, and an optional metadata tail, then splitting,
recovers the body and the archive. -/
theorem split_done_archive_assembled (B' combined mt : List Str)
    (hB : ∀ l ∈ B', NoBreaks l ∧ ¬ DONE_ARCHIVE_HEADER <:+: l
          ∧ (metaLineMatch (pyStrip l)).isNone = true)
    (hC : ∀ l ∈ combined, ArchElem l) (hCne : combined ≠ [])
    (hmt : mt = [] ∨ ∃ p, mt = [[], metaLine p] ∧ p.head? = some '\x7b'
          ∧ p.getLast? = some '\x7d' ∧ NoBreaks p) :
    split_done_archive (joinNL (B' ++ [[], DONE_ARCHIVE_HEADER] ++ combined ++ mt))
      = (pyStrip (joinNL B'), combined.filter archFilter) := by
  have hCnonnil : combined.getLast? ≠ some [] := by
    intro hc
    exact (hC [] (mem_of_getLast?_mem hc)).2.1 rfl
  have hLne : B' ++ [[], DONE_ARCHIVE_HEADER] ++ combined ++ mt ≠ [] := by
    intro hc
    have h1 := (List.append_eq_nil.mp hc).1
    have h2 := (List.append_eq_nil.mp h1).1
    exact absurd (List.append_eq_nil.mp h2).2 (by simp)
  have hLnb : ∀ l ∈ B' ++ [[], DONE_ARCHIVE_HEADER] ++ combined ++ mt, NoBreaks l := by
    intro l hl
    rcases List.mem_append.mp hl with hl | hl
    · rcases List.mem_append.mp hl with hl | hl
      · rcases List.mem_append.mp hl with hl | hl
        · exact (hB l hl).1
        · rcases List.mem_cons.mp hl with rfl | hl
          · exact ⟨by simp, by simp⟩
          · rcases List.mem_cons.mp hl with rfl | hl
            · exact ⟨by decide, by decide⟩
            · simp at hl
      · exact (hC l hl).2.2.1
    · rcases hmt with rfl | ⟨p, rfl, hph, hpl, hpb⟩
      · simp at hl
      · rcases List.mem_cons.mp hl with rfl | hl
        · exact ⟨by simp, by simp⟩
        · rcases List.mem_cons.mp hl with rfl | hl
          · exact noBreaks_metaLine hpb
          · simp at hl
  have hLlast : (B' ++ [[], DONE_ARCHIVE_HEADER] ++ combined ++ mt).getLast? ≠ some [] := by
    rcases hmt with rfl | ⟨p, rfl, hph, hpl, hpb⟩
    · rw [List.append_nil, getLast?_append_right _ _ hCne]
      exact hCnonnil
    · rw [getLast?_append_right _ _ (by simp)]
      intro hc
      simp [metaLine] at hc
  have hsm0 : strip_metadata (joinNL (B' ++ [[], DONE_ARCHIVE_HEADER] ++ combined ++ mt))
      = pyStrip (joinNL ((B' ++ [[], DONE_ARCHIVE_HEADER] ++ combined ++ mt).filter
          fun l => (metaLineMatch (pyStrip l)).isNone)) := by
    rw [strip_metadata, splitlines_joinNL hLne hLnb hLlast]
  obtain ⟨mt', hmt', hfil⟩ : ∃ mt', (mt' = [] ∨ mt' = [([] : Str)]) ∧
      ((B' ++ [[], DONE_ARCHIVE_HEADER] ++ combined ++ mt).filter
        fun l => (metaLineMatch (pyStrip l)).isNone)
      = B' ++ [[], DONE_ARCHIVE_HEADER] ++ combined ++ mt' := by
    have hfB : (B'.filter fun l => (metaLineMatch (pyStrip l)).isNone) = B' :=
      List.filter_eq_self.mpr fun l hl => (hB l hl).2.2
    have hfH : (([[], DONE_ARCHIVE_HEADER] : List Str).filter
        fun l => (metaLineMatch (pyStrip l)).isNone) = [[], DONE_ARCHIVE_HEADER] := by decide
    have hfC : (combined.filter fun l => (metaLineMatch (pyStrip l)).isNone) = combined :=
      List.filter_eq_self.mpr fun l hl => (hC l hl).nonMeta
    rcases hmt with rfl | ⟨p, rfl, hph, hpl, hpb⟩
    · exact ⟨[], Or.inl rfl, by
        simp only [List.append_nil, List.filter_append, hfB, hfH, hfC]⟩
    · refine ⟨[[]], Or.inr rfl, ?_⟩
      have hpm : metaLineMatch (pyStrip (metaLine p)) = some p := by
        have hhd : (metaLine p).head? = some '<' := rfl
        have hlt : (metaLine p).getLast? = some '>' := by
          rw [metaLine, getLast?_append_right _ _ (by decide)]
          rfl
        rw [pyStrip_eq_self_of_edges hhd (by decide) hlt (by decide)]
        exact metaLineMatch_metaLine hph hpl hpb.1
      have hfM : (([[], metaLine p] : List Str).filter
          fun l => (metaLineMatch (pyStrip l)).isNone) = [([] : Str)] := by
        rw [List.filter_cons, List.filter_cons, List.filter_nil]
        rw [if_pos (show (metaLineMatch (pyStrip ([] : Str))).isNone = true from rfl)]
        rw [if_neg (show ¬ (metaLineMatch (pyStrip (metaLine p))).isNone = true by
          rw [hpm]; simp)]
      simp only [List.filter_append, hfB, hfH, hfC, hfM]
  have hWstr : pyRstrip (joinNL combined) = joinNL combined :=
    rstrip_joinNL (fun l hl => (hC l hl).1) hCnonnil
  have hWne : joinNL combined ≠ [] := by
    obtain ⟨c0, cs, hcc⟩ := List.exists_cons_of_ne_nil hCne
    rw [hcc]
    exact joinNL_ne_nil ((hC c0 (by rw [hcc]; exact List.mem_cons_self c0 cs)).2.1)
  have hrW : pyRstrip (joinNL (combined ++ mt')) = joinNL combined := by
    rcases hmt' with rfl | rfl
    · rw [List.append_nil]; exact hWstr
    · obtain ⟨c0, cs, hcc⟩ := List.exists_cons_of_ne_nil hCne
      rw [hcc, joinNL_append (B := [([] : Str)]) (by simp)]
      simp only [List.isEmpty_cons, Bool.false_eq_true, if_false]
      rw [show joinNL [([] : Str)] = [] from rfl, rstrip_append_nl, ← hcc]
      exact hWstr
  have hcmne : combined ++ mt' ≠ [] := by
    intro hc; exact hCne (List.append_eq_nil.mp hc).1
  have h2 : joinNL ([DONE_ARCHIVE_HEADER] ++ (combined ++ mt'))
      = DONE_ARCHIVE_HEADER ++ '\n' :: joinNL (combined ++ mt') := by
    obtain ⟨u, us, huu⟩ := List.exists_cons_of_ne_nil hcmne
    rw [huu, List.singleton_append, joinNL_cons₂]
  have hMre : B' ++ [[], DONE_ARCHIVE_HEADER] ++ combined ++ mt'
      = (B' ++ [([] : Str)]) ++ ([DONE_ARCHIVE_HEADER] ++ (combined ++ mt')) := by
    simp
  have hjM : joinNL (B' ++ [[], DONE_ARCHIVE_HEADER] ++ combined ++ mt')
      = joinNL (B' ++ [([] : Str)]) ++ '\n' ::
        (DONE_ARCHIVE_HEADER ++ '\n' :: joinNL (combined ++ mt')) := by
    rw [hMre, joinNL_append (by simp), if_neg (by simp), h2]
  have hRM : pyRstrip (joinNL (B' ++ [[], DONE_ARCHIVE_HEADER] ++ combined ++ mt'))
      = joinNL (B' ++ [([] : Str)]) ++ '\n' ::
        (DONE_ARCHIVE_HEADER ++ '\n' :: joinNL combined) := by
    rw [hjM]
    rw [show joinNL (B' ++ [([] : Str)]) ++ '\n' ::
        (DONE_ARCHIVE_HEADER ++ '\n' :: joinNL (combined ++ mt'))
      = (joinNL (B' ++ [([] : Str)]) ++ '\n' :: (DONE_ARCHIVE_HEADER ++ ['\n']))
        ++ joinNL (combined ++ mt') by simp]
    rw [pyRstrip_append, hrW, if_neg hWne]
    simp
  have hX0 : B' = [] ∧ joinNL (B' ++ [([] : Str)]) = []
      ∨ B' ≠ [] ∧ joinNL (B' ++ [([] : Str)]) = joinNL B' ++ ['\n'] := by
    rcases B' with _ | ⟨b0, bs⟩
    · exact Or.inl ⟨rfl, rfl⟩
    · refine Or.inr ⟨by simp, ?_⟩
      rw [joinNL_append (by simp), if_neg (by simp)]
      rfl
  have htail : ((pySplitlines ('\n' :: joinNL combined)).filterMap
      fun l => if archFilter l then some (pyStrip l) else none)
      = combined.filter archFilter := by
    rw [splitlines_lf, splitlines_joinNL hCne (fun l hl => (hC l hl).2.2.1) hCnonnil]
    rw [List.filterMap_cons_none (by rfl)]
    exact filterMap_arch fun l hl => (hC l hl).1
  by_cases hE : pyLstrip (joinNL (B' ++ [([] : Str)])) = []
  · have hfirst : pyStrip (joinNL B') = [] := by
      rcases hX0 with ⟨hB0, hx⟩ | ⟨hne, hx⟩
      · rw [hB0]; rfl
      · apply strip_eq_nil_of_all_ws
        intro c hc
        exact lstrip_eq_nil_iff.mp hE c (by rw [hx]; exact List.mem_append_left _ hc)
    have hsm : strip_metadata (joinNL (B' ++ [[], DONE_ARCHIVE_HEADER] ++ combined ++ mt))
        = ([] : Str) ++ DONE_ARCHIVE_HEADER ++ ('\n' :: joinNL combined) := by
      rw [hsm0, hfil, pyStrip, hRM, pyLstrip_append, if_pos hE]
      rw [show pyLstrip ('\n' :: (DONE_ARCHIVE_HEADER ++ '\n' :: joinNL combined))
        = pyLstrip (DONE_ARCHIVE_HEADER ++ '\n' :: joinNL combined) from rfl]
      rw [pyLstrip_eq_self_of_head
        (show (DONE_ARCHIVE_HEADER ++ '\n' :: joinNL combined).head? = some '#' from rfl)
        (by decide)]
      simp
    have hQ : ¬ DONE_ARCHIVE_HEADER <:+: ([] : Str) := by
      intro hc
      exact absurd (List.infix_nil.mp hc) (by decide)
    rw [split_done_archive_compute hsm hQ (Or.inl rfl), htail]
    rw [show pyStrip ([] : Str) = ([] : Str) from rfl, ← hfirst]
  · obtain ⟨hBne, hx⟩ : B' ≠ [] ∧ joinNL (B' ++ [([] : Str)]) = joinNL B' ++ ['\n'] := by
      rcases hX0 with ⟨hB0, hx0⟩ | h
      · exact absurd (by rw [hx0]; rfl) hE
      · exact h
    have hQinfB : ¬ DONE_ARCHIVE_HEADER <:+: joinNL B' := by
      intro hc
      obtain ⟨l, hl, hsub⟩ := infix_joinNL (by decide) (by decide) hc
      exact (hB l hl).2.1 hsub
    have hQinf0 : ¬ DONE_ARCHIVE_HEADER <:+: joinNL (B' ++ [([] : Str)]) := by
      rw [hx]
      intro hc
      rcases infix_append_cons hc (by decide) with h1 | h1
      · exact hQinfB h1
      · exact absurd (List.infix_nil.mp h1) (by decide)
    have hQinf : ¬ DONE_ARCHIVE_HEADER <:+: pyLstrip (joinNL (B' ++ [([] : Str)])) :=
      not_infix_trans (pyLstrip_sub _) hQinf0
    have hQl : (pyLstrip (joinNL (B' ++ [([] : Str)])) ++ ['\n']).getLast? = some '\n' := by
      rw [getLast?_append_right _ _ (by simp)]
      rfl
    have hQinfQ : ¬ DONE_ARCHIVE_HEADER <:+:
        pyLstrip (joinNL (B' ++ [([] : Str)])) ++ ['\n'] := by
      intro hc
      rcases infix_append_cons hc (by decide) with h1 | h1
      · exact hQinf h1
      · exact absurd (List.infix_nil.mp h1) (by decide)
    have hsm : strip_metadata (joinNL (B' ++ [[], DONE_ARCHIVE_HEADER] ++ combined ++ mt))
        = (pyLstrip (joinNL (B' ++ [([] : Str)])) ++ ['\n']) ++ DONE_ARCHIVE_HEADER
          ++ ('\n' :: joinNL combined) := by
      rw [hsm0, hfil, pyStrip, hRM, pyLstrip_append, if_neg hE]
      simp
    rw [split_done_archive_compute hsm hQinfQ (Or.inr hQl), htail]
    have hfirst : pyStrip (pyLstrip (joinNL (B' ++ [([] : Str)])) ++ ['\n'])
        = pyStrip (joinNL B') := by
      rw [strip_append_nl]
      rw [show pyStrip (pyLstrip (joinNL (B' ++ [([] : Str)])))
        = pyLstrip (pyRstrip (pyLstrip (joinNL (B' ++ [([] : Str)])))) from rfl]
      rw [← strip_eq_lstrip_first, hx, strip_append_nl]
    rw [hfirst]

theorem dateLT_asymm {a b : PyDate} (h : dateLT a b = true) : dateLT b a = false := by
  simp only [dateLT, Bool.or_eq_true, Bool.and_eq_true, decide_eq_true_eq] at h ⊢
  simp only [Bool.or_eq_false_iff, Bool.and_eq_false_iff, decide_eq_false_iff_not,
    Bool.or_eq_false_iff] at *
  omega

theorem dateLT_lt_of_le {d e x : PyDate} (h1 : dateLT d e = true)
    (h2 : dateLT x e = false) : dateLT x d = false := by
  simp only [dateLT, Bool.or_eq_true, Bool.and_eq_true, decide_eq_true_eq,
    Bool.or_eq_false_iff, Bool.and_eq_false_iff, decide_eq_false_iff_not] at *
  omega

theorem mem_insertDate {x d : PyDate} {l : List PyDate}
    (h : x ∈ insertDate d l) : x = d ∨ x ∈ l := by
  induction l with
  | nil => simpa [insertDate] using h
  | cons e rest ih =>
    rw [insertDate] at h
    by_cases hd : dateLT d e = true
    · rw [if_pos hd] at h
      rcases List.mem_cons.mp h with rfl | h
      · exact Or.inl rfl
      · exact Or.inr h
    · rw [if_neg hd] at h
      rcases List.mem_cons.mp h with rfl | h
      · exact Or.inr (by simp)
      · rcases ih h with rfl | h
        · exact Or.inl rfl
        · exact Or.inr (List.mem_cons_of_mem _ h)

theorem sorted_insertDate {d : PyDate} {l : List PyDate}
    (h : l.Pairwise fun a b => dateLT b a = false) :
    (insertDate d l).Pairwise fun a b => dateLT b a = false := by
  induction l with
  | nil => simp [insertDate]
  | cons e rest ih =>
    rcases List.pairwise_cons.mp h with ⟨he, hrest⟩
    by_cases hd : dateLT d e = true
    · rw [insertDate, if_pos hd]
      refine List.pairwise_cons.mpr ⟨?_, h⟩
      intro x hx
      rcases List.mem_cons.mp hx with rfl | hx
      · exact dateLT_asymm hd
      · exact dateLT_lt_of_le hd (he x hx)
    · rw [insertDate, if_neg hd]
      refine List.pairwise_cons.mpr ⟨?_, ih hrest⟩
      intro x hx
      rcases mem_insertDate hx with rfl | hx
      · exact Bool.not_eq_true _ ▸ (Bool.eq_false_iff.mpr hd)
      · exact he x hx

theorem sorted_sortDates (ds : List PyDate) :
    (sortDates ds).Pairwise fun a b => dateLT b a = false := by
  rw [sortDates]
  induction ds with
  | nil => simp
  | cons d rest ih => exact sorted_insertDate ih

/-- C7 (amended): when every dated archive line carries a valid
calendar date, `update_weekly_summary` raises no exception; it is a
no-op exactly when no parsed entry falls in today's ISO week, and
otherwise rewrites the one summary keyed by today's ISO (year, week)
wholesale from the qualifying entries; the summary's per-day groups
are in ascending date order (`sortDates` sorts strictly by date). -/
theorem update_weekly_ok (today : PyDate) (archive : List Str) (entries : List DoneEntry)
    (hp : parse_done_entries archive = some entries) :
    (update_weekly_summary today archive).isSome = true
    ∧ ((entries.filter fun e => isocalendarYW e.wdate = isocalendarYW today).isEmpty = true →
        update_weekly_summary today archive = some none)
    ∧ ((entries.filter fun e => isocalendarYW e.wdate = isocalendarYW today).isEmpty = false →
        update_weekly_summary today archive
          = some (some (weeklyPath (isocalendarYW today).1 (isocalendarYW today).2,
              writeText (renderWeekly (isocalendarYW today).1 (isocalendarYW today).2
                (entries.filter fun e => isocalendarYW e.wdate = isocalendarYW today)))))
    ∧ (∀ ds : List PyDate, (sortDates ds).Pairwise fun a b => dateLT b a = false) := by
  rw [update_weekly_summary, hp]
  by_cases he : entries.isEmpty = true
  · have hee : entries = [] := by
      cases entries with
      | nil => rfl
      | cons a t => simp at he
    subst hee
    refine ⟨by simp, fun _ => by simp, fun hw => ?_, sorted_sortDates⟩
    simp at hw
  · by_cases hw : (entries.filter fun e => isocalendarYW e.wdate = isocalendarYW today).isEmpty = true
    · refine ⟨?_, fun _ => ?_, fun hw' => absurd hw' (by simp [hw]), sorted_sortDates⟩
      · simp [he, hw]
      · simp [he, hw]
    · refine ⟨?_, fun hw' => absurd hw' (by simp [hw]), fun _ => ?_, sorted_sortDates⟩
      · simp [he, hw]
      · simp [he, hw]

/-- C7 (counterexample): an archive whose one dated line carries the
invalid calendar date `2024-13-01` makes `update_weekly_summary`
raise (`none`) instead of performing the no-op the claim requires. -/
theorem update_weekly_invalid_date_raises :
    update_weekly_summary ⟨2024, 6, 7⟩ ["- [x] 2024-13-01 â€” x".toList] = none := by
  decide

/-- C7 (witness): a valid dated line in the current ISO week is
summarised without an exception. -/
theorem update_weekly_ok_witness :
    (update_weekly_summary ⟨2024, 6, 7⟩ ["- [x] 2024-06-03 â€” tea".toList]).isSome = true :=
  (update_weekly_ok ⟨2024, 6, 7⟩ ["- [x] 2024-06-03 â€” tea".toList]
    [⟨⟨2024, 6, 3⟩, "tea".toList⟩] (by decide)).1

/-- C8: reading the daily micro-action counter returns 0 when the
stored date is not today; writing on a day different from the stored
date resets the counter to 1 regardless of the prior count, same-day
writes increment by 1, and three consecutive writes on one day yield
counts 1, 2, 3. -/
theorem micro_counter_ok (meta : MicroMeta) (todayIso : Str)
    (hne : meta.micro_action_date.getD [] ≠ todayIso) :
    get_micro_action_count meta todayIso = 0
    ∧ (increment_micro_action_count meta todayIso).2 = 1
    ∧ (∀ c : Nat, (increment_micro_action_count ⟨some todayIso, some c⟩ todayIso).2 = c + 1)
    ∧ (increment_micro_action_count ((increment_micro_action_count meta todayIso).1)
        todayIso).2 = 2
    ∧ (increment_micro_action_count ((increment_micro_action_count
        ((increment_micro_action_count meta todayIso).1) todayIso).1) todayIso).2 = 3 := by
  have hinc : meta.micro_action_date ≠ some todayIso := by
    intro h
    exact hne (by rw [h]; rfl)
  have h1 : increment_micro_action_count meta todayIso = (⟨some todayIso, some 1⟩, 1) := by
    rw [increment_micro_action_count, if_pos hinc]
  have hsame : ∀ c : Nat,
      increment_micro_action_count ⟨some todayIso, some c⟩ todayIso
        = (⟨some todayIso, some (c + 1)⟩, c + 1) := by
    intro c
    rw [increment_micro_action_count, if_neg (by simp)]
    rfl
  refine ⟨?_, ?_, fun c => by rw [hsame c], ?_, ?_⟩
  · rw [get_micro_action_count, if_pos hne]
  · rw [h1]
  · rw [h1]
    rw [show ((⟨some todayIso, some 1⟩, 1) : MicroMeta × Nat).1
      = (⟨some todayIso, some 1⟩ : MicroMeta) from rfl, hsame 1]
  · rw [h1]
    rw [show ((⟨some todayIso, some 1⟩, 1) : MicroMeta × Nat).1
      = (⟨some todayIso, some 1⟩ : MicroMeta) from rfl, hsame 1]
    rw [show ((⟨some todayIso, some 2⟩, 2) : MicroMeta × Nat).1
      = (⟨some todayIso, some 2⟩ : MicroMeta) from rfl, hsame 2]

/-- C8 (witness): a concrete stale-date mapping. -/
theorem micro_counter_ok_witness :
    get_micro_action_count ⟨none, some 7⟩ "2024-06-07".toList = 0
    ∧ (increment_micro_action_count ⟨none, some 7⟩ "2024-06-07".toList).2 = 1
    ∧ (∀ c : Nat, (increment_micro_action_count ⟨some "2024-06-07".toList, some c⟩
        "2024-06-07".toList).2 = c + 1)
    ∧ (increment_micro_action_count ((increment_micro_action_count ⟨none, some 7⟩
        "2024-06-07".toList).1) "2024-06-07".toList).2 = 2
    ∧ (increment_micro_action_count ((increment_micro_action_count
        ((increment_micro_action_count ⟨none, some 7⟩ "2024-06-07".toList).1)
        "2024-06-07".toList).1) "2024-06-07".toList).2 = 3 :=
  micro_counter_ok ⟨none, some 7⟩ "2024-06-07".toList (by decide)

/-- C10: `normalize_done_item` is total and case-complete: a line
matching the dated done grammar is re-rendered with its own date, a
line matching only the undated grammar is stamped with the fallback
date, and any other line is returned whitespace-stripped. -/
theorem normalize_done_item_cases (raw : Str) (d : PyDate) :
    (∀ dt t, datedDoneMatch (pyStrip raw) = some (dt, t) →
      normalize_done_item raw d = "- [x] ".toList ++ dt ++ ' ' :: DASH ++ ' ' :: pyStrip t)
    ∧ (datedDoneMatch (pyStrip raw) = none →
      ∀ g, doneLineMatch (pyStrip raw) = some g →
        normalize_done_item raw d
          = "- [x] ".toList ++ isoFormat d ++ ' ' :: DASH ++ ' ' :: pyStrip g)
    ∧ (datedDoneMatch (pyStrip raw) = none → doneLineMatch (pyStrip raw) = none →
      normalize_done_item raw d = pyStrip raw) := by
  refine ⟨?_, ?_, ?_⟩
  · intro dt t h
    simp only [normalize_done_item, h]
  · intro h g hg
    simp only [normalize_done_item, h, hg]
  · intro h hg
    simp only [normalize_done_item, h, hg]

/-- C10 (witness): the three branches at concrete lines. -/
theorem normalize_done_item_cases_witness :
    normalize_done_item "- [x] 2024-01-02 â€” tea".toList ⟨2024, 6, 7⟩
        = "- [x] ".toList ++ "2024-01-02".toList ++ ' ' :: DASH ++ ' ' :: pyStrip "tea".toList
    ∧ normalize_done_item "- [x] hi".toList ⟨2024, 6, 7⟩
        = "- [x] ".toList ++ isoFormat ⟨2024, 6, 7⟩ ++ ' ' :: DASH ++ ' ' :: pyStrip "hi".toList
    ∧ normalize_done_item "  plain  ".toList ⟨2024, 6, 7⟩ = pyStrip "  plain  ".toList :=
  ⟨(normalize_done_item_cases _ _).1 "2024-01-02".toList "tea".toList (by decide),
   (normalize_done_item_cases _ _).2.1 (by decide) "hi".toList (by decide),
   (normalize_done_item_cases _ _).2.2 (by decide) (by decide)⟩

set_option maxHeartbeats 1000000 in
/-- C1 (amended): inside `run_replan` itself the generator call
precedes every write: when the call raises, the cycle reports failure
and the state file is byte-identical to what it was.  (The capture
transport, by contrast, persists the captured text before the cycle —
see the counterexample.) -/
theorem run_replan_genfail (gen : Gen) (today : PyDate) (disk : Str)
    (hne : (readText disk).isEmpty = false)
    (hfail : gen (remove_done_lines (split_done_archive (readText disk)).1)
        ((split_done_archive (readText disk)).2
          ++ (extract_done_lines (split_done_archive (readText disk)).1).map
              (normalize_done_item · today)) = none) :
    run_replan gen today disk = ⟨none, disk⟩ := by
  rcases hsp : split_done_archive (readText disk) with ⟨m, ar⟩
  rw [hsp] at hfail
  simp only at hfail
  rw [run_replan]
  simp only [hne, Bool.false_eq_true, if_false, hsp]
  rw [hfail]

/-- C1 (counterexample): with a failing generator, the capture path
still rewrites the state file before the cycle runs, so the document
on disk after the failed cycle differs from what it was. -/
theorem capture_genfail_writes :
    (capture (fun _ _ => none) ⟨2024, 6, 7⟩ "12:00".toList "hi".toList
        "hello\n".toList).disk ≠ "hello\n".toList
    ∧ (capture (fun _ _ => none) ⟨2024, 6, 7⟩ "12:00".toList "hi".toList
        "hello\n".toList).ok = false := by
  exact ⟨by decide, by decide⟩

/-- C1 (witness): a concrete failing cycle on a non-empty document
leaves the file untouched. -/
theorem run_replan_genfail_witness :
    run_replan (fun _ _ => none) ⟨2024, 6, 7⟩ "hello\n".toList
      = ⟨none, "hello\n".toList⟩ :=
  run_replan_genfail (fun _ _ => none) ⟨2024, 6, 7⟩ "hello\n".toList
    (by decide) (by decide)

theorem dedupeAux_sublist (seen : List Str) (l : List Str) :
    (dedupeAux seen l).Sublist l := by
  induction l generalizing seen with
  | nil => simp [dedupeAux]
  | cons x rest ih =>
    rw [dedupeAux]
    by_cases hx : seen.contains x = true
    · rw [if_pos hx]
      exact (ih seen).cons x
    · rw [if_neg hx]
      exact (ih (x :: seen)).cons₂ x

/-- C6 (amended): the dedupe engine used by the merging operations
keeps archives duplicate-free in first-occurrence order: its output
has no duplicates, is a subsequence of its input, keeps exactly the
input's members, and merging `[A, B, A]` yields `[A, B]`.  (The style
endpoint rewrites the document without this merge — see the
counterexample.) -/
theorem dedupe_archive_invariant (l : List Str) (A B : Str) (hAB : A ≠ B) :
    (dedupe_preserve_order l).Nodup
    ∧ (dedupe_preserve_order l).Sublist l
    ∧ (∀ x, x ∈ dedupe_preserve_order l ↔ x ∈ l)
    ∧ dedupe_preserve_order [A, B, A] = [A, B] := by
  refine ⟨nodup_dedupe l, dedupeAux_sublist [] l, fun x => mem_dedupe, ?_⟩
  have hBA : ([A] : List Str).contains B = false := by
    simp [List.contains, hAB.symm]
  have hABA : ([B, A] : List Str).contains A = true := by simp
  rw [dedupe_preserve_order, dedupeAux, if_neg (by simp), dedupeAux, if_neg (by simpa using hAB.symm),
    dedupeAux, if_pos (by simp), dedupeAux]

/-- C6 (witness): a concrete triple merge. -/
theorem dedupe_archive_invariant_witness :
    (dedupe_preserve_order ["- [x] a".toList, "- [x] a".toList]).Nodup
    ∧ (dedupe_preserve_order ["- [x] a".toList, "- [x] a".toList]).Sublist
        ["- [x] a".toList, "- [x] a".toList]
    ∧ (∀ x, x ∈ dedupe_preserve_order ["- [x] a".toList, "- [x] a".toList]
        ↔ x ∈ ["- [x] a".toList, "- [x] a".toList])
    ∧ dedupe_preserve_order ["x".toList, "y".toList, "x".toList]
        = ["x".toList, "y".toList] :=
  dedupe_archive_invariant ["- [x] a".toList, "- [x] a".toList]
    "x".toList "y".toList (by decide)

/-- C6 (counterexample): the style endpoint rewrites the document
without deduplicating, so a pre-existing duplicate archive entry
survives the rewrite and the written archive is not duplicate-free. -/
theorem style_preserves_duplicates :
    ((split_done_archive (readText (set_praise_style_nometa "warm".toList
        "b\n\n## Done Archive\n- [x] a\n- [x] a".toList))).2
      = ["- [x] a".toList, "- [x] a".toList])
    ∧ ¬ ((split_done_archive (readText (set_praise_style_nometa "warm".toList
        "b\n\n## Done Archive\n- [x] a\n- [x] a".toList))).2).Nodup := by
  exact ⟨by decide, by decide⟩

/-- C9: the state returned by the complete endpoint contains no today
task whose name has the request's task text as a case-insensitive
substring — matching tasks other than the completed one are dropped
from the returned view as well. -/
theorem complete_today_filtered (gen : Gen) (today : PyDate) (ts taskText note disk : Str)
    (st : ParsedState)
    (hst : (complete gen today ts taskText note disk).state = some st) :
    ∀ t ∈ st.today, pyIn (pyLower taskText) (pyLower t.name) = false := by
  intro t ht
  simp only [complete] at hst
  split at hst
  · exact absurd hst (by simp)
  · simp only [Option.some.injEq] at hst
    rw [← hst] at ht
    simp only at ht
    simpa using (List.mem_filter.mp ht).2

/-- C9 (witness): a concrete cycle returning one surviving task. -/
theorem complete_today_filtered_witness :
    pyIn (pyLower "x".toList) (pyLower ("Book flight".toList : Str)) = false :=
  complete_today_filtered (fun _ _ => some "## Today\n\n1. **Book flight**".toList)
    ⟨2024, 6, 7⟩ "t".toList "x".toList [] "hello".toList
    ⟨[⟨"Book flight".toList, []⟩], [], [], []⟩ (by decide)
    ⟨"Book flight".toList, []⟩ (by decide)

/-- Soundness of `splitOnce`: it splits at an occurrence and the
before-part contains none. -/
theorem splitOnce_sound {sep s a b : Str} (hsep : sep ≠ [])
    (h : splitOnce sep s = some (a, b)) :
    s = a ++ sep ++ b ∧ ¬ sep <:+: a := by
  induction s generalizing a b with
  | nil =>
    rw [splitOnce] at h
    rcases sep with _ | ⟨c, t⟩
    · exact absurd rfl hsep
    · rw [show pyStartswith (c :: t) [] = false from by
        simp [pyStartswith, List.prefix_nil]] at h
      simp at h
  | cons x s' ih =>
    rw [splitOnce] at h
    by_cases hpre : pyStartswith sep (x :: s') = true
    · rw [if_pos hpre] at h
      simp only [Option.some.injEq, Prod.mk.injEq] at h
      obtain ⟨t, ht⟩ := pyStartswith_iff.mp hpre
      refine ⟨?_, ?_⟩
      · rw [← h.1, List.nil_append, ← h.2, ← ht, List.drop_left]
      · rw [← h.1]
        intro hc
        rcases List.infix_nil.mp hc with rfl
        exact hsep rfl
    · rw [if_neg hpre] at h
      cases hs' : splitOnce sep s' with
      | none => rw [hs'] at h; simp at h
      | some p =>
        rcases p with ⟨a', b'⟩
        rw [hs'] at h
        simp only [Option.map_some', Option.some.injEq, Prod.mk.injEq] at h
        obtain ⟨h1, h2⟩ := ih hs'
        have hx : x :: s' = (x :: a') ++ (sep ++ b') := by
          rw [h1]
          simp
        refine ⟨?_, ?_⟩
        · rw [← h.1, ← h.2, hx]
          simp
        · rw [← h.1]
          intro hc
          rcases List.infix_cons_iff.mp hc with hp | hi
          · exact hpre (pyStartswith_iff.mpr (by rw [hx]; exact hp.trans (List.prefix_append _ _)))
          · exact h2 hi

/-- A character of a joined line list is a newline or from a line. -/
theorem mem_joinNL {c : Char} {ls : List Str} (h : c ∈ joinNL ls) :
    c = '\n' ∨ ∃ l ∈ ls, c ∈ l := by
  induction ls with
  | nil => simp [joinNL] at h
  | cons l rest ih =>
    rcases rest with _ | ⟨l₂, t⟩
    · exact Or.inr ⟨l, by simp, by simpa [joinNL] using h⟩
    · rw [joinNL_cons₂] at h
      rcases List.mem_append.mp h with h1 | h1
      · exact Or.inr ⟨l, by simp, h1⟩
      · rcases List.mem_cons.mp h1 with rfl | h1
        · exact Or.inl rfl
        · rcases ih h1 with h2 | ⟨x, hx1, hx2⟩
          · exact Or.inl h2
          · exact Or.inr ⟨x, List.mem_cons_of_mem _ hx1, hx2⟩

theorem head?_joinNL {x : Str} (rest : List Str) (hx : x ≠ []) :
    (joinNL (x :: rest)).head? = x.head? := by
  rcases rest with _ | ⟨y, t⟩
  · rfl
  · rw [joinNL_cons₂]
    rcases x with _ | ⟨c, x'⟩
    · exact absurd rfl hx
    · rfl

theorem getLast?_joinNL {ls : List Str} {x : Str} (hl : ls.getLast? = some x)
    (hx : x ≠ []) : (joinNL ls).getLast? = x.getLast? := by
  induction ls with
  | nil => simp at hl
  | cons l rest ih =>
    rcases rest with _ | ⟨y, t⟩
    · simp only [List.getLast?_singleton, Option.some.injEq] at hl
      rw [hl]
      rfl
    · rw [joinNL_cons₂]
      have hl' : (y :: t).getLast? = some x := by
        rw [← hl]
        simp [List.getLast?_cons_cons]
      have hJ : joinNL (y :: t) ≠ [] := by
        intro hc
        rcases t with _ | ⟨z, t'⟩
        · simp only [List.getLast?_singleton, Option.some.injEq] at hl'
          exact hx (by rw [← hl']; simpa [joinNL] using hc)
        · rw [joinNL_cons₂] at hc
          rcases List.append_eq_nil.mp hc with ⟨-, h2⟩
          simp at h2
      rw [getLast?_append_right _ _ (by simp)]
      rw [show ('\n' :: joinNL (y :: t)) = ['\n'] ++ joinNL (y :: t) from rfl]
      rw [getLast?_append_right _ _ hJ]
      exact ih hl'

theorem dropWhile_idem {p : Char → Bool} (l : Str) :
    (l.dropWhile p).dropWhile p = l.dropWhile p := by
  induction l with
  | nil => rfl
  | cons x t ih =>
    by_cases hx : p x
    · simp [List.dropWhile_cons, hx, ih]
    · simp [List.dropWhile_cons, hx]

theorem pyRstrip_idem (s : Str) : pyRstrip (pyRstrip s) = pyRstrip s := by
  rw [pyRstrip, pyRstrip, List.reverse_reverse, dropWhile_idem]

theorem pyStrip_rstrip (s : Str) : pyStrip (pyRstrip s) = pyStrip s := by
  rw [pyStrip, pyRstrip_idem, ← pyStrip]

theorem pyStrip_lstrip (s : Str) : pyStrip (pyLstrip s) = pyStrip s := by
  rw [pyStrip, ← strip_eq_lstrip_first]

/-- `read_text (write_text s)` re-reads the stripped content. -/
theorem readText_writeText (s : Str) : readText (writeText s) = pyStrip s := by
  rw [readText, writeText, strip_append_nl, pyStrip_rstrip]

theorem cr_not_mem_strip_metadata (t : Str) : '\r' ∉ strip_metadata t := by
  intro hc
  rw [strip_metadata] at hc
  have h1 : '\r' ∈ joinNL ((pySplitlines t).filter
      fun l => (metaLineMatch (pyStrip l)).isNone) := (pyStrip_sub _).subset hc
  rcases mem_joinNL h1 with h2 | ⟨l, hl, h2⟩
  · simp at h2
  · exact (splitlines_noBreaks (List.mem_filter.mp hl).1).2 h2

theorem splitOnce_isSome_of_sub {sep s : Str} (hsep : sep ≠ [])
    (h : sep <:+: s) : (splitOnce sep s).isSome = true := by
  induction s with
  | nil =>
    rcases List.infix_nil.mp h with rfl
    exact absurd rfl hsep
  | cons x s' ih =>
    rw [splitOnce]
    by_cases hpre : pyStartswith sep (x :: s') = true
    · rw [if_pos hpre]
      rfl
    · rw [if_neg hpre]
      rcases List.infix_cons_iff.mp h with hp | hi
      · exact absurd (pyStartswith_iff.mpr hp) hpre
      · cases hs' : splitOnce sep s' with
        | none => rw [hs'] at ih; exact absurd (ih hi) (by simp)
        | some p => simp [hs']

/-- Properties of the main part returned by `split_done_archive`:
stripped, carriage-return-free, and header-free. -/
theorem split_done_archive_main_props (x : Str) :
    pyStrip (split_done_archive x).1 = (split_done_archive x).1
    ∧ '\r' ∉ (split_done_archive x).1
    ∧ ¬ DONE_ARCHIVE_HEADER <:+: (split_done_archive x).1 := by
  rw [split_done_archive]
  by_cases hin : pyIn DONE_ARCHIVE_HEADER (strip_metadata x) = true
  · cases hsp : splitOnce DONE_ARCHIVE_HEADER (strip_metadata x) with
    | none =>
      have := splitOnce_isSome_of_sub (show (DONE_ARCHIVE_HEADER : Str) ≠ [] by decide)
        (pyIn_iff.mp hin)
      rw [hsp] at this
      simp at this
    | some p =>
      rcases p with ⟨m, tail⟩
      rw [if_pos hin]
      obtain ⟨heq, hnin⟩ := splitOnce_sound (by decide) hsp
      refine ⟨pyStrip_idem m, ?_, ?_⟩
      · intro hc
        have h1 : '\r' ∈ m := (pyStrip_sub m).subset hc
        exact cr_not_mem_strip_metadata x (by
          rw [heq]
          exact List.mem_append_left _ (List.mem_append_left _ h1))
      · exact not_infix_trans (pyStrip_sub m) hnin
  · rw [if_neg hin]
    refine ⟨pyStrip_idem _, ?_, ?_⟩
    · intro hc
      exact cr_not_mem_strip_metadata x ((pyStrip_sub _).subset hc)
    · intro hc
      exact not_infix_of_pyIn_eq_false (Bool.eq_false_iff.mpr hin)
        (hc.trans (pyStrip_sub _))

theorem startswith_ne_nil {c : Char} {pre s : Str}
    (h : pyStartswith (c :: pre) s = true) : s ≠ [] := by
  intro hc
  subst hc
  rcases pyStartswith_iff.mp h with ⟨t, ht⟩
  simp at ht

theorem head_of_lower_dash {l : Str}
    (h : pyStartswith "- [x]".toList (pyLower l) = true) : l.head? = some '-' := by
  rcases l with _ | ⟨c, r⟩
  · exact absurd rfl (startswith_ne_nil (by simpa [pyLower] using h))
  · obtain ⟨hc, -⟩ := List.cons_prefix_cons.mp (pyStartswith_iff.mp h)
    have : c = '-' := by
      by_contra hne
      exact toLower_ne_of_lt (by decide) hne hc.symm
    rw [this]
    rfl

/-- Every archive line returned by `split_done_archive` is a
well-formed archive element passing the archive filter. -/
theorem split_done_archive_arch_elems (x : Str) :
    ∀ l ∈ (split_done_archive x).2, ArchElem l ∧ archFilter l = true := by
  intro l hl
  rw [split_done_archive] at hl
  by_cases hin : pyIn DONE_ARCHIVE_HEADER (strip_metadata x) = true
  · cases hsp : splitOnce DONE_ARCHIVE_HEADER (strip_metadata x) with
    | none =>
      have := splitOnce_isSome_of_sub (show (DONE_ARCHIVE_HEADER : Str) ≠ [] by decide)
        (pyIn_iff.mp hin)
      rw [hsp] at this
      simp at this
    | some p =>
      rcases p with ⟨m, tail⟩
      rw [if_pos hin, hsp] at hl
      have hl2 : l ∈ (pySplitlines tail).filterMap
          (fun l => if archFilter l then some (pyStrip l) else none) := hl
      simp only [List.mem_filterMap] at hl2
      obtain ⟨l₀, hl₀, hf⟩ := hl2
      have harch : archFilter l₀ = true := by
        by_cases hb : archFilter l₀ = true
        · exact hb
        · rw [if_neg hb] at hf; simp at hf
      rw [if_pos harch] at hf
      simp only [Option.some.injEq] at hf
      subst hf
      have hnb₀ : NoBreaks l₀ := splitlines_noBreaks hl₀
      have hne : pyStrip l₀ ≠ [] := by
        intro hc
        rw [archFilter, hc] at harch
        exact absurd rfl (startswith_ne_nil (by simpa [pyLower] using harch))
      refine ⟨⟨pyStrip_idem l₀, hne, ?_, ?_⟩, ?_⟩
      · exact ⟨fun hc => hnb₀.1 ((pyStrip_sub l₀).subset hc),
          fun hc => hnb₀.2 ((pyStrip_sub l₀).subset hc)⟩
      · exact head_of_lower_dash (by rw [archFilter] at harch; exact harch)
      · rw [archFilter, pyStrip_idem]
        rw [archFilter] at harch
        exact harch
  · rw [if_neg hin] at hl
    simp at hl

theorem digitChar_ne_lf (m : Nat) : Nat.digitChar m ≠ '\n' := by
  rcases m with _|_|_|_|_|_|_|_|_|_|_|_|_|_|_|_|m
  · decide
  · decide
  · decide
  · decide
  · decide
  · decide
  · decide
  · decide
  · decide
  · decide
  · decide
  · decide
  · decide
  · decide
  · decide
  · decide
  · rw [Nat.digitChar]
    repeat rw [if_neg (by omega)]
    decide

theorem digitChar_ne_cr (m : Nat) : Nat.digitChar m ≠ '\r' := by
  rcases m with _|_|_|_|_|_|_|_|_|_|_|_|_|_|_|_|m
  · decide
  · decide
  · decide
  · decide
  · decide
  · decide
  · decide
  · decide
  · decide
  · decide
  · decide
  · decide
  · decide
  · decide
  · decide
  · decide
  · rw [Nat.digitChar]
    repeat rw [if_neg (by omega)]
    decide

theorem digitChar_not_break (m : Nat) :
    Nat.digitChar m ≠ '\n' ∧ Nat.digitChar m ≠ '\r' :=
  ⟨digitChar_ne_lf m, digitChar_ne_cr m⟩

theorem mem_toDigitsCore {c : Char} {b : Nat} :
    ∀ {f n : Nat} {ds : List Char}, c ∈ Nat.toDigitsCore b f n ds →
      c ∈ ds ∨ ∃ m, c = Nat.digitChar m := by
  intro f
  induction f with
  | zero => intro n ds h; exact Or.inl h
  | succ f ih =>
    intro n ds h
    rw [Nat.toDigitsCore] at h
    by_cases hz : n / b = 0
    · rw [if_pos hz] at h
      rcases List.mem_cons.mp h with rfl | h
      · exact Or.inr ⟨n % b, rfl⟩
      · exact Or.inl h
    · rw [if_neg hz] at h
      rcases ih h with h1 | h1
      · rcases List.mem_cons.mp h1 with rfl | h1
        · exact Or.inr ⟨n % b, rfl⟩
        · exact Or.inl h1
      · exact Or.inr h1

theorem noBreaks_natToStr (n : Nat) : NoBreaks (natToStr n) := by
  constructor
  · intro hc
    rcases mem_toDigitsCore hc with h | ⟨m, hm⟩
    · simp at h
    · exact (digitChar_not_break m).1 hm.symm
  · intro hc
    rcases mem_toDigitsCore hc with h | ⟨m, hm⟩
    · simp at h
    · exact (digitChar_not_break m).2 hm.symm

theorem noBreaks_cons {c : Char} {l : Str} (hc1 : c ≠ '\n') (hc2 : c ≠ '\r')
    (h : NoBreaks l) : NoBreaks (c :: l) := by
  refine ⟨fun hm => ?_, fun hm => ?_⟩
  · rcases List.mem_cons.mp hm with h1 | h1
    · exact hc1 h1.symm
    · exact h.1 h1
  · rcases List.mem_cons.mp hm with h1 | h1
    · exact hc2 h1.symm
    · exact h.2 h1

theorem noBreaks_append {a b : Str} (ha : NoBreaks a) (hb : NoBreaks b) :
    NoBreaks (a ++ b) := by
  refine ⟨fun hm => ?_, fun hm => ?_⟩
  · rcases List.mem_append.mp hm with h1 | h1
    · exact ha.1 h1
    · exact hb.1 h1
  · rcases List.mem_append.mp hm with h1 | h1
    · exact ha.2 h1
    · exact hb.2 h1

theorem noBreaks_pad2 (n : Nat) : NoBreaks (pad2 n) := by
  rw [pad2]
  split
  · exact noBreaks_cons (by decide) (by decide) (noBreaks_natToStr n)
  · exact noBreaks_natToStr n

theorem noBreaks_pad4 (n : Nat) : NoBreaks (pad4 n) := by
  rw [pad4]
  split
  · exact noBreaks_cons (by decide) (by decide) (noBreaks_cons (by decide) (by decide)
      (noBreaks_cons (by decide) (by decide) (noBreaks_natToStr n)))
  · split
    · exact noBreaks_cons (by decide) (by decide)
        (noBreaks_cons (by decide) (by decide) (noBreaks_natToStr n))
    · split
      · exact noBreaks_cons (by decide) (by decide) (noBreaks_natToStr n)
      · exact noBreaks_natToStr n

theorem noBreaks_isoFormat (d : PyDate) : NoBreaks (isoFormat d) := by
  rw [isoFormat]
  exact noBreaks_append
    (noBreaks_append (noBreaks_pad4 _)
      (noBreaks_cons (by decide) (by decide) (noBreaks_pad2 _)))
    (noBreaks_cons (by decide) (by decide) (noBreaks_pad2 _))

/-- A payload captured by the `\s*(.+?)\s*$` tail on a break-free rest
ending in non-whitespace is the stripped rest: non-empty, stripped and
break-free. -/
theorem tailPayload_props {r g : Str} (hnl : '\n' ∉ r) (hcr : '\r' ∉ r)
    (hlast : ∀ c, r.getLast? = some c → pyIsSpace c = false)
    (hm : tailPayload r = some g) :
    g ≠ [] ∧ pyStrip g = g ∧ NoBreaks g := by
  have hrne : r ≠ [] := by
    intro h0
    rw [h0, show tailPayload [] = none from rfl] at hm
    simp at hm
  rcases hgl : r.getLast? with _ | c
  · exact absurd (List.getLast?_eq_none_iff.mp hgl) hrne
  · have hc : pyIsSpace c = false := hlast c hgl
    have hrstrip : pyRstrip r = r := pyRstrip_eq_self_of_getLast hgl hc
    have hcore : pyStrip r ≠ [] := by
      intro h0
      rw [pyStrip, hrstrip] at h0
      exact absurd (lstrip_eq_nil_iff.mp h0 c (mem_of_getLast?_eq hgl)) (by rw [hc]; simp)
    have hnlc : ¬ '\n' ∈ pyStrip r := fun hmem => hnl ((pyStrip_sub r).subset hmem)
    have hcon : (pyStrip r).contains '\n' = false := by
      rw [Bool.eq_false_iff]
      intro hcon
      exact hnlc (by simpa using hcon)
    simp only [tailPayload] at hm
    rw [if_pos hcore, hcon] at hm
    simp only [Bool.false_eq_true, if_false, Option.some.injEq] at hm
    subst hm
    exact ⟨hcore, pyStrip_idem r, fun hmem => hnlc hmem,
      fun hmem => hcr ((pyStrip_sub r).subset hmem)⟩

/-- On a stripped break-free line, a `DONE_LINE_RE` payload is
non-empty, stripped and break-free. -/
theorem doneLineMatch_payload {l g : Str} (hs : pyStrip l = l) (hnb : NoBreaks l)
    (hm : doneLineMatch l = some g) :
    g ≠ [] ∧ pyStrip g = g ∧ NoBreaks g := by
  rw [doneLineMatch] at hm
  split at hm
  case _ r heq =>
    split at hm
    case _ x rest heq2 =>
      split at hm
      case isTrue hx =>
        have hsfx : rest <:+ l := by
          have h1 : rest <:+ pyLstrip r := by
            rw [heq2]
            exact (List.suffix_cons ']' rest).trans
              ((List.suffix_cons x _).trans (List.suffix_cons '[' _))
          exact h1.trans ((pyLstrip_sfx r).trans
            ((List.suffix_cons '-' r).trans (heq ▸ pyLstrip_sfx l)))
        refine tailPayload_props ?_ ?_ ?_ hm
        · exact fun hmem => hnb.1 (hsfx.isInfix.subset hmem)
        · exact fun hmem => hnb.2 (hsfx.isInfix.subset hmem)
        · intro c hgc
          have hrestne : rest ≠ [] := by
            intro h0
            rw [h0] at hgc
            simp at hgc
          rw [← getLast?_of_suffix hsfx hrestne] at hgc
          exact getLast_of_strip_eq hs hgc
      case isFalse => simp at hm
    case _ => simp at hm
  case _ => simp at hm

/-- On a stripped break-free line, the `DATED_DONE_RE` groups: the
date group is break-free, and the text group is non-empty, stripped
and break-free. -/
theorem datedDoneMatch_payload {l d t : Str} (hs : pyStrip l = l) (hnb : NoBreaks l)
    (hm : datedDoneMatch l = some (d, t)) :
    NoBreaks d ∧ t ≠ [] ∧ pyStrip t = t ∧ NoBreaks t := by
  rw [datedDoneMatch] at hm
  split at hm
  case _ r heq =>
    split at hm
    case _ rest heq2 =>
      split at hm
      case _ a b c0 d0 e f g0 h0 rest2 heq3 =>
        split at hm
        case isTrue hdig =>
          dsimp only at hm
          split at hm
          case isTrue hdash =>
            cases htp : tailPayload ((pyLstrip rest2).drop DASH.length) with
            | none => rw [htp] at hm; simp at hm
            | some g2 =>
              rw [htp] at hm
              simp only [Option.map_some', Option.some.injEq, Prod.mk.injEq] at hm
              obtain ⟨hd, ht⟩ := hm
              have hsfx : (pyLstrip rest2).drop DASH.length <:+ l := by
                have h4 : rest2 <:+ pyLstrip rest := by
                  rw [heq3]
                  exact ⟨[a, b, c0, d0, '-', e, f, '-', g0, h0], rfl⟩
                have h3 : rest <:+ pyLstrip r := by
                  rw [heq2]
                  exact ⟨['[', 'x', ']'], rfl⟩
                have h2 : pyLstrip r <:+ l :=
                  (pyLstrip_sfx r).trans ((List.suffix_cons '-' r).trans (heq ▸ pyLstrip_sfx l))
                exact (List.drop_suffix _ _).trans
                  ((pyLstrip_sfx rest2).trans (h4.trans ((pyLstrip_sfx rest).trans (h3.trans h2))))
              have htprops := tailPayload_props
                (fun hmem => hnb.1 (hsfx.isInfix.subset hmem))
                (fun hmem => hnb.2 (hsfx.isInfix.subset hmem))
                (fun c hgc => by
                  have hne : (pyLstrip rest2).drop DASH.length ≠ [] := by
                    intro h0
                    rw [h0] at hgc
                    simp at hgc
                  rw [← getLast?_of_suffix hsfx hne] at hgc
                  exact getLast_of_strip_eq hs hgc) htp
              subst hd ht
              refine ⟨?_, htprops⟩
              constructor
              · intro hmem
                simp only [List.mem_cons, List.not_mem_nil, or_false] at hmem
                rcases hmem with h | h | h | h | h | h | h | h | h | h <;>
                  first
                    | exact absurd h (by decide)
                    | (rw [← h] at hdig; simp at hdig)
              · intro hmem
                simp only [List.mem_cons, List.not_mem_nil, or_false] at hmem
                rcases hmem with h | h | h | h | h | h | h | h | h | h <;>
                  first
                    | exact absurd h (by decide)
                    | (rw [← h] at hdig; simp at hdig)
          case isFalse => simp at hm
        case isFalse => simp at hm
      case _ => simp at hm
    case _ => simp at hm
  case _ => simp at hm

/-- The head of a stripped line whose lstrip starts with a
non-whitespace character. -/
theorem strip_head_of_lstrip_cons {l : Str} {c : Char} (hc : pyIsSpace c = false)
    (h : pyLstrip l = c :: (pyLstrip l).tail) : (pyStrip l).head? = some c := by
  rw [strip_eq_lstrip_first, h]
  have h1 : pyRstrip (c :: (pyLstrip l).tail) ≠ [] :=
    rstrip_ne_nil_of_head (s := c :: (pyLstrip l).tail) rfl hc
  rcases hp : pyRstrip (c :: (pyLstrip l).tail) with _ | ⟨y, t⟩
  · exact absurd hp h1
  · have hy : y = c := by
      have hpf := pyRstrip_pfx (c :: (pyLstrip l).tail)
      rw [hp] at hpf
      rcases hpf with ⟨s, hs⟩
      rw [List.cons_append] at hs
      have hh := congrArg List.head? hs
      simp only [List.head?_cons, Option.some.injEq] at hh
      exact hh
    rw [hy, pyLstrip_eq_self_of_head (s := c :: t) rfl hc]
    rfl

/-- Every element of `extract_done_lines` is a well-formed archive
element: stripped, non-empty, break-free, starting with `'-'`. -/
theorem extract_done_lines_props (t : Str) :
    ∀ l ∈ extract_done_lines t, ArchElem l := by
  intro l hl
  rw [extract_done_lines] at hl
  simp only [List.mem_filterMap] at hl
  obtain ⟨l₀, hl₀, hf⟩ := hl
  by_cases hd : (doneLineMatch l₀).isSome = true
  · rw [if_pos hd] at hf
    simp only [Option.some.injEq] at hf
    subst hf
    have hnb₀ : NoBreaks l₀ := splitlines_noBreaks hl₀
    have hhead : (pyStrip l₀).head? = some '-' := by
      rw [doneLineMatch] at hd
      split at hd
      case _ r heq => exact strip_head_of_lstrip_cons (by decide) (by rw [heq]; rfl)
      case _ => simp at hd
    refine ⟨pyStrip_idem l₀, ?_, ?_, hhead⟩
    · intro h0
      rw [h0] at hhead
      simp at hhead
    · exact ⟨fun hmem => hnb₀.1 ((pyStrip_sub l₀).subset hmem),
        fun hmem => hnb₀.2 ((pyStrip_sub l₀).subset hmem)⟩
  · rw [if_neg hd] at hf
    simp at hf

/-- A rendered archive line `- [x] <date> DASH <text>` with break-free
date and non-empty stripped break-free text is a well-formed archive
element. -/
theorem archElem_rendered {d t' : Str} (hdnb : NoBreaks d) (htne : t' ≠ [])
    (hts : pyStrip t' = t') (htnb : NoBreaks t') :
    ArchElem ("- [x] ".toList ++ d ++ ' ' :: DASH ++ ' ' :: t') := by
  obtain ⟨c, hc⟩ : ∃ c, t'.getLast? = some c := by
    rcases hgl : t'.getLast? with _ | c
    · exact absurd (List.getLast?_eq_none_iff.mp hgl) htne
    · exact ⟨c, rfl⟩
  have hcws : pyIsSpace c = false := getLast_of_strip_eq hts hc
  have hglo : ("- [x] ".toList ++ d ++ ' ' :: DASH ++ ' ' :: t').getLast? = some c := by
    rw [getLast?_append_right _ _ (by simp)]
    rw [show (' ' :: t') = [' '] ++ t' from rfl, getLast?_append_right _ _ htne]
    exact hc
  refine ⟨?_, by simp, ?_, ?_⟩
  · exact pyStrip_eq_self_of_edges (c := '-') (d := c) rfl (by decide) hglo hcws
  · exact noBreaks_append
      (noBreaks_append (noBreaks_append ⟨by decide, by decide⟩ hdnb)
        (noBreaks_cons (by decide) (by decide) ⟨by decide, by decide⟩))
      (noBreaks_cons (by decide) (by decide) htnb)
  · rfl

/-- `normalize_done_item` sends well-formed archive elements to
well-formed archive elements. -/
theorem normalize_ArchElem {l : Str} (today : PyDate) (h : ArchElem l) :
    ArchElem (normalize_done_item l today) := by
  obtain ⟨hs, hne, hnb, hhead⟩ := h
  rw [normalize_done_item]
  simp only [hs]
  cases hdm : datedDoneMatch l with
  | some p =>
    rcases p with ⟨d, t⟩
    obtain ⟨hdnb, htne, hts, htnb⟩ := datedDoneMatch_payload hs hnb hdm
    have hts' : pyStrip (pyStrip t) = pyStrip t := pyStrip_idem t
    exact archElem_rendered hdnb (by rw [hts]; exact htne) hts'
      (by rw [hts]; exact htnb)
  | none =>
    cases hdl : doneLineMatch l with
    | some g =>
      obtain ⟨hgne, hgs, hgnb⟩ := doneLineMatch_payload hs hnb hdl
      exact archElem_rendered (noBreaks_isoFormat today) (by rw [hgs]; exact hgne)
        (pyStrip_idem g) (by rw [hgs]; exact hgnb)
    | none => exact ⟨hs, hne, hnb, hhead⟩

theorem remove_done_lines_stripped (t : Str) :
    pyStrip (remove_done_lines t) = remove_done_lines t := by
  rw [remove_done_lines]
  exact pyStrip_idem _

theorem remove_done_lines_cr (t : Str) : '\r' ∉ remove_done_lines t := by
  intro hc
  rw [remove_done_lines] at hc
  rcases mem_joinNL ((pyStrip_sub _).subset hc) with h | ⟨l, hl, h⟩
  · simp at h
  · exact (splitlines_noBreaks (List.mem_filter.mp hl).1).2 h

theorem remove_done_lines_infix_free {sub t : Str} (hsub : sub ≠ []) (hnl : '\n' ∉ sub)
    (h : ¬ sub <:+: t) : ¬ sub <:+: remove_done_lines t := by
  intro hc
  rw [remove_done_lines] at hc
  obtain ⟨l, hl, hsubl⟩ := infix_joinNL hsub hnl (hc.trans (pyStrip_sub _))
  exact h (hsubl.trans (mem_splitlines_sub (List.mem_filter.mp hl).1))

/-- The sanitised generator text is a done-line removal of a
header-free string. -/
theorem sanitizeTasks_shape (x : Str) :
    ∃ ct2, sanitizeTasks x = remove_done_lines ct2
      ∧ ¬ DONE_ARCHIVE_HEADER <:+: ct2 := by
  rw [sanitizeTasks]
  have hct1 : ∃ ct1,
      (if pyIn DONE_ARCHIVE_HEADER x then
        match splitOnce DONE_ARCHIVE_HEADER x with
        | some (a, _) => pyStrip a
        | none => x
      else x) = ct1 ∧ ¬ DONE_ARCHIVE_HEADER <:+: ct1 := by
    by_cases hin : pyIn DONE_ARCHIVE_HEADER x = true
    · cases hsp : splitOnce DONE_ARCHIVE_HEADER x with
      | none =>
        have := splitOnce_isSome_of_sub (show (DONE_ARCHIVE_HEADER : Str) ≠ [] by decide)
          (pyIn_iff.mp hin)
        rw [hsp] at this
        simp at this
      | some p =>
        rcases p with ⟨a, b⟩
        refine ⟨pyStrip a, by rw [if_pos hin], ?_⟩
        exact not_infix_trans (pyStrip_sub a) (splitOnce_sound (by decide) hsp).2
    · exact ⟨x, by rw [if_neg hin], fun hc => hin (pyIn_iff.mpr hc)⟩
  obtain ⟨ct1, hct1eq, hct1free⟩ := hct1
  rw [hct1eq]
  by_cases hjc : pyIn JUST_COMPLETED ct1 = true
  · cases hsp : splitOnce JUST_COMPLETED ct1 with
    | none =>
      have := splitOnce_isSome_of_sub (show (JUST_COMPLETED : Str) ≠ [] by decide)
        (pyIn_iff.mp hjc)
      rw [hsp] at this
      simp at this
    | some p =>
      rcases p with ⟨a, b⟩
      refine ⟨pyStrip a, by rw [if_pos hjc], ?_⟩
      have hpre : a <+: ct1 := by
        rw [(splitOnce_sound (by decide) hsp).1]
        exact (List.prefix_append _ _).trans (by rw [← List.append_assoc])
      exact not_infix_trans (pyStrip_sub a)
        (not_infix_trans hpre.isInfix hct1free)
  · exact ⟨ct1, by rw [if_neg hjc], hct1free⟩

theorem sanitizeTasks_no_hdr (x : Str) :
    ¬ DONE_ARCHIVE_HEADER <:+: sanitizeTasks x := by
  obtain ⟨ct2, heq, hfree⟩ := sanitizeTasks_shape x
  rw [heq]
  exact remove_done_lines_infix_free (by decide) (by decide) hfree

theorem sanitizeTasks_stripped (x : Str) :
    pyStrip (sanitizeTasks x) = sanitizeTasks x := by
  obtain ⟨ct2, heq, -⟩ := sanitizeTasks_shape x
  rw [heq]
  exact remove_done_lines_stripped ct2

theorem sanitizeTasks_cr (x : Str) : '\r' ∉ sanitizeTasks x := by
  obtain ⟨ct2, heq, -⟩ := sanitizeTasks_shape x
  rw [heq]
  exact remove_done_lines_cr ct2

set_option maxRecDepth 8192 in
/-- The body chosen by `run_replan` is stripped, non-empty,
carriage-return-free and header-free. -/
theorem replanBody_props (ct : Str) (hstr : pyStrip ct = ct)
    (hcr : '\r' ∉ ct) (hfree : ¬ DONE_ARCHIVE_HEADER <:+: ct) :
    pyStrip (replanBody ct) = replanBody ct
    ∧ replanBody ct ≠ []
    ∧ '\r' ∉ replanBody ct
    ∧ ¬ DONE_ARCHIVE_HEADER <:+: replanBody ct := by
  rw [replanBody]
  by_cases hc : (pyStrip ct = [] || !hasTodayTasks ct) = true
  · rw [if_pos hc]
    exact ⟨by decide, by decide, by decide, by decide⟩
  · rw [if_neg hc]
    refine ⟨hstr, ?_, hcr, hfree⟩
    intro h0
    subst h0
    exact hc (by rw [show pyStrip ([] : Str) = ([] : Str) from rfl]; simp)

theorem filter_nonMeta_idem (ls : List Str) :
    ((ls.filter fun l => (metaLineMatch (pyStrip l)).isNone).filter
      fun l => (metaLineMatch (pyStrip l)).isNone)
      = ls.filter fun l => (metaLineMatch (pyStrip l)).isNone :=
  List.filter_eq_self.mpr fun l hl => (List.mem_filter.mp hl).2

/-- `split_done_archive` depends only on the metadata-stripped text. -/
theorem split_done_archive_congr {t₁ t₂ : Str}
    (h : strip_metadata t₁ = strip_metadata t₂) :
    split_done_archive t₁ = split_done_archive t₂ := by
  rw [split_done_archive, split_done_archive, h]

/-- The generalised assembly split: body lines need not be free of
metadata markers; the main part is their metadata-filtered rejoin. -/
theorem split_done_archive_assembled' (B' combined mt : List Str)
    (hB : ∀ l ∈ B', NoBreaks l ∧ ¬ DONE_ARCHIVE_HEADER <:+: l)
    (hC : ∀ l ∈ combined, ArchElem l) (hCne : combined ≠ [])
    (hmt : mt = [] ∨ ∃ p, mt = [[], metaLine p] ∧ p.head? = some '\x7b'
          ∧ p.getLast? = some '\x7d' ∧ NoBreaks p) :
    split_done_archive (joinNL (B' ++ [[], DONE_ARCHIVE_HEADER] ++ combined ++ mt))
      = (pyStrip (joinNL (B'.filter fun l => (metaLineMatch (pyStrip l)).isNone)),
         combined.filter archFilter) := by
  have hB2 : ∀ l ∈ B'.filter (fun l => (metaLineMatch (pyStrip l)).isNone),
      NoBreaks l ∧ ¬ DONE_ARCHIVE_HEADER <:+: l
        ∧ (metaLineMatch (pyStrip l)).isNone = true := by
    intro l hl
    obtain ⟨hm, hp⟩ := List.mem_filter.mp hl
    exact ⟨(hB l hm).1, (hB l hm).2, hp⟩
  have hLne : ∀ (Bb X : List Str), Bb ++ [[], DONE_ARCHIVE_HEADER] ++ combined ++ X ≠ [] := by
    intro Bb X hc
    have h1 := (List.append_eq_nil.mp hc).1
    have h2 := (List.append_eq_nil.mp h1).1
    exact absurd (List.append_eq_nil.mp h2).2 (by simp)
  have hmtnb : ∀ l ∈ mt, NoBreaks l := by
    intro l hl
    rcases hmt with rfl | ⟨p, rfl, hph, hpl, hpb⟩
    · simp at hl
    · rcases List.mem_cons.mp hl with rfl | hl
      · exact ⟨by simp, by simp⟩
      · rcases List.mem_cons.mp hl with rfl | hl
        · exact noBreaks_metaLine hpb
        · simp at hl
  have hnb : ∀ (Bb : List Str), (∀ l ∈ Bb, NoBreaks l) →
      ∀ l ∈ Bb ++ [[], DONE_ARCHIVE_HEADER] ++ combined ++ mt, NoBreaks l := by
    intro Bb hBb l hl
    rcases List.mem_append.mp hl with hl | hl
    · rcases List.mem_append.mp hl with hl | hl
      · rcases List.mem_append.mp hl with hl | hl
        · exact hBb l hl
        · rcases List.mem_cons.mp hl with rfl | hl
          · exact ⟨by simp, by simp⟩
          · rcases List.mem_cons.mp hl with rfl | hl
            · exact ⟨by decide, by decide⟩
            · simp at hl
      · exact (hC l hl).2.2.1
    · exact hmtnb l hl
  have hCnonnil : combined.getLast? ≠ some [] := by
    intro hc
    exact (hC [] (mem_of_getLast?_mem hc)).2.1 rfl
  have hLlast : ∀ (Bb : List Str),
      (Bb ++ [[], DONE_ARCHIVE_HEADER] ++ combined ++ mt).getLast? ≠ some [] := by
    intro Bb
    rcases hmt with rfl | ⟨p, rfl, hph, hpl, hpb⟩
    · rw [List.append_nil, getLast?_append_right _ _ hCne]
      exact hCnonnil
    · rw [getLast?_append_right _ _ (by simp)]
      intro hc
      simp [metaLine] at hc
  have hmtf : mt.filter (fun l => (metaLineMatch (pyStrip l)).isNone)
      = if mt.isEmpty then [] else [([] : Str)] := by
    rcases hmt with rfl | ⟨p, rfl, hph, hpl, hpb⟩
    · rfl
    · have hpm : metaLineMatch (pyStrip (metaLine p)) = some p := by
        have hhd : (metaLine p).head? = some '<' := rfl
        have hlt : (metaLine p).getLast? = some '>' := by
          rw [metaLine, getLast?_append_right _ _ (by decide)]
          rfl
        rw [pyStrip_eq_self_of_edges hhd (by decide) hlt (by decide)]
        exact metaLineMatch_metaLine hph hpl hpb.1
      rw [List.filter_cons, List.filter_cons, List.filter_nil]
      rw [if_pos (show (metaLineMatch (pyStrip ([] : Str))).isNone = true from rfl)]
      rw [if_neg (show ¬ (metaLineMatch (pyStrip (metaLine p))).isNone = true by
        rw [hpm]; simp)]
      rfl
  have hsm : ∀ (Bb : List Str), (∀ l ∈ Bb, NoBreaks l) →
      (Bb.filter (fun l => (metaLineMatch (pyStrip l)).isNone)
        = B'.filter (fun l => (metaLineMatch (pyStrip l)).isNone)) →
      strip_metadata (joinNL (Bb ++ [[], DONE_ARCHIVE_HEADER] ++ combined ++ mt))
        = pyStrip (joinNL ((B'.filter fun l => (metaLineMatch (pyStrip l)).isNone)
            ++ [[], DONE_ARCHIVE_HEADER] ++ combined
            ++ (if mt.isEmpty then [] else [([] : Str)]))) := by
    intro Bb hBb hBf
    rw [strip_metadata, splitlines_joinNL (hLne Bb mt) (hnb Bb hBb) (hLlast Bb)]
    rw [List.filter_append, List.filter_append, List.filter_append, hBf, hmtf]
    rw [show (([[], DONE_ARCHIVE_HEADER] : List Str).filter
      fun l => (metaLineMatch (pyStrip l)).isNone) = [[], DONE_ARCHIVE_HEADER] by decide]
    rw [List.filter_eq_self.mpr fun l hl => (hC l hl).nonMeta]
  have hkey : strip_metadata (joinNL (B' ++ [[], DONE_ARCHIVE_HEADER] ++ combined ++ mt))
      = strip_metadata (joinNL
          ((B'.filter fun l => (metaLineMatch (pyStrip l)).isNone)
            ++ [[], DONE_ARCHIVE_HEADER] ++ combined ++ mt)) := by
    rw [hsm B' (fun l hl => (hB l hl).1) rfl,
      hsm (B'.filter fun l => (metaLineMatch (pyStrip l)).isNone)
        (fun l hl => (hB l (List.mem_filter.mp hl).1).1) (filter_nonMeta_idem B')]
  rw [split_done_archive_congr hkey]
  exact split_done_archive_assembled _ combined mt hB2 hC hCne hmt

theorem pyStrip_ws_cons {c : Char} {X : Str} (hc : pyIsSpace c = true) :
    pyStrip (c :: X) = pyStrip X := by
  rw [strip_eq_lstrip_first]
  rw [show pyLstrip (c :: X) = pyLstrip X by simp [pyLstrip, List.dropWhile_cons, hc]]
  rw [← strip_eq_lstrip_first]

/-- Removing leading whitespace does not change the metadata-stripped
text of a carriage-return-free string. -/
theorem strip_metadata_lstrip (s : Str) (hcr : '\r' ∉ s) :
    strip_metadata (pyLstrip s) = strip_metadata s := by
  induction s with
  | nil => rfl
  | cons c s' ih =>
    by_cases hc : pyIsSpace c = true
    · rw [show pyLstrip (c :: s') = pyLstrip s' by simp [pyLstrip, List.dropWhile_cons, hc]]
      rw [ih (fun hm => hcr (List.mem_cons_of_mem _ hm))]
      symm
      by_cases hn : c = '\n'
      · subst hn
        rw [strip_metadata, strip_metadata, splitlines_lf, List.filter_cons]
        rw [if_pos (show (metaLineMatch (pyStrip ([] : Str))).isNone = true from rfl)]
        cases hF : (pySplitlines s').filter
            (fun l => (metaLineMatch (pyStrip l)).isNone) with
        | nil => rfl
        | cons f fs =>
          rw [joinNL_cons₂, List.nil_append]
          rw [pyStrip_ws_cons (by decide)]
      · have hcr' : c ≠ '\r' := by
          intro h0
          exact hcr (by rw [h0]; simp)
        rw [strip_metadata, strip_metadata, splitlines_other c s' hn hcr']
        cases hsp : pySplitlines s' with
        | nil =>
          have hs' : s' = [] := by
            by_contra h0
            exact splitlines_ne_nil h0 hsp
          subst hs'
          rw [show (([[c]] : List Str).filter
            (fun l => (metaLineMatch (pyStrip l)).isNone)) = [[c]] by
              rw [List.filter_cons, if_pos (show (metaLineMatch (pyStrip [c])).isNone = true by
                rw [pyStrip_ws_cons hc]
                rfl)]
              rfl]
          rw [show joinNL [[c]] = [c] from rfl, show joinNL (List.filter _ []) = [] from rfl]
          rw [show pyStrip [c] = pyStrip [] from pyStrip_ws_cons hc]
        | cons l₁ ls' =>
          rw [List.filter_cons, List.filter_cons]
          rw [show (metaLineMatch (pyStrip (c :: l₁))).isNone
            = (metaLineMatch (pyStrip l₁)).isNone by rw [pyStrip_ws_cons hc]]
          by_cases hP : (metaLineMatch (pyStrip l₁)).isNone = true
          · rw [if_pos hP, if_pos hP, joinNL_cons_head, pyStrip_ws_cons hc]
          · rw [if_neg hP, if_neg hP]
    · rw [pyLstrip_eq_self_of_head (s := c :: s') rfl (Bool.eq_false_iff.mpr hc)]

/-- `split_done_archive` ignores an outer `strip` of a
carriage-return-free, right-stripped document. -/
theorem split_done_archive_pyStrip {s : Str} (hcr : '\r' ∉ s)
    (hr : pyRstrip s = s) :
    split_done_archive (pyStrip s) = split_done_archive s :=
  split_done_archive_congr (by rw [pyStrip, hr, strip_metadata_lstrip s hcr])

theorem strip_metadata_infix_free {sub t : Str} (hsub : sub ≠ []) (hnl : '\n' ∉ sub)
    (h : ¬ sub <:+: t) : ¬ sub <:+: strip_metadata t := by
  intro hc
  rw [strip_metadata] at hc
  obtain ⟨l, hl, hsubl⟩ := infix_joinNL hsub hnl (hc.trans (pyStrip_sub _))
  exact h (hsubl.trans (mem_splitlines_sub (List.mem_filter.mp hl).1))

set_option maxHeartbeats 2000000 in
/-- A successful `run_replan` writes `replanFinal` and returns the
parse of it unless the weekly-summary update raises. -/
theorem run_replan_success (gen : Gen) (today : PyDate) (disk : Str) (g : Str)
    (hne : (readText disk).isEmpty = false)
    (hgen : gen (remove_done_lines (split_done_archive (readText disk)).1)
        ((split_done_archive (readText disk)).2
          ++ (extract_done_lines (split_done_archive (readText disk)).1).map
              (normalize_done_item · today)) = some g) :
    run_replan gen today disk
      = ⟨if (update_weekly_summary today (replanCombined today (readText disk) g)).isSome
           then some (parse_state_sections (replanFinal today (readText disk) g))
           else none,
         writeText (replanFinal today (readText disk) g)⟩ := by
  rcases hsp : split_done_archive (readText disk) with ⟨m, ar⟩
  rw [hsp] at hgen
  simp only at hgen
  rw [run_replan]
  simp only [hne, Bool.false_eq_true, if_false, hsp, hgen]
  rw [replanFinal, replanCombined, hsp]
  simp only [replanBody]
  cases hup : update_weekly_summary today (dedupe_preserve_order
      (ar ++ (extract_done_lines m).map (normalize_done_item · today)
        ++ (extract_done_lines (pyStrip g)).map (normalize_done_item · today))) with
  | none => simp [hup]
  | some v => simp [hup]

theorem replanCombined_arch (today : PyDate) (raw g : Str) :
    ∀ l ∈ replanCombined today raw g, ArchElem l := by
  intro l hl
  rw [replanCombined] at hl
  have hmem := mem_dedupe.mp hl
  rcases List.mem_append.mp hmem with h1 | h1
  · rcases List.mem_append.mp h1 with h2 | h2
    · exact (split_done_archive_arch_elems raw l h2).1
    · obtain ⟨l₀, hl₀, rfl⟩ := List.mem_map.mp h2
      exact normalize_ArchElem today (extract_done_lines_props _ l₀ hl₀)
  · obtain ⟨l₀, hl₀, rfl⟩ := List.mem_map.mp h1
    exact normalize_ArchElem today (extract_done_lines_props _ l₀ hl₀)

theorem cr_not_mem_joinNL {ls : List Str} (h : ∀ l ∈ ls, '\r' ∉ l) :
    '\r' ∉ joinNL ls := by
  intro hc
  rcases mem_joinNL hc with h1 | ⟨l, hl, h2⟩
  · simp at h1
  · exact h l hl h2

/-- The document assembled from a non-empty stripped body and a
non-empty archive block is the join of its lines. -/
theorem fs_eq_joinNL {body : Str} {C : List Str} (hbne : body ≠ [])
    (hbcr : '\r' ∉ body) (hbs : pyStrip body = body) (hCne : C ≠ []) :
    body ++ "\n\n".toList ++ DONE_ARCHIVE_HEADER ++ '\n' :: joinNL C
      = joinNL (pySplitlines body ++ [[], DONE_ARCHIVE_HEADER] ++ C) := by
  have hbl : joinNL (pySplitlines body) = body := by
    apply joinNL_splitlines hbcr
    intro hc
    have := getLast_of_strip_eq hbs hc
    simp [pyIsSpace] at this
  have hblne : pySplitlines body ≠ [] := splitlines_ne_nil hbne
  obtain ⟨c₀, cs, rfl⟩ := List.exists_cons_of_ne_nil hCne
  rw [show pySplitlines body ++ [[], DONE_ARCHIVE_HEADER] ++ (c₀ :: cs)
    = pySplitlines body ++ ([[], DONE_ARCHIVE_HEADER] ++ (c₀ :: cs)) by simp]
  rw [joinNL_append (by simp), if_neg (by simpa using hblne)]
  rw [hbl]
  rw [show ([[], DONE_ARCHIVE_HEADER] ++ (c₀ :: cs))
    = [] :: DONE_ARCHIVE_HEADER :: c₀ :: cs from rfl]
  rw [joinNL_cons₂, joinNL_cons₂]
  simp

/-- The last character of a joined archive block is the last character
of its last element. -/
theorem joinNL_arch_rstrip {L : List Str} {C : List Str}
    (hC : ∀ l ∈ C, ArchElem l) (hCne : C ≠ [])
    (hlast : L.getLast? = C.getLast?) (hnnil : L ≠ []) :
    pyRstrip (joinNL L) = joinNL L := by
  obtain ⟨clast, hgl⟩ : ∃ x, C.getLast? = some x := by
    rcases hg : C.getLast? with _ | x
    · exact absurd (List.getLast?_eq_none_iff.mp hg) hCne
    · exact ⟨x, rfl⟩
  have hcl := hC clast (mem_of_getLast?_mem hgl)
  obtain ⟨d, hd⟩ : ∃ d, clast.getLast? = some d := by
    rcases hg : clast.getLast? with _ | x
    · exact absurd (List.getLast?_eq_none_iff.mp hg) hcl.2.1
    · exact ⟨x, rfl⟩
  have hdws : pyIsSpace d = false := getLast_of_strip_eq hcl.1 hd
  have hjl : (joinNL L).getLast? = some d := by
    rw [getLast?_joinNL (by rw [hlast]; exact hgl) hcl.2.1, hd]
  exact pyRstrip_eq_self_of_getLast hjl hdws

theorem split_pyStrip_fs {body : Str} {C : List Str}
    (hbs : pyStrip body = body) (hbne : body ≠ []) (hbcr : '\r' ∉ body)
    (hbhdr : ¬ DONE_ARCHIVE_HEADER <:+: body)
    (hC : ∀ l ∈ C, ArchElem l) (hCne : C ≠ []) :
    split_done_archive
        (pyStrip (body ++ "\n\n".toList ++ DONE_ARCHIVE_HEADER ++ '\n' :: joinNL C))
      = (pyStrip (joinNL ((pySplitlines body).filter
          fun l => (metaLineMatch (pyStrip l)).isNone)), C.filter archFilter) := by
  rw [fs_eq_joinNL hbne hbcr hbs hCne]
  have hBp : ∀ l ∈ pySplitlines body, NoBreaks l ∧ ¬ DONE_ARCHIVE_HEADER <:+: l := by
    intro l hl
    exact ⟨splitlines_noBreaks hl, fun hc => hbhdr (hc.trans (mem_splitlines_sub hl))⟩
  have hcr : '\r' ∉ joinNL (pySplitlines body ++ [[], DONE_ARCHIVE_HEADER] ++ C) := by
    apply cr_not_mem_joinNL
    intro l hl
    rcases List.mem_append.mp hl with h1 | h1
    · rcases List.mem_append.mp h1 with h2 | h2
      · exact (hBp l h2).1.2
      · rcases List.mem_cons.mp h2 with rfl | h2
        · simp
        · rcases List.mem_cons.mp h2 with rfl | h2
          · exact (show NoBreaks DONE_ARCHIVE_HEADER from ⟨by decide, by decide⟩).2
          · simp at h2
    · exact (hC l h1).2.2.1.2
  have hrs : pyRstrip (joinNL (pySplitlines body ++ [[], DONE_ARCHIVE_HEADER] ++ C))
      = joinNL (pySplitlines body ++ [[], DONE_ARCHIVE_HEADER] ++ C) :=
    joinNL_arch_rstrip hC hCne (getLast?_append_right _ _ hCne)
      (by intro hc; exact absurd (List.append_eq_nil.mp hc).2 hCne)
  rw [split_done_archive_pyStrip hcr hrs]
  have := split_done_archive_assembled' (pySplitlines body) C [] hBp hC hCne (Or.inl rfl)
  rwa [List.append_nil] at this

theorem split_set_metadata_fs {body p : Str} {C : List Str}
    (hbs : pyStrip body = body) (hbne : body ≠ []) (hbcr : '\r' ∉ body)
    (hbhdr : ¬ DONE_ARCHIVE_HEADER <:+: body)
    (hC : ∀ l ∈ C, ArchElem l) (hCne : C ≠ [])
    (hph : p.head? = some '\x7b') (hpl : p.getLast? = some '\x7d') (hpb : NoBreaks p) :
    split_done_archive
        (set_metadata (body ++ "\n\n".toList ++ DONE_ARCHIVE_HEADER ++ '\n' :: joinNL C) p)
      = (pyStrip (joinNL ((pySplitlines body).filter
          fun l => (metaLineMatch (pyStrip l)).isNone)), C.filter archFilter) := by
  have hBp : ∀ l ∈ pySplitlines body, NoBreaks l ∧ ¬ DONE_ARCHIVE_HEADER <:+: l := by
    intro l hl
    exact ⟨splitlines_noBreaks hl, fun hc => hbhdr (hc.trans (mem_splitlines_sub hl))⟩
  have hCnonnil : C.getLast? ≠ some [] := by
    intro hc
    exact (hC [] (mem_of_getLast?_mem hc)).2.1 rfl
  have hLnb : ∀ l ∈ pySplitlines body ++ [[], DONE_ARCHIVE_HEADER] ++ C, NoBreaks l := by
    intro l hl
    rcases List.mem_append.mp hl with h1 | h1
    · rcases List.mem_append.mp h1 with h2 | h2
      · exact (hBp l h2).1
      · rcases List.mem_cons.mp h2 with rfl | h2
        · exact ⟨by simp, by simp⟩
        · rcases List.mem_cons.mp h2 with rfl | h2
          · exact ⟨by decide, by decide⟩
          · simp at h2
    · exact (hC l h1).2.2.1
  rw [set_metadata, fs_eq_joinNL hbne hbcr hbs hCne]
  rw [splitlines_joinNL (by
      intro hc
      exact absurd (List.append_eq_nil.mp hc).2 hCne)
    hLnb (by rw [getLast?_append_right _ _ hCne]; exact hCnonnil)]
  rw [List.filter_append, List.filter_append]
  rw [show (([[], DONE_ARCHIVE_HEADER] : List Str).filter
    fun l => (metaLineMatch (pyStrip l)).isNone) = [[], DONE_ARCHIVE_HEADER] by decide]
  rw [List.filter_eq_self.mpr fun l hl => (hC l hl).nonMeta]
  have hB₂ : ∀ l ∈ (pySplitlines body).filter
      (fun l => (metaLineMatch (pyStrip l)).isNone),
      NoBreaks l ∧ ¬ DONE_ARCHIVE_HEADER <:+: l := by
    intro l hl
    exact hBp l (List.mem_filter.mp hl).1
  have hL₄ : ((pySplitlines body).filter (fun l => (metaLineMatch (pyStrip l)).isNone))
      ++ [[], DONE_ARCHIVE_HEADER] ++ C ++ [[], metaLine p]
      = ((pySplitlines body).filter (fun l => (metaLineMatch (pyStrip l)).isNone))
        ++ [[], DONE_ARCHIVE_HEADER] ++ C ++ [[], metaLine p] := rfl
  have hcr₄ : '\r' ∉ joinNL
      (((pySplitlines body).filter (fun l => (metaLineMatch (pyStrip l)).isNone))
        ++ [[], DONE_ARCHIVE_HEADER] ++ C ++ [[], metaLine p]) := by
    apply cr_not_mem_joinNL
    intro l hl
    rcases List.mem_append.mp hl with h1 | h1
    · rcases List.mem_append.mp h1 with h2 | h2
      · rcases List.mem_append.mp h2 with h3 | h3
        · exact (hB₂ l h3).1.2
        · rcases List.mem_cons.mp h3 with rfl | h3
          · simp
          · rcases List.mem_cons.mp h3 with rfl | h3
            · exact (show NoBreaks DONE_ARCHIVE_HEADER from ⟨by decide, by decide⟩).2
            · simp at h3
      · exact (hC l h2).2.2.1.2
    · rcases List.mem_cons.mp h1 with rfl | h1
      · simp
      · rcases List.mem_cons.mp h1 with rfl | h1
        · exact (noBreaks_metaLine hpb).2
        · simp at h1
  have hrs₄ : pyRstrip (joinNL
      (((pySplitlines body).filter (fun l => (metaLineMatch (pyStrip l)).isNone))
        ++ [[], DONE_ARCHIVE_HEADER] ++ C ++ [[], metaLine p]))
      = joinNL (((pySplitlines body).filter (fun l => (metaLineMatch (pyStrip l)).isNone))
        ++ [[], DONE_ARCHIVE_HEADER] ++ C ++ [[], metaLine p]) := by
    have hmpne : metaLine p ≠ [] := by simp [metaLine]
    have hgl : ((((pySplitlines body).filter (fun l => (metaLineMatch (pyStrip l)).isNone))
        ++ [[], DONE_ARCHIVE_HEADER] ++ C ++ [[], metaLine p]) : List Str).getLast?
        = some (metaLine p) := by
      rw [getLast?_append_right
        (((pySplitlines body).filter (fun l => (metaLineMatch (pyStrip l)).isNone))
          ++ [[], DONE_ARCHIVE_HEADER] ++ C) [[], metaLine p] (by simp)]
      rfl
    have hgl2 : (metaLine p).getLast? = some '>' := by
      rw [metaLine, getLast?_append_right ("<!-- meta: ".toList ++ p) " -->".toList
        (by decide)]
      rfl
    have hjl := getLast?_joinNL hgl hmpne
    rw [hgl2] at hjl
    exact pyRstrip_eq_self_of_getLast hjl (by decide)
  rw [split_done_archive_pyStrip hcr₄ hrs₄]
  rw [split_done_archive_assembled' _ C [[], metaLine p] hB₂ hC hCne
    (Or.inr ⟨p, rfl, hph, hpl, hpb⟩)]
  rw [filter_nonMeta_idem]

theorem split_body_noarch {body : Str} (hbhdr : ¬ DONE_ARCHIVE_HEADER <:+: body) :
    split_done_archive body = (pyStrip (strip_metadata body), []) := by
  have hfree := strip_metadata_infix_free (by decide) (by decide) hbhdr
  simp only [split_done_archive]
  rw [if_neg (by rw [pyIn_eq_false_of_not_sub hfree]; simp)]

theorem split_set_metadata_noarch {body p : Str} (hbcr : '\r' ∉ body)
    (hbhdr : ¬ DONE_ARCHIVE_HEADER <:+: body) (hpb : NoBreaks p)
    (hph : p.head? = some '\x7b') (hpl : p.getLast? = some '\x7d') :
    split_done_archive (set_metadata body p)
      = (pyStrip (joinNL ((pySplitlines body).filter
          (fun l => (metaLineMatch (pyStrip l)).isNone) ++ [[]])), []) := by
  rw [set_metadata]
  have hB₂ : ∀ l ∈ (pySplitlines body).filter
      (fun l => (metaLineMatch (pyStrip l)).isNone),
      NoBreaks l ∧ ¬ DONE_ARCHIVE_HEADER <:+: l := by
    intro l hl
    have hm := (List.mem_filter.mp hl).1
    exact ⟨splitlines_noBreaks hm, fun hc => hbhdr (hc.trans (mem_splitlines_sub hm))⟩
  have hmpne : metaLine p ≠ [] := by simp [metaLine]
  have hgl2 : (metaLine p).getLast? = some '>' := by
    rw [metaLine, getLast?_append_right ("<!-- meta: ".toList ++ p) " -->".toList
      (by decide)]
    rfl
  have hcr : '\r' ∉ joinNL ((pySplitlines body).filter
      (fun l => (metaLineMatch (pyStrip l)).isNone) ++ [[], metaLine p]) := by
    apply cr_not_mem_joinNL
    intro l hl
    rcases List.mem_append.mp hl with h1 | h1
    · exact (hB₂ l h1).1.2
    · rcases List.mem_cons.mp h1 with rfl | h1
      · simp
      · rcases List.mem_cons.mp h1 with rfl | h1
        · exact (noBreaks_metaLine hpb).2
        · simp at h1
  have hrs : pyRstrip (joinNL ((pySplitlines body).filter
      (fun l => (metaLineMatch (pyStrip l)).isNone) ++ [[], metaLine p]))
      = joinNL ((pySplitlines body).filter
        (fun l => (metaLineMatch (pyStrip l)).isNone) ++ [[], metaLine p]) := by
    have hgl : (((pySplitlines body).filter
        (fun l => (metaLineMatch (pyStrip l)).isNone) ++ [[], metaLine p]) : List Str).getLast?
        = some (metaLine p) := by
      rw [getLast?_append_right ((pySplitlines body).filter
        (fun l => (metaLineMatch (pyStrip l)).isNone)) [[], metaLine p] (by simp)]
      rfl
    have hjl := getLast?_joinNL hgl hmpne
    rw [hgl2] at hjl
    exact pyRstrip_eq_self_of_getLast hjl (by decide)
  rw [split_done_archive_pyStrip hcr hrs]
  have hsl : pySplitlines (joinNL ((pySplitlines body).filter
      (fun l => (metaLineMatch (pyStrip l)).isNone) ++ [[], metaLine p]))
      = (pySplitlines body).filter
        (fun l => (metaLineMatch (pyStrip l)).isNone) ++ [[], metaLine p] := by
    apply splitlines_joinNL (by simp)
    · intro l hl
      rcases List.mem_append.mp hl with h1 | h1
      · exact (hB₂ l h1).1
      · rcases List.mem_cons.mp h1 with rfl | h1
        · exact ⟨by simp, by simp⟩
        · rcases List.mem_cons.mp h1 with rfl | h1
          · exact noBreaks_metaLine hpb
          · simp at h1
    · rw [getLast?_append_right ((pySplitlines body).filter
        (fun l => (metaLineMatch (pyStrip l)).isNone)) [[], metaLine p] (by simp)]
      intro hc
      rw [show ([[], metaLine p] : List Str).getLast? = some (metaLine p) from rfl] at hc
      simp only [Option.some.injEq] at hc
      exact hmpne hc
  have hfree : ¬ DONE_ARCHIVE_HEADER <:+: strip_metadata (joinNL
      ((pySplitlines body).filter (fun l => (metaLineMatch (pyStrip l)).isNone)
        ++ [[], metaLine p])) := by
    intro hc
    rw [strip_metadata, hsl] at hc
    obtain ⟨l, hl, hsubl⟩ := infix_joinNL (by decide) (by decide)
      (hc.trans (pyStrip_sub _))
    have hl2 := (List.mem_filter.mp hl).1
    rcases List.mem_append.mp hl2 with h1 | h1
    · exact (hB₂ l h1).2 hsubl
    · rcases List.mem_cons.mp h1 with rfl | h1
      · exact absurd (List.infix_nil.mp hsubl) (by decide)
      · rcases List.mem_cons.mp h1 with rfl | h1
        · exact absurd ((List.mem_filter.mp hl).2) (by
            rw [pyStrip_eq_self_of_edges (show (metaLine p).head? = some '<' from rfl)
              (by decide) hgl2 (by decide)]
            rw [metaLineMatch_metaLine hph hpl hpb.1]
            simp)
        · simp at h1
  simp only [split_done_archive]
  rw [if_neg (by rw [pyIn_eq_false_of_not_sub hfree]; simp)]
  have hpm : metaLineMatch (pyStrip (metaLine p)) = some p := by
    rw [pyStrip_eq_self_of_edges (show (metaLine p).head? = some '<' from rfl)
      (by decide) hgl2 (by decide)]
    exact metaLineMatch_metaLine hph hpl hpb.1
  rw [strip_metadata, hsl, List.filter_append, filter_nonMeta_idem]
  rw [show (([[], metaLine p] : List Str).filter
      (fun l => (metaLineMatch (pyStrip l)).isNone)) = [[]] by
    rw [List.filter_cons,
      if_pos (show (metaLineMatch (pyStrip ([] : Str))).isNone = true from rfl),
      List.filter_cons, if_neg (by rw [hpm]; simp), List.filter_nil]]
  rw [pyStrip_idem]

theorem pyStrip_set_metadata (t p : Str) :
    pyStrip (set_metadata t p) = set_metadata t p := by
  rw [set_metadata]
  exact pyStrip_idem _

/-- The archive of the document a successful cycle persists is exactly
the merged archive filtered by the archive-line filter. -/
theorem replanFinal_archive (today : PyDate) (raw g : Str) :
    (split_done_archive (readText (writeText (replanFinal today raw g)))).2
      = (replanCombined today raw g).filter archFilter := by
  rw [readText_writeText]
  obtain ⟨hbs, hbne, hbcr, hbhdr⟩ := replanBody_props (sanitizeTasks (pyStrip g))
    (sanitizeTasks_stripped _) (sanitizeTasks_cr _) (sanitizeTasks_no_hdr _)
  have hCarch := replanCombined_arch today raw g
  rw [replanFinal, assembleState.eq_def]
  by_cases hCe : (replanCombined today raw g).isEmpty = true
  · have hCnil : replanCombined today raw g = [] := by
      rwa [List.isEmpty_iff] at hCe
    rw [hCnil]
    simp only [List.isEmpty_nil, if_true, List.filter_nil]
    cases hmeta : get_metadata raw with
    | none =>
      rw [hbs, split_body_noarch hbhdr]
    | some p =>
      obtain ⟨hph, hpl, hpb⟩ := get_metadata_ok hmeta
      rw [pyStrip_set_metadata, split_set_metadata_noarch hbcr hbhdr hpb hph hpl]
  · have hCne : replanCombined today raw g ≠ [] := by
      intro hc
      rw [hc] at hCe
      simp at hCe
    simp only [hCe, Bool.false_eq_true, if_false]
    cases hmeta : get_metadata raw with
    | none =>
      rw [split_pyStrip_fs hbs hbne hbcr hbhdr hCarch hCne]
    | some p =>
      obtain ⟨hph, hpl, hpb⟩ := get_metadata_ok hmeta
      rw [pyStrip_set_metadata]
      rw [split_set_metadata_fs hbs hbne hbcr hbhdr hCarch hCne hph hpl hpb]

theorem archFilter_rendered {dt core : Str}
    (h : pyStrip ("- [x] ".toList ++ dt ++ ' ' :: DASH ++ ' ' :: core)
      = "- [x] ".toList ++ dt ++ ' ' :: DASH ++ ' ' :: core) :
    archFilter ("- [x] ".toList ++ dt ++ ' ' :: DASH ++ ' ' :: core) = true := by
  rw [archFilter, h]
  rw [show "- [x] ".toList ++ dt ++ ' ' :: DASH ++ ' ' :: core
    = "- [x] ".toList ++ (dt ++ ' ' :: DASH ++ ' ' :: core) by simp]
  rw [pyLower, List.map_append]
  rw [show List.map Char.toLower "- [x] ".toList = "- [x] ".toList by decide]
  apply pyStartswith_iff.mpr
  refine ⟨' ' :: List.map Char.toLower (dt ++ ' ' :: DASH ++ ' ' :: core), ?_⟩
  rw [show ("- [x] ".toList : Str) = "- [x]".toList ++ [' '] by decide]
  simp

set_option maxHeartbeats 1000000 in
/-- C2 (amended): in a successful cycle, every inline `- [x]` line of
the starting body whose stripped form still matches the done-line
grammar appears date-stamped in the archive of the persisted document:
with its own date when it carried one, with today's date otherwise.
(A marker line with an all-whitespace payload is archived unstamped —
see the counterexample.) -/
theorem done_lines_archived (gen : Gen) (today : PyDate) (disk g l : Str)
    (hne : (readText disk).isEmpty = false)
    (hgen : gen (remove_done_lines (split_done_archive (readText disk)).1)
        ((split_done_archive (readText disk)).2
          ++ (extract_done_lines (split_done_archive (readText disk)).1).map
              (normalize_done_item · today)) = some g)
    (hl : l ∈ extract_done_lines (split_done_archive (readText disk)).1)
    (hmatch : (doneLineMatch l).isSome = true) :
    normalize_done_item l today
        ∈ (split_done_archive (readText ((run_replan gen today disk).disk))).2
    ∧ ∃ dt core, normalize_done_item l today
        = "- [x] ".toList ++ dt ++ ' ' :: DASH ++ ' ' :: core
      ∧ (datedDoneMatch l = none → dt = isoFormat today) := by
  have hA : ArchElem l := extract_done_lines_props _ l hl
  have hAn : ArchElem (normalize_done_item l today) := normalize_ArchElem today hA
  have hshape : ∃ dt core, normalize_done_item l today
      = "- [x] ".toList ++ dt ++ ' ' :: DASH ++ ' ' :: core
      ∧ (datedDoneMatch l = none → dt = isoFormat today) := by
    cases hdm : datedDoneMatch l with
    | some p =>
      rcases p with ⟨d, t⟩
      refine ⟨d, pyStrip t, ?_, ?_⟩
      · rw [normalize_done_item, hA.1, hdm]
      · intro h0
        simp at h0
    | none =>
      cases hdl : doneLineMatch l with
      | some g₂ =>
        refine ⟨isoFormat today, pyStrip g₂, ?_, fun _ => rfl⟩
        rw [normalize_done_item, hA.1, hdm, hdl]
      | none =>
        rw [hdl] at hmatch
        simp at hmatch
  refine ⟨?_, hshape⟩
  rw [run_replan_success gen today disk g hne hgen]
  rw [show (⟨if (update_weekly_summary today
      (replanCombined today (readText disk) g)).isSome
        then some (parse_state_sections (replanFinal today (readText disk) g))
        else none,
      writeText (replanFinal today (readText disk) g)⟩ : ReplanOut).disk
    = writeText (replanFinal today (readText disk) g) from rfl]
  rw [replanFinal_archive]
  apply List.mem_filter.mpr
  constructor
  · rw [replanCombined]
    apply mem_dedupe.mpr
    exact List.mem_append_left _ (List.mem_append_right _
      (List.mem_map.mpr ⟨l, hl, rfl⟩))
  · obtain ⟨dt, core, heq, -⟩ := hshape
    rw [heq]
    exact archFilter_rendered (heq ▸ hAn.1)

set_option maxRecDepth 8192 in
theorem whitespace_done_line_unstamped :
    "- [x]".toList ∈ extract_done_lines
        (split_done_archive (readText "- [x] \nhello".toList)).1
  ∧ normalize_done_item "- [x]".toList ⟨2024, 6, 7⟩ = "- [x]".toList
  ∧ (split_done_archive (readText ((run_replan
        (fun _ _ => some "tasks".toList) ⟨2024, 6, 7⟩
        "- [x] \nhello".toList).disk))).2 = ["- [x]".toList] := by
  decide

theorem done_lines_archived_witness :
    normalize_done_item "- [x] done the thing".toList ⟨2024, 6, 7⟩
        ∈ (split_done_archive (readText ((run_replan
            (fun _ _ => some "tasks".toList) ⟨2024, 6, 7⟩
            "- [x] done the thing\nrest".toList).disk))).2
    ∧ ∃ dt core, normalize_done_item "- [x] done the thing".toList ⟨2024, 6, 7⟩
        = "- [x] ".toList ++ dt ++ ' ' :: DASH ++ ' ' :: core
      ∧ (datedDoneMatch "- [x] done the thing".toList = none
          → dt = isoFormat ⟨2024, 6, 7⟩) :=
  done_lines_archived (fun _ _ => some "tasks".toList) ⟨2024, 6, 7⟩
    "- [x] done the thing\nrest".toList "tasks".toList
    "- [x] done the thing".toList (by decide) rfl (by decide) (by decide)

set_option maxRecDepth 8192 in
set_option maxHeartbeats 1000000 in
theorem complete_all_archive (today : PyDate) (tasks parking_tasks : List Str)
    (disk : Str)
    (ht : ∀ t ∈ tasks ++ parking_tasks, t ≠ [] ∧ pyStrip t = t ∧ NoBreaks t)
    (htne : tasks ≠ []) :
    (split_done_archive (readText ((complete_all today tasks parking_tasks disk).disk))).2
      = (complete_all_combined today tasks parking_tasks
          (split_done_archive (readText disk)).2).filter archFilter := by
  have hC : ∀ l ∈ complete_all_combined today tasks parking_tasks
      (split_done_archive (readText disk)).2, ArchElem l := by
    intro l hl
    rw [complete_all_combined] at hl
    have hmem := mem_dedupe.mp hl
    rcases List.mem_append.mp hmem with h1 | h1
    · obtain ⟨t, htm, rfl⟩ := List.mem_map.mp h1
      obtain ⟨htn, hts, htb⟩ := ht t htm
      exact archElem_rendered (noBreaks_isoFormat today) htn hts htb
    · exact (split_done_archive_arch_elems _ l h1).1
  have hCne : complete_all_combined today tasks parking_tasks
      (split_done_archive (readText disk)).2 ≠ [] := by
    rw [complete_all_combined]
    obtain ⟨t₀, ts, rfl⟩ := List.exists_cons_of_ne_nil htne
    simp [dedupe_preserve_order, dedupeAux, List.map_cons]
  have hdisk : (complete_all today tasks parking_tasks disk).disk
      = writeText (match get_metadata (readText disk) with
          | some p => set_metadata (COMPLETE_ALL_BODY ++ DONE_ARCHIVE_HEADER
              ++ '\n' :: joinNL (complete_all_combined today tasks parking_tasks
                  (split_done_archive (readText disk)).2)) p
          | none => COMPLETE_ALL_BODY ++ DONE_ARCHIVE_HEADER
              ++ '\n' :: joinNL (complete_all_combined today tasks parking_tasks
                  (split_done_archive (readText disk)).2)) := rfl
  rw [hdisk, readText_writeText]
  have hshape : COMPLETE_ALL_BODY ++ DONE_ARCHIVE_HEADER
      ++ '\n' :: joinNL (complete_all_combined today tasks parking_tasks
          (split_done_archive (readText disk)).2)
      = ("## Today's Tasks\n\n(All done! ðŸŽ‰)\n\n---\n\n## Can Skip Today\n\n(Also all done!)\n\n---\n\n## If You Have Extra Energy\n\n- Rest well").toList
        ++ "\n\n".toList ++ DONE_ARCHIVE_HEADER
        ++ '\n' :: joinNL (complete_all_combined today tasks parking_tasks
          (split_done_archive (readText disk)).2) := by
    rw [show COMPLETE_ALL_BODY
      = ("## Today's Tasks\n\n(All done! ðŸŽ‰)\n\n---\n\n## Can Skip Today\n\n(Also all done!)\n\n---\n\n## If You Have Extra Energy\n\n- Rest well").toList
        ++ "\n\n".toList by decide]
  cases hmeta : get_metadata (readText disk) with
  | none =>
    rw [hshape, split_pyStrip_fs (by decide) (by decide) (by decide) (by decide) hC hCne]
  | some p =>
    obtain ⟨hph, hpl, hpb⟩ := get_metadata_ok hmeta
    rw [pyStrip_set_metadata, hshape,
      split_set_metadata_fs (by decide) (by decide) (by decide) (by decide) hC hCne hph hpl hpb]

set_option maxHeartbeats 1000000 in
/-- C3 (amended): the reconciliation merge concatenates in the order
existing archive, then user-declared, then generator-declared
completions before deduplicating; but `/api/complete_all` merges in
the opposite order — the freshly stamped completion lines come first
and the existing archive second (see the counterexample), so the
priority order is not uniform across the system's merging
operations. -/
theorem archive_merge_order (gen : Gen) (today : PyDate) (disk g : Str)
    (tasks parking_tasks : List Str) (disk' : Str)
    (hne : (readText disk).isEmpty = false)
    (hgen : gen (remove_done_lines (split_done_archive (readText disk)).1)
        ((split_done_archive (readText disk)).2
          ++ (extract_done_lines (split_done_archive (readText disk)).1).map
              (normalize_done_item · today)) = some g)
    (ht : ∀ t ∈ tasks ++ parking_tasks, t ≠ [] ∧ pyStrip t = t ∧ NoBreaks t)
    (htne : tasks ≠ []) :
    (split_done_archive (readText ((run_replan gen today disk).disk))).2
      = (dedupe_preserve_order
          ((split_done_archive (readText disk)).2
            ++ (extract_done_lines (split_done_archive (readText disk)).1).map
                (normalize_done_item · today)
            ++ (extract_done_lines (pyStrip g)).map
                (normalize_done_item · today))).filter archFilter
    ∧ (split_done_archive (readText ((complete_all today tasks parking_tasks
          disk').disk))).2
      = (dedupe_preserve_order
          ((tasks ++ parking_tasks).map (fun t =>
              "- [x] ".toList ++ isoFormat today ++ ' ' :: DASH ++ ' ' :: t)
            ++ (split_done_archive (readText disk')).2)).filter archFilter := by
  constructor
  · rw [run_replan_success gen today disk g hne hgen]
    rw [show (⟨if (update_weekly_summary today
        (replanCombined today (readText disk) g)).isSome
          then some (parse_state_sections (replanFinal today (readText disk) g))
          else none,
        writeText (replanFinal today (readText disk) g)⟩ : ReplanOut).disk
      = writeText (replanFinal today (readText disk) g) from rfl]
    rw [replanFinal_archive]
    rfl
  · rw [complete_all_archive today tasks parking_tasks disk' ht htne]
    rfl

set_option maxRecDepth 8192 in
theorem complete_all_new_first :
    (split_done_archive (readText "x\n\n## Done Archive\n- [x] old\n- [x] 2024-06-07 â€” t".toList)).2
      = ["- [x] old".toList, "- [x] 2024-06-07 â€” t".toList]
    ∧ (split_done_archive (readText ((complete_all ⟨2024, 6, 7⟩ ["t".toList] []
        "x\n\n## Done Archive\n- [x] old\n- [x] 2024-06-07 â€” t".toList).disk))).2
      = ["- [x] 2024-06-07 â€” t".toList, "- [x] old".toList] := by
  decide

theorem archive_merge_order_witness :
    ((split_done_archive (readText ((run_replan (fun _ _ => some "tasks".toList)
          ⟨2024, 6, 7⟩ "- [x] a\nrest".toList).disk))).2
      = (dedupe_preserve_order
          ((split_done_archive (readText "- [x] a\nrest".toList)).2
            ++ (extract_done_lines (split_done_archive
                  (readText "- [x] a\nrest".toList)).1).map
                (normalize_done_item · ⟨2024, 6, 7⟩)
            ++ (extract_done_lines (pyStrip "tasks".toList)).map
                (normalize_done_item · ⟨2024, 6, 7⟩))).filter archFilter)
    ∧ (split_done_archive (readText ((complete_all ⟨2024, 6, 7⟩ ["t".toList] []
          "hello".toList).disk))).2
      = (dedupe_preserve_order
          ((["t".toList] ++ []).map (fun t =>
              "- [x] ".toList ++ isoFormat ⟨2024, 6, 7⟩ ++ ' ' :: DASH ++ ' ' :: t)
            ++ (split_done_archive (readText "hello".toList)).2)).filter archFilter :=
  archive_merge_order (fun _ _ => some "tasks".toList) ⟨2024, 6, 7⟩
    "- [x] a\nrest".toList "tasks".toList ["t".toList] [] "hello".toList
    (by decide) rfl
    (by
      intro t htm
      simp at htm
      subst htm
      exact ⟨by decide, by decide, by decide, by decide⟩)
    (by decide)

/-- `set_metadata` changes nothing up to metadata stripping. -/
theorem strip_metadata_set_metadata (t : Str) {p : Str}
    (hph : p.head? = some '\x7b') (hpl : p.getLast? = some '\x7d')
    (hpb : NoBreaks p) :
    strip_metadata (set_metadata t p) = strip_metadata t := by
  have hmlne : metaLine p ≠ [] := by simp [metaLine]
  have hmlast : (metaLine p).getLast? = some '>' := by
    rw [metaLine, getLast?_append_right _ _ (by decide)]
    rfl
  have hpm : metaLineMatch (pyStrip (metaLine p)) = some p := by
    rw [pyStrip_eq_self_of_edges (show (metaLine p).head? = some '<' from rfl)
      (by decide) hmlast (by decide)]
    exact metaLineMatch_metaLine hph hpl hpb.1
  have hb : ∀ l ∈ (pySplitlines t).filter
      (fun l => (metaLineMatch (pyStrip l)).isNone) ++ [[], metaLine p],
      NoBreaks l := by
    intro l hl
    rcases List.mem_append.mp hl with h1 | h1
    · exact splitlines_noBreaks (List.mem_filter.mp h1).1
    · rcases List.mem_cons.mp h1 with rfl | h1
      · exact ⟨by simp, by simp⟩
      · rcases List.mem_cons.mp h1 with rfl | h1
        · exact noBreaks_metaLine hpb
        · simp at h1
  have hcr : '\r' ∉ joinNL ((pySplitlines t).filter
      (fun l => (metaLineMatch (pyStrip l)).isNone) ++ [[], metaLine p]) := by
    apply cr_not_mem_joinNL
    intro l hl
    exact (hb l hl).2
  have hgl : (((pySplitlines t).filter
      (fun l => (metaLineMatch (pyStrip l)).isNone)) ++ [[], metaLine p]).getLast?
      = some (metaLine p) := by
    rw [getLast?_append_right _ _ (by simp)]
    simp
  have hrst : pyRstrip (joinNL ((pySplitlines t).filter
      (fun l => (metaLineMatch (pyStrip l)).isNone) ++ [[], metaLine p]))
      = joinNL ((pySplitlines t).filter
      (fun l => (metaLineMatch (pyStrip l)).isNone) ++ [[], metaLine p]) := by
    apply pyRstrip_eq_self_of_getLast (c := '>')
    · rw [getLast?_joinNL hgl hmlne]
      exact hmlast
    · decide
  rw [set_metadata, pyStrip, hrst, strip_metadata_lstrip _ hcr]
  rw [strip_metadata, splitlines_joinNL (by simp) hb (by rw [hgl]; simp [metaLine])]
  rw [List.filter_append, filter_nonMeta_idem]
  rw [show (([[], metaLine p] : List Str).filter
      (fun l => (metaLineMatch (pyStrip l)).isNone)) = [[]] by
    rw [List.filter_cons,
      if_pos (show (metaLineMatch (pyStrip ([] : Str))).isNone = true from rfl),
      List.filter_cons, if_neg (by rw [hpm]; simp), List.filter_nil]]
  rw [strip_metadata]
  rcases hLf : (pySplitlines t).filter (fun l => (metaLineMatch (pyStrip l)).isNone)
      with _ | ⟨l₀, rest⟩
  · rfl
  · rw [joinNL_append (by simp), if_neg (by simp),
      show joinNL [([] : Str)] = [] from rfl]
    exact strip_append_nl _

set_option maxHeartbeats 1000000 in
/-- C5: re-parsing the document assembled (by the persistence-time
renderer) from a parse's own main part, archive lines and metadata
yields the same parsed structure as parsing the original document,
provided the main part is non-empty and free of metadata-shaped lines
— as holds for every document this system persists. -/
theorem parse_render_roundtrip (x : Str)
    (hm1 : ∀ l ∈ pySplitlines (split_done_archive (strip_metadata x)).1,
        (metaLineMatch (pyStrip l)).isNone = true)
    (hm2 : (split_done_archive (strip_metadata x)).1 ≠ []) :
    parse_state_sections (assembleState (split_done_archive (strip_metadata x)).1
        (split_done_archive (strip_metadata x)).2 (get_metadata x))
      = parse_state_sections x := by
  obtain ⟨hms, hmcr, hmhdr⟩ := split_done_archive_main_props (strip_metadata x)
  have harch := split_done_archive_arch_elems (strip_metadata x)
  have hmlast : (split_done_archive (strip_metadata x)).1.getLast? ≠ some '\n' := by
    intro hc
    have := getLast_of_strip_eq hms hc
    simp [pyIsSpace] at this
  have hsm_main : strip_metadata (split_done_archive (strip_metadata x)).1
      = (split_done_archive (strip_metadata x)).1 := by
    rw [strip_metadata, List.filter_eq_self.mpr hm1, joinNL_splitlines hmcr hmlast,
      hms]
  have hsplit_main : split_done_archive (split_done_archive (strip_metadata x)).1
      = ((split_done_archive (strip_metadata x)).1, []) := by
    rw [split_body_noarch hmhdr, hsm_main, hms]
  have hps : ∀ t : Str, parse_state_sections t
      = ⟨((pySplitlines (split_done_archive (strip_metadata t)).1).foldl scanLine
            ⟨none, [], [], []⟩).today,
         ((pySplitlines (split_done_archive (strip_metadata t)).1).foldl scanLine
            ⟨none, [], [], []⟩).parking,
         ((pySplitlines (split_done_archive (strip_metadata t)).1).foldl scanLine
            ⟨none, [], [], []⟩).extra,
         parseDoneItems (split_done_archive (strip_metadata t)).2⟩ := fun t => rfl
  have key : split_done_archive (strip_metadata
      (assembleState (split_done_archive (strip_metadata x)).1
        (split_done_archive (strip_metadata x)).2 (get_metadata x)))
      = split_done_archive (strip_metadata x) := by
    rw [assembleState.eq_def]
    by_cases hA : ((split_done_archive (strip_metadata x)).2).isEmpty = true
    · have hAnil : (split_done_archive (strip_metadata x)).2 = [] := by
        rwa [List.isEmpty_iff] at hA
      cases hmeta : get_metadata x with
      | none =>
        rw [if_pos hA, hsm_main, hsplit_main, ← hAnil]
      | some p =>
        obtain ⟨hph, hpl, hpb⟩ := get_metadata_ok hmeta
        rw [if_pos hA, strip_metadata_set_metadata _ hph hpl hpb, hsm_main,
          hsplit_main, ← hAnil]
    · have hAne : (split_done_archive (strip_metadata x)).2 ≠ [] := by
        intro hc
        rw [hc] at hA
        simp at hA
      have hCarch : ∀ l ∈ (split_done_archive (strip_metadata x)).2, ArchElem l :=
        fun l hl => (harch l hl).1
      have hfs_join := fs_eq_joinNL hm2 hmcr hms hAne
      obtain ⟨c₀, hc₀⟩ : ∃ c, (split_done_archive (strip_metadata x)).1.head? = some c := by
        rcases hh : (split_done_archive (strip_metadata x)).1 with _ | ⟨c, t⟩
        · exact absurd hh hm2
        · exact ⟨c, rfl⟩
      have hc₀ws : pyIsSpace c₀ = false :=
        head_strip_not_ws (s := (split_done_archive (strip_metadata x)).1)
          (by rw [hms]; exact hc₀)
      have hh : ((split_done_archive (strip_metadata x)).1 ++ "\n\n".toList
          ++ DONE_ARCHIVE_HEADER
          ++ '\n' :: joinNL (split_done_archive (strip_metadata x)).2).head?
          = some c₀ := by
        rcases hm' : (split_done_archive (strip_metadata x)).1 with _ | ⟨c, t⟩
        · exact absurd hm' hm2
        · rw [hm'] at hc₀
          simp only [List.head?_cons, Option.some.injEq] at hc₀
          subst hc₀
          rfl
      have hlsb : ∀ l ∈ pySplitlines (split_done_archive (strip_metadata x)).1
          ++ [[], DONE_ARCHIVE_HEADER] ++ (split_done_archive (strip_metadata x)).2,
          NoBreaks l := by
        intro l hl
        rcases List.mem_append.mp hl with h1 | h1
        · rcases List.mem_append.mp h1 with h2 | h2
          · exact splitlines_noBreaks h2
          · rcases List.mem_cons.mp h2 with rfl | h2
            · exact ⟨by simp, by simp⟩
            · rcases List.mem_cons.mp h2 with rfl | h2
              · exact ⟨by decide, by decide⟩
              · simp at h2
        · exact (hCarch l h1).2.2.1
      have hlslast : (pySplitlines (split_done_archive (strip_metadata x)).1
          ++ [[], DONE_ARCHIVE_HEADER]
          ++ (split_done_archive (strip_metadata x)).2).getLast? ≠ some [] := by
        rw [getLast?_append_right _ _ hAne]
        intro hc
        exact (hCarch [] (mem_of_getLast?_mem hc)).2.1 rfl
      have hfilter : (pySplitlines (split_done_archive (strip_metadata x)).1
          ++ [[], DONE_ARCHIVE_HEADER]
          ++ (split_done_archive (strip_metadata x)).2).filter
            (fun l => (metaLineMatch (pyStrip l)).isNone)
          = pySplitlines (split_done_archive (strip_metadata x)).1
            ++ [[], DONE_ARCHIVE_HEADER]
            ++ (split_done_archive (strip_metadata x)).2 := by
        apply List.filter_eq_self.mpr
        intro l hl
        rcases List.mem_append.mp hl with h1 | h1
        · rcases List.mem_append.mp h1 with h2 | h2
          · exact hm1 l h2
          · rcases List.mem_cons.mp h2 with rfl | h2
            · rfl
            · rcases List.mem_cons.mp h2 with rfl | h2
              · decide
              · simp at h2
        · exact (hCarch l h1).nonMeta
      have hrs : pyRstrip (joinNL (pySplitlines (split_done_archive (strip_metadata x)).1
          ++ [[], DONE_ARCHIVE_HEADER] ++ (split_done_archive (strip_metadata x)).2))
          = joinNL (pySplitlines (split_done_archive (strip_metadata x)).1
          ++ [[], DONE_ARCHIVE_HEADER] ++ (split_done_archive (strip_metadata x)).2) :=
        joinNL_arch_rstrip hCarch hAne (getLast?_append_right _ _ hAne) (by simp)
      have hstrip_fs : pyStrip ((split_done_archive (strip_metadata x)).1
          ++ "\n\n".toList ++ DONE_ARCHIVE_HEADER
          ++ '\n' :: joinNL (split_done_archive (strip_metadata x)).2)
          = (split_done_archive (strip_metadata x)).1 ++ "\n\n".toList
            ++ DONE_ARCHIVE_HEADER
            ++ '\n' :: joinNL (split_done_archive (strip_metadata x)).2 := by
        rw [pyStrip, hfs_join, hrs, ← hfs_join]
        exact pyLstrip_eq_self_of_head hh hc₀ws
      have hsm_fs : strip_metadata ((split_done_archive (strip_metadata x)).1
          ++ "\n\n".toList ++ DONE_ARCHIVE_HEADER
          ++ '\n' :: joinNL (split_done_archive (strip_metadata x)).2)
          = (split_done_archive (strip_metadata x)).1 ++ "\n\n".toList
            ++ DONE_ARCHIVE_HEADER
            ++ '\n' :: joinNL (split_done_archive (strip_metadata x)).2 := by
        rw [strip_metadata, hfs_join,
          splitlines_joinNL (by simp) hlsb hlslast, hfilter, ← hfs_join, hstrip_fs]
      have hassembled := split_done_archive_assembled'
        (pySplitlines (split_done_archive (strip_metadata x)).1)
        (split_done_archive (strip_metadata x)).2 []
        (fun l hl => ⟨splitlines_noBreaks hl,
          fun hc => hmhdr (hc.trans (mem_splitlines_sub hl))⟩)
        hCarch hAne (Or.inl rfl)
      rw [List.append_nil] at hassembled
      have hsplit_fs : split_done_archive ((split_done_archive (strip_metadata x)).1
          ++ "\n\n".toList ++ DONE_ARCHIVE_HEADER
          ++ '\n' :: joinNL (split_done_archive (strip_metadata x)).2)
          = ((split_done_archive (strip_metadata x)).1,
             (split_done_archive (strip_metadata x)).2) := by
        rw [hfs_join, hassembled, List.filter_eq_self.mpr hm1,
          joinNL_splitlines hmcr hmlast, hms,
          List.filter_eq_self.mpr (fun l hl => (harch l hl).2)]
      cases hmeta : get_metadata x with
      | none =>
        rw [if_neg hA, hsm_fs, hsplit_fs]
      | some p =>
        obtain ⟨hph, hpl, hpb⟩ := get_metadata_ok hmeta
        rw [if_neg hA, strip_metadata_set_metadata _ hph hpl hpb, hsm_fs, hsplit_fs]
  rw [hps (assembleState (split_done_archive (strip_metadata x)).1
      (split_done_archive (strip_metadata x)).2 (get_metadata x)), hps x, key]

set_option maxRecDepth 8192 in
theorem parse_render_roundtrip_witness :
    ((∀ l ∈ pySplitlines (split_done_archive (strip_metadata
        "## Today\n\n1. **A**\n\n## Done Archive\n- [x] 2024-06-07 â€” t".toList)).1,
        (metaLineMatch (pyStrip l)).isNone = true)
    ∧ parse_state_sections (assembleState
        (split_done_archive (strip_metadata
          "## Today\n\n1. **A**\n\n## Done Archive\n- [x] 2024-06-07 â€” t".toList)).1
        (split_done_archive (strip_metadata
          "## Today\n\n1. **A**\n\n## Done Archive\n- [x] 2024-06-07 â€” t".toList)).2
        (get_metadata
          "## Today\n\n1. **A**\n\n## Done Archive\n- [x] 2024-06-07 â€” t".toList))
      = parse_state_sections
          "## Today\n\n1. **A**\n\n## Done Archive\n- [x] 2024-06-07 â€” t".toList) :=
  ⟨by decide,
   parse_render_roundtrip
     "## Today\n\n1. **A**\n\n## Done Archive\n- [x] 2024-06-07 â€” t".toList
     (by decide) (by decide)⟩

end BrainDump
